import Mathlib

/-!
# cmat: a shallow embedding of `cmat.h`

The C library works on `CMat` descriptors (`data`, `nrow`, `ncol`, `stride`) that point
into caller-owned or `malloc`ed memory.  Here a block of memory is a function `Nat → α`
from element offsets to values, a `CMat` holds the offset of its origin, and every
routine of the library is a function from memory to memory (or to a value).

* `CMatType` is `double` in C.  The routines are written for any element type `α` that
  has the operations they use.  The theorems on the values computed take arithmetic as
  exact: there `α` is any commutative ring (any field with decidable equality for the
  inverse).  The type `CMatType` of this file is binary64 itself, with rounding to
  nearest, the infinities and NaN, for the statements that rounding decides.
* `CMAT_ASSERT` aborts the program: routines that assert return `Except Fault _`.
* A division by zero is reported as `Fault.divByZero`.
* The recursion of `CMat_det` through `CMat_cofactor` is bounded by a fuel argument;
  `Fault.outOfFuel` reports that the bound was reached.  `CMat_det` starts it with one
  unit per row plus one, which the theorems show to be enough.
* `size_t` values are natural numbers; the one subtraction of the library,
  `nrow - 1` in `CMat_cofactor`, wraps around at `0` as in C.
* `malloc` is taken to succeed; a fresh block is its own memory, disjoint from the
  caller's, with every element initially `0`.
-/

namespace CMat

/-- Ways in which a run of a library routine can fail to return normally. -/
inductive Fault where
  | assertion
  | divByZero
  | outOfFuel
  deriving DecidableEq, Repr

end CMat

open CMat

/-- The matrix descriptor `CMat` of `cmat.h`: `data` is the offset of the origin in the
underlying memory, `stride` the distance between the starts of consecutive rows. -/
structure CMat where
  data : Nat
  nrow : Nat
  ncol : Nat
  stride : Nat
  deriving DecidableEq, Repr

section Loops

variable {σ : Type}

/-- The loop `for (size_t i = 0; i < n; ++i) body`, threading the state through the
iterations `0, 1, ..., n-1` in this order. -/
def forLoop (n : Nat) (body : Nat → σ → σ) (s : σ) : σ :=
  match n with
  | 0 => s
  | k + 1 => body k (forLoop k body s)

/-- The same loop with a body that may abort. -/
def forLoopE (n : Nat) (body : Nat → σ → Except Fault σ) (s : σ) : Except Fault σ :=
  match n with
  | 0 => .ok s
  | k + 1 =>
    match forLoopE k body s with
    | .ok s' => body k s'
    | .error e => .error e

/-- The loop `for (size_t i = 0; i < n; ++i) body` whose body may `return` from the
enclosing function: the body yields `(true, s)` to go on and `(false, s)` to return. -/
def forLoopRet (n : Nat) (body : Nat → σ → Except Fault (Bool × σ)) (s : σ) :
    Except Fault (Bool × σ) :=
  match n with
  | 0 => .ok (true, s)
  | k + 1 =>
    match forLoopRet k body s with
    | .ok (true, s') => body k s'
    | .ok (false, s') => .ok (false, s')
    | .error e => .error e

end Loops

section Core

variable {α : Type}

/-- The value of `cmat->nrow - 1` in `size_t` arithmetic (wraps around at `0`). -/
def size_pred (n : Nat) : Nat := if n = 0 then 2 ^ 64 - 1 else n - 1

/-- Address computed by the macro `CMat_pat(cmat, row, col)`:
`(cmat)->data + (row) * (cmat)->stride + (col)`. -/
def CMat_pat (cmat : CMat) (row col : Nat) : Nat := cmat.data + row * cmat.stride + col

/-- Value read by the macro `CMat_at(cmat, row, col)`, which is `*CMat_pat(cmat, row, col)`. -/
def CMat_at (buf : Nat → α) (cmat : CMat) (row col : Nat) : α := buf (CMat_pat cmat row col)

/-- The macro `CMat_iterate(cmat, row, col, val, block)`; `block` receives the indices and
the pointer `val = CMat_pat(cmat, row, col)`. -/
def CMat_iterate {σ : Type} (cmat : CMat) (block : Nat → Nat → Nat → σ → Except Fault σ)
    (s : σ) : Except Fault σ :=
  forLoopE cmat.nrow (fun row s =>
    forLoopE cmat.ncol (fun col s => block row col (CMat_pat cmat row col) s) s) s

/-- The macro `CMat_iterate2(cmat1, cmat2, row, col, val1, val2, block)`. -/
def CMat_iterate2 {σ : Type} (cmat1 cmat2 : CMat)
    (block : Nat → Nat → Nat → Nat → σ → Except Fault σ) (s : σ) : Except Fault σ :=
  if cmat1.nrow = cmat2.nrow then
    if cmat1.ncol = cmat2.ncol then
      forLoopE cmat1.nrow (fun row s =>
        forLoopE cmat1.ncol (fun col s =>
          block row col (CMat_pat cmat1 row col) (CMat_pat cmat2 row col) s) s) s
    else .error .assertion
  else .error .assertion

/-- The macro `CMat_iterate3(cmat1, cmat2, cmat3, row, col, val1, val2, val3, block)`. -/
def CMat_iterate3 {σ : Type} (cmat1 cmat2 cmat3 : CMat)
    (block : Nat → Nat → Nat → Nat → Nat → σ → Except Fault σ) (s : σ) : Except Fault σ :=
  if cmat1.nrow = cmat2.nrow then
    if cmat1.ncol = cmat2.ncol then
      if cmat1.nrow = cmat3.nrow then
        if cmat1.ncol = cmat3.ncol then
          forLoopE cmat1.nrow (fun row s =>
            forLoopE cmat1.ncol (fun col s =>
              block row col (CMat_pat cmat1 row col) (CMat_pat cmat2 row col)
                (CMat_pat cmat3 row col) s) s) s
        else .error .assertion
      else .error .assertion
    else .error .assertion
  else .error .assertion

/-- The macro `CMat_from_arr(arr, _nrow, _ncol)`; `arr` is the offset of the array. -/
def CMat_from_arr (arr _nrow _ncol : Nat) : CMat :=
  { data := arr, ncol := _ncol, nrow := _nrow, stride := _ncol }

/-- The macro `CMat_from_2darr(arr)` for an array declared `CMatType arr[rows][cols]` at the
offset `arr`: `sizeof(arr)` is `rows * cols * 8`, `sizeof(*arr)` is `cols * 8` and
`sizeof(**arr)` is `8`. -/
def CMat_from_2darr (arr rows cols : Nat) : CMat :=
  CMat_from_arr arr
    (if cols * 8 = 0 then 0 else (rows * cols * 8) / (cols * 8))
    (if cols * 8 = 0 then 0 else (cols * 8) / 8)

/-- The macro `CMat_from_subarr(arr, row_start, col_start, _nrow, _ncol, _stride)`. -/
def CMat_from_subarr (arr row_start col_start _nrow _ncol _stride : Nat) : CMat :=
  { data := arr + row_start * (col_start + _ncol) + col_start
    nrow := _nrow
    ncol := _ncol
    stride := _stride }

/-- The macro `CMat_from_sub2darr(arr, row_start, col_start, _nrow, _ncol)`; the array is
given by its offset `arr` and its row width `width`, which is what
`sizeof(*(arr)) / sizeof(**(arr))` evaluates to. -/
def CMat_from_sub2darr (arr width row_start col_start _nrow _ncol : Nat) : CMat :=
  { data := arr + row_start * (col_start + _ncol) + col_start
    nrow := _nrow
    ncol := _ncol
    stride := width }

/-- The macro `CMat_from_submat(cmat, row_start, col_start, _nrow, _ncol)`. -/
def CMat_from_submat (cmat : CMat) (row_start col_start _nrow _ncol : Nat) : CMat :=
  { data := cmat.data + row_start * (col_start + cmat.stride) + col_start
    nrow := _nrow
    ncol := _ncol
    stride := col_start + cmat.stride }

/-- The function `CMat_init`: a fresh block (all `0`) and its descriptor. -/
def CMat_init [Zero α] (nrow ncol : Nat) : (Nat → α) × CMat :=
  (fun _ => 0, { data := 0, nrow := nrow, ncol := ncol, stride := ncol })

/-- The macro `CMat_transpose(dst, src)`. -/
def CMat_transpose (buf : Nat → α) (dst src : CMat) : Except Fault (Nat → α) :=
  if dst.nrow = src.ncol then
    if dst.ncol = src.nrow then
      CMat_iterate src (fun row col src_val b =>
        .ok (Function.update b (CMat_pat dst col row) (b src_val))) buf
    else .error .assertion
  else .error .assertion

/-- The macro `CMat_dup(src)`: the fresh block of the duplicate and its descriptor. -/
def CMat_dup [Zero α] (buf : Nat → α) (src : CMat) : Except Fault ((Nat → α) × CMat) :=
  let dst : (Nat → α) × CMat := CMat_init src.nrow src.ncol
  match CMat_iterate2 dst.2 src (fun _ _ dst_val src_val d =>
      .ok (Function.update d dst_val (buf src_val))) dst.1 with
  | .ok d => .ok (d, dst.2)
  | .error e => .error e

end Core

section Identity

variable {α : Type} [Zero α] [One α]

/-- The function `CMat_identity`. -/
def CMat_identity (buf : Nat → α) (dst : CMat) : Except Fault (Nat → α) :=
  if dst.nrow = dst.ncol then
    CMat_iterate dst (fun row col val b =>
      .ok (Function.update b val (if row = col then 1 else 0))) buf
  else .error .assertion

end Identity

section Ring

variable {α : Type} [CommRing α]

/-- The function `CMat_dot`. -/
def CMat_dot (buf : Nat → α) (dst cmat1 cmat2 : CMat) : Except Fault (Nat → α) :=
  if cmat1.nrow = dst.nrow then
    if cmat1.ncol = cmat2.nrow then
      if cmat2.ncol = dst.ncol then
        .ok (forLoop dst.ncol (fun col b =>
          forLoop dst.nrow (fun row b =>
            let sum := forLoop cmat1.ncol
              (fun i sum => sum + CMat_at b cmat1 row i * CMat_at b cmat2 i col) 0
            Function.update b (CMat_pat dst row col) sum) b) buf)
      else .error .assertion
    else .error .assertion
  else .error .assertion

/-- The fill loop of `CMat_cofactor`: copies every element of `cmat` outside row `row` and
column `col` to `submat.data[idx++]`.  The state is the block of `submat` and `idx`. -/
def CMat_cofactor_fill (buf : Nat → α) (cmat : CMat) (row col : Nat)
    (st : (Nat → α) × Nat) : (Nat → α) × Nat :=
  forLoop cmat.nrow (fun i st =>
    forLoop cmat.ncol (fun j st =>
      if i = row ∨ j = col then st
      else (Function.update st.1 st.2 (CMat_at buf cmat i j), st.2 + 1)) st) st

/-- The body of `CMat_cofactor`, with the function it calls for the determinant of the
minor as a parameter. -/
def CMat_cofactor_with (det : (Nat → α) → CMat → Except Fault α)
    (buf : Nat → α) (cmat : CMat) (row col : Nat) : Except Fault α :=
  let submat : (Nat → α) × CMat := CMat_init (size_pred cmat.nrow) (size_pred cmat.ncol)
  let filled := CMat_cofactor_fill buf cmat row col (submat.1, 0)
  match det filled.1 submat.2 with
  | .ok d => .ok (if (row + col) % 2 = 0 then d else -d)
  | .error e => .error e

/-- The function `CMat_det`, with a bound `fuel` on the depth of the recursion through
`CMat_cofactor`. -/
def CMat_det_fuel : Nat → (Nat → α) → CMat → Except Fault α
  | 0, _, _ => .error .outOfFuel
  | fuel + 1, buf, cmat =>
    if cmat.nrow = cmat.ncol then
      if cmat.nrow = 0 then .ok 1
      else
        forLoopE cmat.ncol (fun col det =>
          match CMat_cofactor_with (CMat_det_fuel fuel) buf cmat 0 col with
          | .ok c => .ok (det + CMat_at buf cmat 0 col * c)
          | .error e => .error e) 0
    else .error .assertion

/-- The function `CMat_det`: the recursion goes through one call per remaining row. -/
def CMat_det (buf : Nat → α) (cmat : CMat) : Except Fault α :=
  CMat_det_fuel (cmat.nrow + 1) buf cmat

/-- The function `CMat_cofactor`. -/
def CMat_cofactor (buf : Nat → α) (cmat : CMat) (row col : Nat) : Except Fault α :=
  CMat_cofactor_with CMat_det buf cmat row col

/-- The function `CMat_adj`. -/
def CMat_adj (buf : Nat → α) (dst src : CMat) : Except Fault (Nat → α) :=
  if src.nrow = src.ncol then
    if dst.nrow = src.nrow then
      if dst.ncol = src.ncol then
        CMat_iterate src (fun row col _ b =>
          match CMat_cofactor b src row col with
          | .ok c => .ok (Function.update b (CMat_pat dst col row) c)
          | .error e => .error e) buf
      else .error .assertion
    else .error .assertion
  else .error .assertion

end Ring

section Inverse

variable {α : Type} [Zero α] [One α] [Sub α] [Mul α] [Div α] [DecidableEq α]

/-- The pivot search of `CMat_inverse`:
`for (; j < cmat->nrow; ++j) if (CMat_at(cmat, j, i) != 0) { found = true; break; }`
started at `j = i + 1`.  The result is the `j` at the `break`, or `none` when `found`
stays `false`. -/
def CMat_inverse_search (buf : Nat → α) (cmat : CMat) (i : Nat) : Option Nat :=
  (List.range' (i + 1) (cmat.nrow - (i + 1))).find? (fun j => CMat_at buf cmat j i ≠ 0)

/-- The swap loop of `CMat_inverse`: exchanges rows `i` and `j` of `cmat` and of `id`,
one column at a time.  The state is the memory of `cmat` and the block of `id`. -/
def CMat_inverse_swap (cmat id : CMat) (i j : Nat) (s : (Nat → α) × (Nat → α)) :
    (Nat → α) × (Nat → α) :=
  forLoop cmat.ncol (fun k s =>
    let temp := CMat_at s.1 cmat i k
    let b := Function.update s.1 (CMat_pat cmat i k) (CMat_at s.1 cmat j k)
    let b := Function.update b (CMat_pat cmat j k) temp
    let temp := CMat_at s.2 id i k
    let d := Function.update s.2 (CMat_pat id i k) (CMat_at s.2 id j k)
    let d := Function.update d (CMat_pat id j k) temp
    (b, d)) s

/-- The loop `for (col < cmat->ncol) CMat_at(cmat, i, col) /= div`. -/
def CMat_inverse_div (cmat : CMat) (i : Nat) (div : α) (buf : Nat → α) : Nat → α :=
  forLoop cmat.ncol (fun col b =>
    Function.update b (CMat_pat cmat i col) (CMat_at b cmat i col / div)) buf

/-- The loop `for (col < cmat->ncol) CMat_at(cmat, row, col) -= CMat_at(cmat, i, col) * x`. -/
def CMat_inverse_sub (cmat : CMat) (row i : Nat) (x : α) (buf : Nat → α) : Nat → α :=
  forLoop cmat.ncol (fun col b =>
    Function.update b (CMat_pat cmat row col)
      (CMat_at b cmat row col - CMat_at b cmat i col * x)) buf

/-- The elimination loop of `CMat_inverse` for the pivot `i`. -/
def CMat_inverse_elim (cmat id : CMat) (i : Nat) (s : (Nat → α) × (Nat → α)) :
    (Nat → α) × (Nat → α) :=
  forLoop cmat.nrow (fun row s =>
    if row = i then s
    else
      let x := CMat_at s.1 cmat row i
      (CMat_inverse_sub cmat row i x s.1, CMat_inverse_sub id row i x s.2)) s

/-- One iteration of the pivot loop of `CMat_inverse`, for the pivot index `i`.  The flag
is `false` when the iteration executes `return false`. -/
def CMat_inverse_iter (cmat id : CMat) (i : Nat) (s : (Nat → α) × (Nat → α)) :
    Except Fault (Bool × ((Nat → α) × (Nat → α))) :=
  let pivoted : Option ((Nat → α) × (Nat → α)) :=
    if CMat_at s.1 cmat i i = 0 then
      match CMat_inverse_search s.1 cmat i with
      | none => none
      | some j => some (CMat_inverse_swap cmat id i j s)
    else some s
  match pivoted with
  | none => .ok (false, s)
  | some s =>
    let div := CMat_at s.1 cmat i i
    if div = 0 then .error .divByZero
    else
      let s := (CMat_inverse_div cmat i div s.1, CMat_inverse_div id i div s.2)
      .ok (true, CMat_inverse_elim cmat id i s)

/-- The function `CMat_inverse`: the flag it returns and the memory it leaves.  The final
`CMat_iterate2` writes to the memory of `cmat` and reads the block of `id`. -/
def CMat_inverse (buf : Nat → α) (cmat : CMat) : Except Fault (Bool × (Nat → α)) :=
  let id : (Nat → α) × CMat := CMat_init cmat.nrow cmat.ncol
  match CMat_identity id.1 id.2 with
  | .error e => .error e
  | .ok ibuf =>
    match forLoopRet cmat.nrow (CMat_inverse_iter cmat id.2) (buf, ibuf) with
    | .error e => .error e
    | .ok (false, s) => .ok (false, s.1)
    | .ok (true, s) =>
      match CMat_iterate2 cmat id.2 (fun _ _ val1 val2 b =>
          .ok (Function.update b val1 (s.2 val2))) s.1 with
      | .error e => .error e
      | .ok b => .ok (true, b)

end Inverse

section Views

variable {α : Type}

/-- The logical contents of a descriptor: the `n × n` matrix of the values read by
`CMat_at` at the rows and columns below `n`. -/
def CMat.toMatrix (n : Nat) (buf : Nat → α) (cmat : CMat) : Matrix (Fin n) (Fin n) α :=
  Matrix.of (fun r c => CMat_at buf cmat r c)

/-- The index in the original matrix of the row or column that has index `k` once the
row or column `d` is deleted. -/
def skipIndex (d k : Nat) : Nat := if k < d then k else k + 1

end Views

section Examples

/-- The array `arr` of `example_det` and `example_inverse` in `main.c`, as a block of
memory holding its sixteen elements row by row from offset `0`. -/
def example_arr : Nat → ℤ :=
  fun i => [-1, 0, 0, -2, 1, 0, 5, -5, 0, 1, 4, 0, 0, 0, -5, 0].getD i 0

/-- The same array with rational elements. -/
def example_arr_rat : Nat → ℚ := fun i => (example_arr i : ℚ)

/-- The descriptor `cmat` of `example_det` and `example_inverse`: 4 rows, 4 columns. -/
def example_cmat : CMat := CMat_from_arr 0 4 4

/-- The memory of `example_dot` in `main.c`: `arr1` (2 × 3) from offset `0`, `arr2` (3 × 2)
from offset `6`, and `arr3` (2 × 2) from offset `12`. -/
def example_dot_mem : Nat → ℤ :=
  fun i => [1, 2, 3, 4, 5, 6, 10, 11, 20, 21, 30, 31].getD i 0

end Examples

section Invariant

variable {α : Type} [Field α]

/-- The invariant of the pivot loop of `CMat_inverse` when `k` pivots are done, for the
input matrix `A0`: the block of `id` holds an invertible matrix `E` with `E * A0 = m`,
where `m` is the current contents of `cmat`, and the columns of `m` below `k` are those
of the identity. -/
def CMat_inverse_inv (n : Nat) (cmat id : CMat) (A0 : Matrix (Fin n) (Fin n) α) (k : Nat)
    (s : (Nat → α) × (Nat → α)) : Prop :=
  CMat.toMatrix n s.2 id * A0 = CMat.toMatrix n s.1 cmat ∧
  (CMat.toMatrix n s.2 id).det ≠ 0 ∧
  ∀ r c : Fin n, (c : Nat) < k → CMat.toMatrix n s.1 cmat r c = if r = c then 1 else 0

end Invariant

deriving instance DecidableEq for Except

section MoreExamples

/-- The minor of `example_arr` without row `0` and column `1`, as a block of nine
elements row by row. -/
def example_minor : Nat → ℤ := fun i => [1, 5, -5, 0, 4, 0, 0, -5, 0].getD i 0

/-- A singular 2 × 2 matrix (its second row is zero) as a block of four elements. -/
def singular_arr : Nat → ℚ := fun i => [1, 2, 0, 0].getD i 0

/-- The first sixteen elements of a memory, read after `CMat_inverse` returned `flag`. -/
def inverse_result (flag : Bool) (r : Except Fault (Bool × (Nat → ℚ))) : List ℚ :=
  match r with
  | .ok (f, res) => if f = flag then (List.range 16).map res else []
  | .error _ => []

end MoreExamples

section Elementwise

/-- The statement `CMat_iterate2(cmat1, cmat2, row, col, val1, val2, *val1 += *val2;)` of
`example_add` in `main.c`, both matrices being in the memory `buf`. -/
def CMat_iterate2_add {α : Type} [Add α] (buf : Nat → α) (cmat1 cmat2 : CMat) :
    Except Fault (Nat → α) :=
  CMat_iterate2 cmat1 cmat2
    (fun _ _ val1 val2 b => .ok (Function.update b val1 (b val1 + b val2))) buf

/-- The memory of `example_add` in `main.c`: `arr1` (3 × 2) from offset `0` and `arr2`
(3 × 2) from offset `6`. -/
def example_add_mem : Nat → ℤ :=
  fun i => [1, 2, 3, 4, 5, 6, 10, 11, 20, 21, 30, 31].getD i 0

/-- The singular matrix `[[1, 1], [1, 1]]` as a block of four elements. -/
def example_ones : Nat → ℚ := fun i => [1, 1, 1, 1].getD i 0

end Elementwise

section InverseSteps

variable {α : Type} [Zero α] [One α] [Sub α] [Mul α] [Div α] [DecidableEq α]

/-- The function `CMat_inverse` up to the end of the first `k` iterations of its pivot
loop: the flag is `false` when one of them executed `return false`, and the state is the
memory of `cmat` and the block of `id`. -/
def CMat_inverse_steps (buf : Nat → α) (cmat : CMat) (k : Nat) :
    Except Fault (Bool × ((Nat → α) × (Nat → α))) :=
  let id : (Nat → α) × CMat := CMat_init cmat.nrow cmat.ncol
  match CMat_identity id.1 id.2 with
  | .error e => .error e
  | .ok ibuf => forLoopRet k (CMat_inverse_iter cmat id.2) (buf, ibuf)

end InverseSteps

section FillLog

/-- The fill loop of `CMat_cofactor` with a record of its accesses: beside the block of
`submat` and `idx`, the state holds, in the order of execution, one entry `(idx, i, j)`
for each assignment `submat.data[idx++] = CMat_at(cmat, i, j)`. -/
def CMat_cofactor_fill_log {α : Type} (buf : Nat → α) (cmat : CMat) (row col : Nat)
    (st : (Nat → α) × Nat) : ((Nat → α) × Nat) × List (Nat × Nat × Nat) :=
  forLoop cmat.nrow (fun i s =>
    forLoop cmat.ncol (fun j s =>
      if i = row ∨ j = col then s
      else ((Function.update s.1.1 s.1.2 (CMat_at buf cmat i j), s.1.2 + 1),
        s.2 ++ [(s.1.2, i, j)])) s) (st, [])

/-- A 3 × 3 view with stride `5` at offset `2` of a memory of seventeen elements, holding
`[[2, 0, 1], [1, 3, 0], [0, 1, 4]]`; the elements outside the view are `7`. -/
def example_strided : Nat → ℚ :=
  fun i => [7, 7, 2, 0, 1, 7, 7, 1, 3, 0, 7, 7, 0, 1, 4, 7, 7].getD i 0

/-- The descriptor of the 3 × 3 view of `example_strided`: offset `2`, stride `5`. -/
def example_view : CMat := { data := 2, nrow := 3, ncol := 3, stride := 5 }

/-- The contiguous copy of the view of `example_strided`. -/
def example_contiguous : Nat → ℚ := fun i => [2, 0, 1, 1, 3, 0, 0, 1, 4].getD i 0

end FillLog

section Contents

/-- Two descriptors have the same logical `n × n` contents: `CMat_at` reads equal values at
every row and column below `n`. -/
def CMat.sameContents {α : Type} (n : Nat) (buf : Nat → α) (cmat : CMat) (buf' : Nat → α)
    (cmat' : CMat) : Prop :=
  ∀ r c, r < n → c < n → CMat_at buf cmat r c = CMat_at buf' cmat' r c

end Contents

section Double

/-- The values of the C type `double` (IEEE 754 binary64), the type `CMatType` of
`cmat.h`: a finite value is the rational number it denotes, and there are the two
infinities and NaN.  Zero has no sign here, so `-0.0` and `0.0` are one value, as they
are for the comparisons `== 0` and `!= 0` of C; the sign of a zero shows in C only in
the sign of the infinity obtained by dividing by it. -/
inductive CMatType where
  | finite (q : ℚ)
  | inf (negative : Bool)
  | nan
  deriving DecidableEq

/-- The rational `2 ^ k` for an integer `k`. -/
def pow2 (k : Int) : ℚ :=
  if 0 ≤ k then ((2 ^ k.toNat : Nat) : ℚ) else 1 / ((2 ^ (-k).toNat : Nat) : ℚ)

/-- The number of halvings that bring `n` below `2`, at most `fuel` of them. -/
def floorLog2_fuel : Nat → Nat → Nat
  | 0, _ => 0
  | fuel + 1, n => if n < 2 then 0 else floorLog2_fuel fuel (n / 2) + 1

/-- The natural number `e` with `2 ^ e ≤ n < 2 ^ (e + 1)`, for `n ≥ 1`. -/
def floorLog2 (n : Nat) : Nat := floorLog2_fuel n n

/-- The integer `e` with `2 ^ e ≤ a < 2 ^ (e + 1)`, for a positive rational `a`. -/
def ilog2 (a : ℚ) : Int :=
  let k : Int := (floorLog2 a.num.natAbs : Int) - (floorLog2 a.den : Int)
  if pow2 k ≤ a then k else k - 1

/-- The integer nearest to a rational `x ≥ 0`, the even one of the two when `x` is half
way between them. -/
def roundHalfEven (x : ℚ) : Nat :=
  let f : Nat := x.num.natAbs / x.den
  let rest : ℚ := x - (f : ℚ)
  if rest < 1 / 2 then f
  else if 1 / 2 < rest then f + 1
  else if f % 2 = 0 then f else f + 1

/-- The `double` that an operation with the exact result `q` returns: `q` rounded to the
nearest value with a significand of 53 bits (to a multiple of `2 ^ (-1074)` below
`2 ^ (-1022)`), ties to even, and an infinity when the rounded value reaches `2 ^ 1024`. -/
def CMatType.round (q : ℚ) : CMatType :=
  if q = 0 then .finite 0
  else
    let a : ℚ := if q < 0 then -q else q
    let e : Int := max (ilog2 a) (-1022)
    let ulp : ℚ := pow2 (e - 52)
    let r : ℚ := (roundHalfEven (a / ulp) : ℚ) * ulp
    if pow2 1024 ≤ r then .inf (decide (q < 0))
    else .finite (if q < 0 then -r else r)

/-- Unary minus of `double`. -/
def CMatType.neg : CMatType → CMatType
  | .finite q => .finite (-q)
  | .inf s => .inf (!s)
  | .nan => .nan

/-- Addition of `double`. -/
def CMatType.add : CMatType → CMatType → CMatType
  | .finite a, .finite b => CMatType.round (a + b)
  | .finite _, .inf s => .inf s
  | .inf s, .finite _ => .inf s
  | .inf s, .inf t => if s = t then .inf s else .nan
  | .nan, _ => .nan
  | _, .nan => .nan

/-- Multiplication of `double`. -/
def CMatType.mul : CMatType → CMatType → CMatType
  | .finite a, .finite b => CMatType.round (a * b)
  | .finite a, .inf s => if a = 0 then .nan else .inf (xor (decide (a < 0)) s)
  | .inf s, .finite b => if b = 0 then .nan else .inf (xor s (decide (b < 0)))
  | .inf s, .inf t => .inf (xor s t)
  | .nan, _ => .nan
  | _, .nan => .nan

/-- Division of `double`; a zero divisor counts as `+0`. -/
def CMatType.div : CMatType → CMatType → CMatType
  | .finite a, .finite b =>
    if b = 0 then (if a = 0 then .nan else .inf (decide (a < 0)))
    else CMatType.round (a / b)
  | .finite _, .inf _ => .finite 0
  | .inf s, .finite b => .inf (xor s (decide (b < 0)))
  | .inf _, .inf _ => .nan
  | .nan, _ => .nan
  | _, .nan => .nan

instance : Zero CMatType := ⟨.finite 0⟩

instance : One CMatType := ⟨.finite 1⟩

instance : Neg CMatType := ⟨CMatType.neg⟩

instance : Add CMatType := ⟨CMatType.add⟩

instance : Sub CMatType := ⟨fun x y => CMatType.add x (CMatType.neg y)⟩

instance : Mul CMatType := ⟨CMatType.mul⟩

instance : Div CMatType := ⟨CMatType.div⟩

/-- The singular matrix `[[49, 1], [49, 1]]` as a block of four rationals. -/
def example_rounding_rat : Nat → ℚ := fun i => [49, 1, 49, 1].getD i 0

/-- The same block as `double` values. -/
def example_rounding : Nat → CMatType := fun i => .finite (example_rounding_rat i)

/-- The matrix `[[2 ^ (-600), 2 ^ 600], [0, 0]]`, whose second row is zero, as a block of
four `double` values. -/
def example_overflow : Nat → CMatType :=
  fun i => [.finite (pow2 (-600)), .finite (pow2 600), .finite 0, .finite 0].getD i 0

end Double

/-! ## Loops -/

section LoopLemmas

variable {σ : Type}

theorem forLoop_succ (n : Nat) (body : Nat → σ → σ) (s : σ) :
    forLoop (n + 1) body s = body n (forLoop n body s) := rfl

/-- Invariant rule for `forLoop`. -/
theorem forLoop_invariant (P : Nat → σ → Prop) (n : Nat) (body : Nat → σ → σ) (s : σ)
    (h0 : P 0 s) (hstep : ∀ k, k < n → ∀ t, P k t → P (k + 1) (body k t)) :
    P n (forLoop n body s) := by
  induction n with
  | zero => exact h0
  | succ k ih =>
    exact hstep k (Nat.lt_succ_self k) _
      (ih (fun j hj t ht => hstep j (Nat.lt_succ_of_lt hj) t ht))

/-- A loop whose body never changes the state leaves it as it was. -/
theorem forLoop_skip (n : Nat) (body : Nat → σ → σ) (s : σ)
    (h : ∀ k, k < n → ∀ t, body k t = t) : forLoop n body s = s := by
  refine forLoop_invariant (fun _ t => t = s) n body s rfl ?_
  intro k hk t ht
  rw [h k hk t, ht]

/-- A loop on a pair of states whose body treats the components independently. -/
theorem forLoop_pair {τ : Type} (n : Nat) (f : Nat → σ → σ) (g : Nat → τ → τ) (s : σ × τ) :
    forLoop n (fun k (p : σ × τ) => (f k p.1, g k p.2)) s
      = (forLoop n f s.1, forLoop n g s.2) := by
  induction n with
  | zero => rfl
  | succ k ih => simp only [forLoop_succ, ih]

/-- A loop whose body never aborts runs as the loop of the pure body. -/
theorem forLoopE_pure (n : Nat) (body : Nat → σ → σ) (s : σ) :
    forLoopE n (fun k t => Except.ok (body k t)) s = Except.ok (forLoop n body s) := by
  induction n with
  | zero => rfl
  | succ k ih => simp only [forLoopE, ih, forLoop_succ]

/-- Invariant rule for `forLoopE`: when the body succeeds on every state that satisfies
the invariant, so does the loop. -/
theorem forLoopE_invariant (P : Nat → σ → Prop) (n : Nat) (body : Nat → σ → Except Fault σ)
    (s : σ) (h0 : P 0 s)
    (hstep : ∀ k, k < n → ∀ t, P k t → ∃ t', body k t = Except.ok t' ∧ P (k + 1) t') :
    ∃ t, forLoopE n body s = Except.ok t ∧ P n t := by
  induction n with
  | zero => exact ⟨s, rfl, h0⟩
  | succ k ih =>
    obtain ⟨t, ht, hP⟩ := ih (fun j hj t ht => hstep j (Nat.lt_succ_of_lt hj) t ht)
    obtain ⟨t', ht', hP'⟩ := hstep k (Nat.lt_succ_self k) t hP
    exact ⟨t', by simp only [forLoopE, ht, ht'], hP'⟩

/-- A summation loop computes the sum over the range. -/
theorem forLoop_sum {α : Type} [AddCommMonoid α] (n : Nat) (f : Nat → α) :
    forLoop n (fun i sum => sum + f i) 0 = ∑ i in Finset.range n, f i := by
  induction n with
  | zero => rfl
  | succ k ih => rw [forLoop_succ, ih, Finset.sum_range_succ]

end LoopLemmas

/-! ## Addressing -/

theorem CMat_pat_eq (cmat : CMat) (row col : Nat) :
    CMat_pat cmat row col = cmat.data + row * cmat.stride + col := rfl

/-- Within the column range of a descriptor whose stride is at least its width, distinct
index pairs have distinct addresses. -/
theorem CMat_pat_inj (cmat : CMat) (hs : cmat.ncol ≤ cmat.stride) {r c r' c' : Nat}
    (hc : c < cmat.ncol) (hc' : c' < cmat.ncol)
    (h : CMat_pat cmat r c = CMat_pat cmat r' c') : r = r' ∧ c = c' := by
  simp only [CMat_pat] at h
  rcases Nat.lt_trichotomy r r' with hlt | heq | hgt
  · have := Nat.mul_le_mul_right cmat.stride (Nat.succ_le_of_lt hlt)
    rw [Nat.succ_mul] at this
    omega
  · subst heq
    exact ⟨rfl, by omega⟩
  · have := Nat.mul_le_mul_right cmat.stride (Nat.succ_le_of_lt hgt)
    rw [Nat.succ_mul] at this
    omega

theorem CMat_pat_ne (cmat : CMat) (hs : cmat.ncol ≤ cmat.stride) {r c r' c' : Nat}
    (hc : c < cmat.ncol) (hc' : c' < cmat.ncol) (hne : r ≠ r' ∨ c ≠ c') :
    CMat_pat cmat r c ≠ CMat_pat cmat r' c' := by
  intro h
  obtain ⟨h1, h2⟩ := CMat_pat_inj cmat hs hc hc' h
  rcases hne with hne | hne
  · exact hne h1
  · exact hne h2

/-! ## Loops that write one cell per iteration -/

section WriteLoops

variable {α : Type}

/-- A loop that writes the value `v y` at the address `addr y` in iteration `y`, the
addresses being distinct: afterwards every `addr y` holds `v y` and the rest of the memory
is as before.  The body may read the memory that the earlier iterations have not written. -/
theorem forLoopE_update (Y : Nat) (addr : Nat → Nat) (v : Nat → α)
    (body : Nat → (Nat → α) → Except Fault (Nat → α)) (buf : Nat → α)
    (hinj : ∀ y y', y < Y → y' < Y → addr y = addr y' → y = y')
    (hbody : ∀ y, y < Y → ∀ b : Nat → α,
      (∀ a, (∀ y', y' < y → a ≠ addr y') → b a = buf a) →
      body y b = Except.ok (Function.update b (addr y) (v y))) :
    ∃ res, forLoopE Y body buf = Except.ok res ∧
      (∀ y, y < Y → res (addr y) = v y) ∧
      (∀ a, (∀ y, y < Y → a ≠ addr y) → res a = buf a) := by
  have key : ∀ n, n ≤ Y → ∃ res, forLoopE n body buf = Except.ok res ∧
      (∀ y, y < n → res (addr y) = v y) ∧
      (∀ a, (∀ y, y < n → a ≠ addr y) → res a = buf a) := by
    intro n
    induction n with
    | zero =>
      intro _
      exact ⟨buf, rfl, fun y hy => absurd hy (Nat.not_lt_zero y), fun a _ => rfl⟩
    | succ k ih =>
      intro hk
      obtain ⟨b, hb, hval, hframe⟩ := ih (Nat.le_of_succ_le hk)
      refine ⟨Function.update b (addr k) (v k), ?_, ?_, ?_⟩
      · simp only [forLoopE, hb]
        exact hbody k hk b hframe
      · intro y hy
        rcases Nat.lt_succ_iff_lt_or_eq.mp hy with hlt | heq
        · have hne : addr y ≠ addr k := fun h =>
            absurd (hinj y k (Nat.lt_of_lt_of_le hy hk) hk h) (Nat.ne_of_lt hlt)
          rw [Function.update_noteq hne]
          exact hval y hlt
        · rw [heq, Function.update_same]
      · intro a ha
        rw [Function.update_noteq (ha k (Nat.lt_succ_self k))]
        exact hframe a (fun y hy => ha y (Nat.lt_succ_of_lt hy))
  exact key Y (Nat.le_refl Y)

/-- The two-level version of `forLoopE_update`: iteration `(x, y)` of the nested loops
writes `v x y` at `addr x y`. -/
theorem forLoopE2_update (X Y : Nat) (addr : Nat → Nat → Nat) (v : Nat → Nat → α)
    (body : Nat → Nat → (Nat → α) → Except Fault (Nat → α)) (buf : Nat → α)
    (hinj : ∀ x y x' y', x < X → y < Y → x' < X → y' < Y →
      addr x y = addr x' y' → x = x' ∧ y = y')
    (hbody : ∀ x y, x < X → y < Y → ∀ b : Nat → α,
      (∀ a, (∀ x' y', x' < X → y' < Y → a ≠ addr x' y') → b a = buf a) →
      body x y b = Except.ok (Function.update b (addr x y) (v x y))) :
    ∃ res, forLoopE X (fun x s => forLoopE Y (fun y s => body x y s) s) buf = Except.ok res ∧
      (∀ x y, x < X → y < Y → res (addr x y) = v x y) ∧
      (∀ a, (∀ x y, x < X → y < Y → a ≠ addr x y) → res a = buf a) := by
  have key : ∀ n, n ≤ X → ∃ res,
      forLoopE n (fun x s => forLoopE Y (fun y s => body x y s) s) buf = Except.ok res ∧
      (∀ x y, x < n → y < Y → res (addr x y) = v x y) ∧
      (∀ a, (∀ x y, x < n → y < Y → a ≠ addr x y) → res a = buf a) := by
    intro n
    induction n with
    | zero =>
      intro _
      exact ⟨buf, rfl, fun x y hx => absurd hx (Nat.not_lt_zero x), fun a _ => rfl⟩
    | succ k ih =>
      intro hk
      obtain ⟨b, hb, hval, hframe⟩ := ih (Nat.le_of_succ_le hk)
      obtain ⟨res, hres, hrval, hrframe⟩ := forLoopE_update Y (addr k) (v k) (body k) b
        (fun y y' hy hy' h => (hinj k y k y' hk hy hk hy' h).2)
        (fun y hy b' hb' => hbody k y hk hy b' (fun a ha => by
          rw [hb' a (fun y' _ => ha k y' hk (by omega))]
          exact hframe a (fun x' y' hx' hy' => ha x' y' (by omega) hy')))
      refine ⟨res, ?_, ?_, ?_⟩
      · simp only [forLoopE, hb]
        exact hres
      · intro x y hx hy
        rcases Nat.lt_succ_iff_lt_or_eq.mp hx with hlt | heq
        · rw [hrframe _ (fun y' hy' h =>
            absurd (hinj x y k y' (by omega) hy hk hy' h).1 (Nat.ne_of_lt hlt))]
          exact hval x y hlt hy
        · rw [heq]
          exact hrval y hy
      · intro a ha
        rw [hrframe a (fun y hy => ha k y (Nat.lt_succ_self k) hy)]
        exact hframe a (fun x y hx hy => ha x y (Nat.lt_succ_of_lt hx) hy)
  exact key X (Nat.le_refl X)

end WriteLoops

/-! ## `CMat_dot` -/

section Dot

variable {α : Type} [CommRing α]

/-- What `CMat_dot` computes when `dst` shares no cell with the operands. -/
theorem CMat_dot_spec (buf : Nat → α) (dst cmat1 cmat2 : CMat)
    (h1 : cmat1.nrow = dst.nrow) (h2 : cmat1.ncol = cmat2.nrow) (h3 : cmat2.ncol = dst.ncol)
    (hs : dst.ncol ≤ dst.stride)
    (hd1 : ∀ r c r' i, r < dst.nrow → c < dst.ncol → r' < cmat1.nrow → i < cmat1.ncol →
      CMat_pat cmat1 r' i ≠ CMat_pat dst r c)
    (hd2 : ∀ r c i c', r < dst.nrow → c < dst.ncol → i < cmat2.nrow → c' < cmat2.ncol →
      CMat_pat cmat2 i c' ≠ CMat_pat dst r c) :
    ∃ res, CMat_dot buf dst cmat1 cmat2 = Except.ok res ∧
      (∀ r c, r < dst.nrow → c < dst.ncol →
        CMat_at res dst r c
          = ∑ i in Finset.range cmat1.ncol, CMat_at buf cmat1 r i * CMat_at buf cmat2 i c) ∧
      (∀ a, (∀ r c, r < dst.nrow → c < dst.ncol → a ≠ CMat_pat dst r c) → res a = buf a) := by
  obtain ⟨res, hres, hval, hframe⟩ := forLoopE2_update dst.ncol dst.nrow
    (fun col row => CMat_pat dst row col)
    (fun col row =>
      ∑ i in Finset.range cmat1.ncol, CMat_at buf cmat1 row i * CMat_at buf cmat2 i col)
    (fun col row b => Except.ok (Function.update b (CMat_pat dst row col)
      (forLoop cmat1.ncol (fun i sum => sum + CMat_at b cmat1 row i * CMat_at b cmat2 i col) 0)))
    buf
    (fun x y x' y' hx _ hx' _ h => (CMat_pat_inj dst hs hx hx' h).symm)
    (by
      intro col row hcol hrow b hb
      beta_reduce at hb ⊢
      rw [forLoop_sum]
      have hsum : (∑ i in Finset.range cmat1.ncol, CMat_at b cmat1 row i * CMat_at b cmat2 i col)
          = ∑ i in Finset.range cmat1.ncol, CMat_at buf cmat1 row i * CMat_at buf cmat2 i col := by
        refine Finset.sum_congr rfl (fun i hi => ?_)
        have hi' : i < cmat1.ncol := Finset.mem_range.mp hi
        simp only [CMat_at]
        rw [hb _ (fun x' y' hx' hy' => hd1 y' x' row i hy' hx' (h1 ▸ hrow) hi'),
          hb _ (fun x' y' hx' hy' => hd2 y' x' i col hy' hx' (h2 ▸ hi') (h3 ▸ hcol))]
      rw [hsum])
  simp only [forLoopE_pure] at hres
  refine ⟨res, ?_, fun r c hr hc => hval c r hc hr, fun a ha => hframe a (fun x y hx hy => ha y x hy hx)⟩
  rw [CMat_dot, if_pos h1, if_pos h2, if_pos h3]
  exact hres

end Dot

/-! ## The minor built by `CMat_cofactor` -/

section Fill

variable {α : Type}

/-- The number of indices below `k` other than `d`. -/
theorem skipIndex_lt (d k : Nat) (h : k < d) : skipIndex d k = k := by
  simp [skipIndex, h]

theorem skipIndex_ge (d k : Nat) (h : d ≤ k) : skipIndex d k = k + 1 := by
  simp [skipIndex, Nat.not_lt.mpr h]

/-- The inner loop of the fill, on a row that is kept: it appends the row without the
element of column `col`. -/
theorem CMat_cofactor_fill_row [CommRing α] (buf : Nat → α) (cmat : CMat) (i col : Nat)
    (d : Nat → α) (base J : Nat) :
    ∃ d', forLoop J (fun j (st : (Nat → α) × Nat) =>
        if j = col then st
        else (Function.update st.1 st.2 (CMat_at buf cmat i j), st.2 + 1)) (d, base)
          = (d', base + (if col < J then J - 1 else J)) ∧
      (∀ c, c < (if col < J then J - 1 else J) →
        d' (base + c) = CMat_at buf cmat i (skipIndex col c)) ∧
      (∀ a, a < base → d' a = d a) := by
  induction J with
  | zero => exact ⟨d, by simp [forLoop], by simp, fun a _ => rfl⟩
  | succ k ih =>
    obtain ⟨d', hd', hval, hframe⟩ := ih
    rw [forLoop_succ, hd']
    by_cases hk : k = col
    · subst hk
      refine ⟨d', by simp, ?_, hframe⟩
      intro c hc
      simp only [Nat.lt_succ_self, if_true, Nat.add_sub_cancel] at hc
      exact hval c (by simpa using hc)
    · rw [if_neg hk]
      refine ⟨Function.update d' (base + if col < k then k - 1 else k) (CMat_at buf cmat i k),
        ?_, ?_, ?_⟩
      · congr 1
        split_ifs <;> omega
      · intro c hc
        by_cases hck : c < (if col < k then k - 1 else k)
        · rw [Function.update_noteq (by omega)]
          exact hval c hck
        · have hceq : c = (if col < k then k - 1 else k) := by
            split_ifs at hc hck ⊢ <;> omega
          rw [hceq, Function.update_same]
          congr 1
          split_ifs with h1
          · rw [skipIndex_ge col (k - 1) (by omega)]
            omega
          · rw [skipIndex_lt col k (by omega)]
      · intro a ha
        rw [Function.update_noteq (by omega)]
        exact hframe a ha

/-- The block filled by `CMat_cofactor` for an `(n+1) × (n+1)` matrix: read with stride `n`,
it is the matrix without row `row` and column `col`, and `idx` ends at `n * n`. -/
theorem CMat_cofactor_fill_spec [CommRing α] (buf : Nat → α) (cmat : CMat) (n row col : Nat)
    (hr : cmat.nrow = n + 1) (hc : cmat.ncol = n + 1) (hrow : row ≤ n) (hcol : col ≤ n)
    (d : Nat → α) :
    (CMat_cofactor_fill buf cmat row col (d, 0)).2 = n * n ∧
    ∀ r c, r < n → c < n →
      (CMat_cofactor_fill buf cmat row col (d, 0)).1 (r * n + c)
        = CMat_at buf cmat (skipIndex row r) (skipIndex col c) := by
  have key := forLoop_invariant
    (fun I (st : (Nat → α) × Nat) =>
      st.2 = (if row < I then I - 1 else I) * n ∧
      ∀ r c, r < (if row < I then I - 1 else I) → c < n →
        st.1 (r * n + c) = CMat_at buf cmat (skipIndex row r) (skipIndex col c))
    cmat.nrow
    (fun i st => forLoop cmat.ncol (fun j st =>
      if i = row ∨ j = col then st
      else (Function.update st.1 st.2 (CMat_at buf cmat i j), st.2 + 1)) st)
    (d, 0) (by simp) ?_
  · unfold CMat_cofactor_fill
    rw [hr] at key ⊢
    have hlt : row < n + 1 := Nat.lt_succ_of_le hrow
    simp only [hlt, if_true, Nat.add_sub_cancel] at key
    exact key
  · intro I hI st ⟨hidx, hval⟩
    beta_reduce
    by_cases hIr : I = row
    · subst hIr
      rw [forLoop_skip _ _ _ (fun k _ t => by simp)]
      simp only [Nat.lt_irrefl, if_false] at hidx hval
      simp only [Nat.lt_succ_self, if_true, Nat.add_sub_cancel]
      exact ⟨hidx, hval⟩
    · have hbody : (fun j (st : (Nat → α) × Nat) =>
          if I = row ∨ j = col then st
          else (Function.update st.1 st.2 (CMat_at buf cmat I j), st.2 + 1))
          = (fun j (st : (Nat → α) × Nat) =>
          if j = col then st
          else (Function.update st.1 st.2 (CMat_at buf cmat I j), st.2 + 1)) := by
        funext j st
        simp [hIr]
      obtain ⟨d', hd', hrowval, hframe⟩ :=
        CMat_cofactor_fill_row buf cmat I col st.1 st.2 cmat.ncol
      rw [hbody, show st = (st.1, st.2) from rfl, hd']
      have hcl : col < n + 1 := by omega
      simp only [hc, hcl, if_true, Nat.add_sub_cancel] at hrowval ⊢
      have hcnt : (if row < I + 1 then I else I + 1)
          = (if row < I then I - 1 else I) + 1 := by
        split_ifs <;> omega
      rw [hcnt]
      refine ⟨by rw [hidx, Nat.succ_mul], ?_⟩
      intro r c hr' hc'
      by_cases hrlt : r < (if row < I then I - 1 else I)
      · have hlt : r * n + c < st.2 := by
          rw [hidx]
          calc r * n + c < r * n + n := by omega
            _ = (r + 1) * n := by rw [Nat.succ_mul]
            _ ≤ _ := Nat.mul_le_mul_right n hrlt
        rw [hframe _ hlt]
        exact hval r c hrlt hc'
      · have hreq : r = (if row < I then I - 1 else I) := by omega
        have hskip : skipIndex row r = I := by
          rw [hreq]
          split_ifs with h1
          · rw [skipIndex_ge row (I - 1) (by omega)]
            omega
          · rw [skipIndex_lt row I (by omega)]
        rw [hskip, ← hrowval c hc', hidx, hreq]

end Fill

/-! ## `CMat_det` and `CMat_cofactor` -/

section Det

variable {α : Type} [CommRing α]

theorem forLoopE_congr {σ : Type} (n : Nat) (body body' : Nat → σ → Except Fault σ) (s : σ)
    (h : ∀ k, k < n → ∀ t, body k t = body' k t) : forLoopE n body s = forLoopE n body' s := by
  induction n with
  | zero => rfl
  | succ k ih =>
    simp only [forLoopE]
    rw [ih (fun j hj t => h j (Nat.lt_succ_of_lt hj) t)]
    cases forLoopE k body' s with
    | error e => rfl
    | ok t => exact h k (Nat.lt_succ_self k) t

theorem size_pred_succ (n : Nat) : size_pred (n + 1) = n := by
  simp [size_pred]

theorem neg_one_pow_mul_eq_ite (k : Nat) (x : α) :
    (-1) ^ k * x = if k % 2 = 0 then x else -x := by
  split_ifs with h
  · rw [(Nat.even_iff.mpr h).neg_one_pow, one_mul]
  · rw [(Nat.odd_iff.mpr (by omega)).neg_one_pow, neg_one_mul]

theorem skipIndex_eq_succAbove {n : Nat} (d : Fin (n + 1)) (k : Fin n) :
    skipIndex d k = (d.succAbove k : Nat) := by
  unfold skipIndex Fin.succAbove
  by_cases h : (k : Nat) < d
  · have h' : k.castSucc < d := h
    simp [h, h']
  · have h' : ¬ k.castSucc < d := h
    simp [h, h']

/-- The block filled by `CMat_cofactor`, read as an `n × n` matrix, is the submatrix of the
input without the row and the column of the cofactor. -/
theorem CMat_cofactor_fill_toMatrix (buf : Nat → α) (cmat : CMat) (n : Nat)
    (hr : cmat.nrow = n + 1) (hc : cmat.ncol = n + 1) (row col : Fin (n + 1)) (d : Nat → α) :
    CMat.toMatrix n (CMat_cofactor_fill buf cmat row col (d, 0)).1
        { data := 0, nrow := n, ncol := n, stride := n }
      = (CMat.toMatrix (n + 1) buf cmat).submatrix row.succAbove col.succAbove := by
  ext r c
  have h := (CMat_cofactor_fill_spec buf cmat n row col hr hc
    (Nat.lt_succ_iff.mp row.isLt) (Nat.lt_succ_iff.mp col.isLt) d).2 r c r.isLt c.isLt
  simp only [CMat.toMatrix, Matrix.of_apply, Matrix.submatrix_apply, CMat_at, CMat_pat,
    Nat.zero_add]
  rw [h, skipIndex_eq_succAbove, skipIndex_eq_succAbove]
  rfl

/-- The signed minor that `CMat_cofactor` returns, for indices given as natural numbers. -/
theorem CMat_cofactor_with_eq (n : Nat) (det : (Nat → α) → CMat → Except Fault α)
    (hdet : ∀ (b : Nat → α) (m : CMat), m.nrow = n → m.ncol = n →
      det b m = Except.ok (Matrix.det (CMat.toMatrix n b m)))
    (buf : Nat → α) (cmat : CMat) (hr : cmat.nrow = n + 1) (hc : cmat.ncol = n + 1)
    (row col : Fin (n + 1)) :
    CMat_cofactor_with det buf cmat row col
      = Except.ok ((-1) ^ ((row : Nat) + col) *
          Matrix.det ((CMat.toMatrix (n + 1) buf cmat).submatrix row.succAbove col.succAbove)) := by
  unfold CMat_cofactor_with
  simp only [hr, hc, size_pred_succ, CMat_init]
  rw [hdet _ _ rfl rfl, CMat_cofactor_fill_toMatrix buf cmat n hr hc, neg_one_pow_mul_eq_ite]

/-- The recursive determinant is the determinant of the logical matrix. -/
theorem CMat_det_fuel_eq (n : Nat) (buf : Nat → α) (cmat : CMat)
    (hr : cmat.nrow = n) (hc : cmat.ncol = n) :
    CMat_det_fuel (n + 1) buf cmat = Except.ok (Matrix.det (CMat.toMatrix n buf cmat)) := by
  induction n generalizing buf cmat with
  | zero =>
    simp [CMat_det_fuel, hr, hc]
  | succ n ih =>
    rw [CMat_det_fuel, if_pos (hr.trans hc.symm), if_neg (by omega), hc]
    rw [forLoopE_congr (n + 1) _
      (fun col det => Except.ok (det + (if h : col < n + 1 then
        CMat_at buf cmat 0 col * ((-1) ^ col *
          Matrix.det ((CMat.toMatrix (n + 1) buf cmat).submatrix
            (Fin.succAbove 0) (Fin.succAbove ⟨col, h⟩))) else 0))) 0 ?_]
    · rw [forLoopE_pure, forLoop_sum, Finset.sum_range, Matrix.det_succ_row_zero]
      congr 1
      refine Finset.sum_congr rfl (fun j _ => ?_)
      simp only [j.isLt, dite_true, Fin.eta, CMat.toMatrix, Matrix.of_apply, Fin.val_zero,
        Matrix.submatrix_apply]
      have hsub : (Matrix.of fun (r c : Fin (n + 1)) => CMat_at buf cmat r c).submatrix
            (Fin.succAbove 0) j.succAbove
          = (Matrix.of fun (r c : Fin (n + 1)) => CMat_at buf cmat r c).submatrix
            Fin.succ j.succAbove := by
        ext r c
        simp
      rw [hsub]
      ring
    · intro col hcol det
      have h := CMat_cofactor_with_eq n (CMat_det_fuel (n + 1)) (fun b m h1 h2 => ih b m h1 h2)
        buf cmat hr hc 0 ⟨col, hcol⟩
      simp only [Fin.val_zero, Nat.zero_add] at h
      simp only [h, hcol, dite_true]

end Det

/-! ## Determinant, cofactor, adjugate and product: main results -/

section DetClaims

variable {α : Type} [CommRing α]

theorem CMat_det_eq (n : Nat) (buf : Nat → α) (cmat : CMat)
    (hr : cmat.nrow = n) (hc : cmat.ncol = n) :
    CMat_det buf cmat = Except.ok (Matrix.det (CMat.toMatrix n buf cmat)) := by
  unfold CMat_det
  rw [hr]
  exact CMat_det_fuel_eq n buf cmat hr hc

/-- The value of `CMat_cofactor` on an `(n+1) × (n+1)` matrix. -/
theorem CMat_cofactor_eq (n : Nat) (buf : Nat → α) (cmat : CMat)
    (hr : cmat.nrow = n + 1) (hc : cmat.ncol = n + 1) (row col : Fin (n + 1)) :
    CMat_cofactor buf cmat row col
      = Except.ok ((-1) ^ ((row : Nat) + col) *
          Matrix.det ((CMat.toMatrix (n + 1) buf cmat).submatrix row.succAbove col.succAbove)) :=
  CMat_cofactor_with_eq n CMat_det (fun b m h1 h2 => CMat_det_eq n b m h1 h2) buf cmat hr hc
    row col

omit [CommRing α] in
/-- Two memories that agree on the cells of a descriptor give the same logical matrix. -/
theorem CMat.toMatrix_congr (n : Nat) (b b' : Nat → α) (cmat : CMat)
    (h : ∀ r c, r < n → c < n → CMat_at b cmat r c = CMat_at b' cmat r c) :
    CMat.toMatrix n b cmat = CMat.toMatrix n b' cmat := by
  ext r c
  exact h r c r.isLt c.isLt

/-- C3: for every `n` and every `n × n` matrix with elements in a commutative ring,
`CMat_det` returns the mathematical determinant of the matrix, the Leibniz sum over the
permutations of the signed products of the elements. -/
theorem CMat_det_eq_leibniz (n : Nat) (buf : Nat → α) (cmat : CMat)
    (hr : cmat.nrow = n) (hc : cmat.ncol = n) :
    CMat_det buf cmat = Except.ok
      (∑ σ : Equiv.Perm (Fin n), Equiv.Perm.sign σ • ∏ i : Fin n, CMat_at buf cmat (σ i) i) := by
  rw [CMat_det_eq n buf cmat hr hc, Matrix.det_apply]
  rfl

/-- C4: `CMat_det` satisfies the Laplace recurrence along row 0: on a `0 × 0` matrix it
returns `1`, and on an `n × n` matrix with `n ≥ 1` every `CMat_cofactor(m, 0, c)` returns
a value and `CMat_det` returns the sum over `c < n` of `m[0][c] * CMat_cofactor(m, 0, c)`. -/
theorem CMat_det_laplace (buf : Nat → α) (cmat : CMat) (hsq : cmat.nrow = cmat.ncol) :
    (cmat.nrow = 0 → CMat_det buf cmat = Except.ok 1) ∧
    (0 < cmat.nrow → ∃ cof : Nat → α,
      (∀ c, c < cmat.ncol → CMat_cofactor buf cmat 0 c = Except.ok (cof c)) ∧
      CMat_det buf cmat
        = Except.ok (∑ c in Finset.range cmat.ncol, CMat_at buf cmat 0 c * cof c)) := by
  constructor
  · intro h0
    simp [CMat_det, CMat_det_fuel, h0, ← hsq]
  · intro hpos
    obtain ⟨n, hn⟩ : ∃ n, cmat.nrow = n + 1 := ⟨cmat.nrow - 1, by omega⟩
    have hc : cmat.ncol = n + 1 := hsq ▸ hn
    refine ⟨fun c => if h : c < n + 1 then (-1) ^ c *
      Matrix.det ((CMat.toMatrix (n + 1) buf cmat).submatrix
        (Fin.succAbove 0) (Fin.succAbove ⟨c, h⟩)) else 0, ?_, ?_⟩
    · intro c hlt
      rw [hc] at hlt
      have h := CMat_cofactor_eq n buf cmat hn hc 0 ⟨c, hlt⟩
      simp only [Fin.val_zero, Nat.zero_add] at h
      simp only [h, hlt, dite_true]
    · unfold CMat_det
      rw [hn, CMat_det_fuel, if_pos hsq, if_neg (by omega), hc]
      rw [forLoopE_congr (n + 1) _
        (fun col det => Except.ok (det + CMat_at buf cmat 0 col *
          (if h : col < n + 1 then (-1) ^ col *
            Matrix.det ((CMat.toMatrix (n + 1) buf cmat).submatrix
              (Fin.succAbove 0) (Fin.succAbove ⟨col, h⟩)) else 0))) 0 ?_]
      · rw [forLoopE_pure, forLoop_sum]
      · intro col hcol det
        have h := CMat_cofactor_with_eq n (CMat_det_fuel (n + 1))
          (fun b m h1 h2 => CMat_det_fuel_eq n b m h1 h2) buf cmat hn hc 0 ⟨col, hcol⟩
        simp only [Fin.val_zero, Nat.zero_add] at h
        simp only [h, hcol, dite_true]

/-- C5: on an `(n+1) × (n+1)` matrix and for `row, col ≤ n`, `CMat_cofactor(m, row, col)`
returns `CMat_det` of the `n × n` minor that is `m` without row `row` and column `col`
(the other elements in their original order), negated when `row + col` is odd and
unchanged when `row + col` is even. -/
theorem CMat_cofactor_eq_minor_det (n : Nat) (buf : Nat → α) (cmat : CMat)
    (hr : cmat.nrow = n + 1) (hc : cmat.ncol = n + 1) (row col : Nat)
    (hrow : row ≤ n) (hcol : col ≤ n)
    (sbuf : Nat → α) (minor : CMat) (hmr : minor.nrow = n) (hmc : minor.ncol = n)
    (hminor : ∀ r c, r < n → c < n →
      CMat_at sbuf minor r c = CMat_at buf cmat (skipIndex row r) (skipIndex col c)) :
    ∃ d, CMat_det sbuf minor = Except.ok d ∧
      CMat_cofactor buf cmat row col = Except.ok (if (row + col) % 2 = 0 then d else -d) := by
  refine ⟨Matrix.det (CMat.toMatrix n sbuf minor), CMat_det_eq n sbuf minor hmr hmc, ?_⟩
  have h := CMat_cofactor_eq n buf cmat hr hc ⟨row, Nat.lt_succ_of_le hrow⟩
    ⟨col, Nat.lt_succ_of_le hcol⟩
  rw [neg_one_pow_mul_eq_ite] at h
  rw [h]
  have hm : CMat.toMatrix n sbuf minor
      = (CMat.toMatrix (n + 1) buf cmat).submatrix
          (Fin.succAbove ⟨row, Nat.lt_succ_of_le hrow⟩)
          (Fin.succAbove ⟨col, Nat.lt_succ_of_le hcol⟩) := by
    ext r c
    simp only [CMat.toMatrix, Matrix.of_apply, Matrix.submatrix_apply]
    rw [hminor r c r.isLt c.isLt, ← skipIndex_eq_succAbove, ← skipIndex_eq_succAbove]
  rw [hm]

/-- C9: for a square `n × n` `src` and a `dst` of the same shape whose cells are distinct
from each other and from those of `src`, `CMat_adj(dst, src)` returns, and afterwards
`dst[c][r]` is the value of `CMat_cofactor(src, r, c)` for all `r, c < n`: `dst` is the
transpose of the cofactor matrix of `src`, and `src` is unchanged. -/
theorem CMat_adj_spec (n : Nat) (buf : Nat → α) (dst src : CMat)
    (hsr : src.nrow = n) (hsc : src.ncol = n) (hdr : dst.nrow = n) (hdc : dst.ncol = n)
    (hs : dst.ncol ≤ dst.stride)
    (hdisj : ∀ r c r' c', r < n → c < n → r' < n → c' < n →
      CMat_pat src r' c' ≠ CMat_pat dst r c) :
    ∃ res, CMat_adj buf dst src = Except.ok res ∧
      (∀ r c, r < n → c < n →
        CMat_cofactor buf src r c = Except.ok (CMat_at res dst c r) ∧
        CMat_cofactor res src r c = Except.ok (CMat_at res dst c r)) ∧
      (∀ r c, r < n → c < n → CMat_at res src r c = CMat_at buf src r c) := by
  have hcof : ∀ b : Nat → α, (∀ r c, r < n → c < n → CMat_at b src r c = CMat_at buf src r c) →
      ∀ r c, r < n → c < n → CMat_cofactor b src r c
        = Except.ok ((CMat_cofactor buf src r c).toOption.getD 0) := by
    intro b hb r c hr hc
    cases n with
    | zero => exact absurd hr (Nat.not_lt_zero r)
    | succ k =>
      rw [CMat_cofactor_eq k b src hsr hsc ⟨r, hr⟩ ⟨c, hc⟩,
        CMat_cofactor_eq k buf src hsr hsc ⟨r, hr⟩ ⟨c, hc⟩,
        CMat.toMatrix_congr (k + 1) b buf src hb]
      rfl
  obtain ⟨res, hres, hval, hframe⟩ := forLoopE2_update n n
    (fun row col => CMat_pat dst col row)
    (fun row col => (CMat_cofactor buf src row col).toOption.getD 0)
    (fun row col b =>
      match CMat_cofactor b src row col with
      | .ok c => .ok (Function.update b (CMat_pat dst col row) c)
      | .error e => .error e)
    buf
    (fun x y x' y' hx _ hx' _ h => (CMat_pat_inj dst hs (hdc ▸ hx) (hdc ▸ hx') h).symm)
    (by
      intro row col hrow hcol b hb
      beta_reduce at hb ⊢
      rw [hcof b (fun r c hr hc => hb _ (fun x' y' hx' hy' => hdisj y' x' r c hy' hx' hr hc))
        row col hrow hcol])
  have hsrc : ∀ r c, r < n → c < n → CMat_at res src r c = CMat_at buf src r c :=
    fun r c hr hc => hframe _ (fun x' y' hx' hy' => hdisj y' x' r c hy' hx' hr hc)
  refine ⟨res, ?_, ?_, hsrc⟩
  · rw [CMat_adj, if_pos (hsr.trans hsc.symm), if_pos (hdr.trans hsr.symm),
      if_pos (hdc.trans hsc.symm), CMat_iterate, hsr, hsc]
    exact hres
  · intro r c hr hc
    have h1 := hcof buf (fun _ _ _ _ => rfl) r c hr hc
    have h2 := hcof res hsrc r c hr hc
    have h3 : CMat_at res dst c r = (CMat_cofactor buf src r c).toOption.getD 0 := hval r c hr hc
    rw [h3]
    exact ⟨h1, h2⟩

/-- C10: for `a` (`p × q`), `b` (`q × s`) and `dst` (`p × s`) such that the cells of `dst`
are distinct from each other and from those of `a` and `b`, `CMat_dot(dst, a, b)` returns,
afterwards `dst[r][c]` is the sum over `i < q` of `a[r][i] * b[i][c]`, and `a` and `b` are
unchanged. -/
theorem CMat_dot_correct (buf : Nat → α) (dst cmat1 cmat2 : CMat)
    (h1 : cmat1.nrow = dst.nrow) (h2 : cmat1.ncol = cmat2.nrow) (h3 : cmat2.ncol = dst.ncol)
    (hs : dst.ncol ≤ dst.stride)
    (hd1 : ∀ r c r' i, r < dst.nrow → c < dst.ncol → r' < cmat1.nrow → i < cmat1.ncol →
      CMat_pat cmat1 r' i ≠ CMat_pat dst r c)
    (hd2 : ∀ r c i c', r < dst.nrow → c < dst.ncol → i < cmat2.nrow → c' < cmat2.ncol →
      CMat_pat cmat2 i c' ≠ CMat_pat dst r c) :
    ∃ res, CMat_dot buf dst cmat1 cmat2 = Except.ok res ∧
      (∀ r c, r < dst.nrow → c < dst.ncol →
        CMat_at res dst r c
          = ∑ i in Finset.range cmat1.ncol, CMat_at buf cmat1 r i * CMat_at buf cmat2 i c) ∧
      (∀ r i, r < cmat1.nrow → i < cmat1.ncol → CMat_at res cmat1 r i = CMat_at buf cmat1 r i) ∧
      (∀ i c, i < cmat2.nrow → c < cmat2.ncol → CMat_at res cmat2 i c = CMat_at buf cmat2 i c) := by
  obtain ⟨res, hres, hval, hframe⟩ := CMat_dot_spec buf dst cmat1 cmat2 h1 h2 h3 hs hd1 hd2
  exact ⟨res, hres, hval,
    fun r i hr hi => hframe _ (fun r' c' hr' hc' => hd1 r' c' r i hr' hc' hr hi),
    fun i c hi hc => hframe _ (fun r' c' hr' hc' => hd2 r' c' i c hr' hc' hi hc)⟩

end DetClaims

/-! ## The loops of `CMat_inverse` on memory -/

section InverseLoops

variable {α : Type} [Field α]

/-- The division loop divides the cells of row `i` by `div` and writes nothing else. -/
theorem CMat_inverse_div_spec (cmat : CMat) (i : Nat) (div : α) (buf : Nat → α) :
    (∀ c, c < cmat.ncol →
      CMat_inverse_div cmat i div buf (CMat_pat cmat i c) = buf (CMat_pat cmat i c) / div) ∧
    (∀ a, (∀ c, c < cmat.ncol → a ≠ CMat_pat cmat i c) →
      CMat_inverse_div cmat i div buf a = buf a) := by
  obtain ⟨res, hres, hval, hframe⟩ := forLoopE_update cmat.ncol
    (fun c => CMat_pat cmat i c) (fun c => buf (CMat_pat cmat i c) / div)
    (fun col b => Except.ok
      (Function.update b (CMat_pat cmat i col) (CMat_at b cmat i col / div))) buf
    (fun y y' _ _ h => by simp only [CMat_pat] at h; omega)
    (by
      intro y _ b hb
      beta_reduce at hb ⊢
      rw [CMat_at, hb _ (fun y' hy' => by simp only [CMat_pat]; omega)])
  rw [forLoopE_pure] at hres
  have heq : CMat_inverse_div cmat i div buf = res := Except.ok.inj hres
  rw [heq]
  exact ⟨hval, hframe⟩

/-- The subtraction loop replaces row `row` by itself minus `x` times row `i`. -/
theorem CMat_inverse_sub_spec (cmat : CMat) (hs : cmat.ncol ≤ cmat.stride) (row i : Nat)
    (hne : row ≠ i) (x : α) (buf : Nat → α) :
    (∀ c, c < cmat.ncol →
      CMat_inverse_sub cmat row i x buf (CMat_pat cmat row c)
        = buf (CMat_pat cmat row c) - buf (CMat_pat cmat i c) * x) ∧
    (∀ a, (∀ c, c < cmat.ncol → a ≠ CMat_pat cmat row c) →
      CMat_inverse_sub cmat row i x buf a = buf a) := by
  obtain ⟨res, hres, hval, hframe⟩ := forLoopE_update cmat.ncol
    (fun c => CMat_pat cmat row c)
    (fun c => buf (CMat_pat cmat row c) - buf (CMat_pat cmat i c) * x)
    (fun col b => Except.ok (Function.update b (CMat_pat cmat row col)
      (CMat_at b cmat row col - CMat_at b cmat i col * x))) buf
    (fun y y' _ _ h => by simp only [CMat_pat] at h; omega)
    (by
      intro y hy b hb
      beta_reduce at hb ⊢
      rw [CMat_at, CMat_at, hb _ (fun y' hy' => by simp only [CMat_pat]; omega),
        hb _ (fun y' hy' => CMat_pat_ne cmat hs hy (by omega) (Or.inl (Ne.symm hne)))])
  rw [forLoopE_pure] at hres
  have heq : CMat_inverse_sub cmat row i x buf = res := Except.ok.inj hres
  rw [heq]
  exact ⟨hval, hframe⟩

omit [Field α] in
/-- The swap loop on one memory: rows `i` and `j` are exchanged. -/
theorem swap_loop_spec (cmat : CMat) (hs : cmat.ncol ≤ cmat.stride) (i j : Nat) (hne : i ≠ j)
    (buf : Nat → α) (n : Nat) (hn : n ≤ cmat.ncol) :
    (∀ c, c < n →
      forLoop n (fun k b => Function.update
          (Function.update b (CMat_pat cmat i k) (CMat_at b cmat j k))
          (CMat_pat cmat j k) (CMat_at b cmat i k)) buf (CMat_pat cmat i c)
        = buf (CMat_pat cmat j c) ∧
      forLoop n (fun k b => Function.update
          (Function.update b (CMat_pat cmat i k) (CMat_at b cmat j k))
          (CMat_pat cmat j k) (CMat_at b cmat i k)) buf (CMat_pat cmat j c)
        = buf (CMat_pat cmat i c)) ∧
    (∀ a, (∀ c, c < n → a ≠ CMat_pat cmat i c ∧ a ≠ CMat_pat cmat j c) →
      forLoop n (fun k b => Function.update
          (Function.update b (CMat_pat cmat i k) (CMat_at b cmat j k))
          (CMat_pat cmat j k) (CMat_at b cmat i k)) buf a = buf a) := by
  induction n with
  | zero => exact ⟨fun c hc => absurd hc (Nat.not_lt_zero c), fun a _ => rfl⟩
  | succ k ih =>
    obtain ⟨hval, hframe⟩ := ih (Nat.le_of_succ_le hn)
    have hk : k < cmat.ncol := hn
    have hik : ∀ r r' c, c < k → CMat_pat cmat r k ≠ CMat_pat cmat r' c := fun r r' c hc =>
      CMat_pat_ne cmat hs hk (by omega) (Or.inr (by omega))
    have hji : CMat_pat cmat j k ≠ CMat_pat cmat i k :=
      CMat_pat_ne cmat hs hk hk (Or.inl (Ne.symm hne))
    have hcur_i := hframe (CMat_pat cmat i k) (fun c hc => ⟨hik i i c hc, hik i j c hc⟩)
    have hcur_j := hframe (CMat_pat cmat j k) (fun c hc => ⟨hik j i c hc, hik j j c hc⟩)
    simp only [forLoop_succ, CMat_at]
    refine ⟨?_, ?_⟩
    · intro c hc
      rcases Nat.lt_succ_iff_lt_or_eq.mp hc with hlt | heq
      · rw [Function.update_noteq (hik j i c hlt).symm,
          Function.update_noteq (hik i i c hlt).symm,
          Function.update_noteq (hik j j c hlt).symm,
          Function.update_noteq (hik i j c hlt).symm]
        exact hval c hlt
      · subst heq
        rw [Function.update_noteq hji.symm, Function.update_same, Function.update_same]
        exact ⟨hcur_j, hcur_i⟩
    · intro a ha
      rw [Function.update_noteq (ha k (Nat.lt_succ_self k)).2,
        Function.update_noteq (ha k (Nat.lt_succ_self k)).1]
      exact hframe a (fun c hc => ha c (Nat.lt_succ_of_lt hc))

omit [Field α] in
/-- The swap loop of `CMat_inverse`: rows `i` and `j` are exchanged in both memories. -/
theorem CMat_inverse_swap_spec (cmat id : CMat) (hs : cmat.ncol ≤ cmat.stride)
    (hid : id.ncol ≤ id.stride) (hc : cmat.ncol ≤ id.ncol) (i j : Nat) (hne : i ≠ j)
    (s : (Nat → α) × (Nat → α)) :
    ((∀ c, c < cmat.ncol →
        (CMat_inverse_swap cmat id i j s).1 (CMat_pat cmat i c) = s.1 (CMat_pat cmat j c) ∧
        (CMat_inverse_swap cmat id i j s).1 (CMat_pat cmat j c) = s.1 (CMat_pat cmat i c)) ∧
      (∀ a, (∀ c, c < cmat.ncol → a ≠ CMat_pat cmat i c ∧ a ≠ CMat_pat cmat j c) →
        (CMat_inverse_swap cmat id i j s).1 a = s.1 a)) ∧
    ((∀ c, c < cmat.ncol →
        (CMat_inverse_swap cmat id i j s).2 (CMat_pat id i c) = s.2 (CMat_pat id j c) ∧
        (CMat_inverse_swap cmat id i j s).2 (CMat_pat id j c) = s.2 (CMat_pat id i c)) ∧
      (∀ a, (∀ c, c < cmat.ncol → a ≠ CMat_pat id i c ∧ a ≠ CMat_pat id j c) →
        (CMat_inverse_swap cmat id i j s).2 a = s.2 a)) := by
  have hsplit : CMat_inverse_swap cmat id i j s
      = (forLoop cmat.ncol (fun k b => Function.update
            (Function.update b (CMat_pat cmat i k) (CMat_at b cmat j k))
            (CMat_pat cmat j k) (CMat_at b cmat i k)) s.1,
         forLoop cmat.ncol (fun k b => Function.update
            (Function.update b (CMat_pat id i k) (CMat_at b id j k))
            (CMat_pat id j k) (CMat_at b id i k)) s.2) := by
    unfold CMat_inverse_swap
    exact forLoop_pair cmat.ncol
      (fun k b => Function.update
        (Function.update b (CMat_pat cmat i k) (CMat_at b cmat j k))
        (CMat_pat cmat j k) (CMat_at b cmat i k))
      (fun k b => Function.update
        (Function.update b (CMat_pat id i k) (CMat_at b id j k))
        (CMat_pat id j k) (CMat_at b id i k)) s
  rw [hsplit]
  exact ⟨swap_loop_spec cmat hs i j hne s.1 cmat.ncol (Nat.le_refl _),
    swap_loop_spec id hid i j hne s.2 cmat.ncol hc⟩

end InverseLoops

section InverseLoops2

variable {α : Type} [Field α]

/-- The elimination loop for the pivot `i`: every row other than `i` has `x` times row
`i` subtracted, in both memories, where `x` is the element of that row in column `i`
of `cmat` before the row is changed. -/
theorem CMat_inverse_elim_spec (cmat id : CMat) (hs : cmat.ncol ≤ cmat.stride)
    (hid : id.ncol ≤ id.stride) (i : Nat) (hi : i < cmat.ncol)
    (s : (Nat → α) × (Nat → α)) :
    (∀ r c, r < cmat.nrow → c < cmat.ncol →
      (CMat_inverse_elim cmat id i s).1 (CMat_pat cmat r c)
        = if r = i then s.1 (CMat_pat cmat r c)
          else s.1 (CMat_pat cmat r c) - s.1 (CMat_pat cmat i c) * s.1 (CMat_pat cmat r i)) ∧
    (∀ a, (∀ r c, r < cmat.nrow → c < cmat.ncol → a ≠ CMat_pat cmat r c) →
      (CMat_inverse_elim cmat id i s).1 a = s.1 a) ∧
    (∀ r c, r < cmat.nrow → c < id.ncol →
      (CMat_inverse_elim cmat id i s).2 (CMat_pat id r c)
        = if r = i then s.2 (CMat_pat id r c)
          else s.2 (CMat_pat id r c) - s.2 (CMat_pat id i c) * s.1 (CMat_pat cmat r i)) ∧
    (∀ a, (∀ r c, r < cmat.nrow → c < id.ncol → a ≠ CMat_pat id r c) →
      (CMat_inverse_elim cmat id i s).2 a = s.2 a) := by
  have key := forLoop_invariant
    (fun R (t : (Nat → α) × (Nat → α)) =>
      (∀ r c, c < cmat.ncol → t.1 (CMat_pat cmat r c)
        = if r < R ∧ r ≠ i
          then s.1 (CMat_pat cmat r c) - s.1 (CMat_pat cmat i c) * s.1 (CMat_pat cmat r i)
          else s.1 (CMat_pat cmat r c)) ∧
      (∀ a, (∀ r c, r < R → c < cmat.ncol → a ≠ CMat_pat cmat r c) → t.1 a = s.1 a) ∧
      (∀ r c, c < id.ncol → t.2 (CMat_pat id r c)
        = if r < R ∧ r ≠ i
          then s.2 (CMat_pat id r c) - s.2 (CMat_pat id i c) * s.1 (CMat_pat cmat r i)
          else s.2 (CMat_pat id r c)) ∧
      (∀ a, (∀ r c, r < R → c < id.ncol → a ≠ CMat_pat id r c) → t.2 a = s.2 a))
    cmat.nrow
    (fun row s =>
      if row = i then s
      else (CMat_inverse_sub cmat row i (CMat_at s.1 cmat row i) s.1,
        CMat_inverse_sub id row i (CMat_at s.1 cmat row i) s.2))
    s ⟨fun r c _ => by simp, fun a _ => rfl, fun r c _ => by simp, fun a _ => rfl⟩ ?_
  · obtain ⟨h1, h2, h3, h4⟩ := key
    refine ⟨fun r c hr hc => ?_, h2, fun r c hr hc => ?_, h4⟩
    · have := h1 r c hc
      unfold CMat_inverse_elim
      rw [this]
      by_cases hri : r = i <;> simp [hri, hr]
    · have := h3 r c hc
      unfold CMat_inverse_elim
      rw [this]
      by_cases hri : r = i <;> simp [hri, hr]
  · intro R _ t ⟨h1, h2, h3, h4⟩
    beta_reduce
    by_cases hRi : R = i
    · rw [if_pos hRi]
      refine ⟨fun r c hc => ?_, fun a ha => h2 a (fun r c hr => ha r c (Nat.lt_succ_of_lt hr)),
        fun r c hc => ?_, fun a ha => h4 a (fun r c hr => ha r c (Nat.lt_succ_of_lt hr))⟩
      · rw [h1 r c hc]
        by_cases hri : r = i
        · simp [hri]
        · have hiff : (r < R + 1 ∧ r ≠ i) ↔ (r < R ∧ r ≠ i) := by omega
          simp only [hiff]
      · rw [h3 r c hc]
        by_cases hri : r = i
        · simp [hri]
        · have hiff : (r < R + 1 ∧ r ≠ i) ↔ (r < R ∧ r ≠ i) := by omega
          simp only [hiff]
    · rw [if_neg hRi]
      have hx : CMat_at t.1 cmat R i = s.1 (CMat_pat cmat R i) := by
        rw [CMat_at, h1 R i hi, if_neg (by omega)]
      rw [hx]
      obtain ⟨hv1, hf1⟩ := CMat_inverse_sub_spec cmat hs R i hRi (s.1 (CMat_pat cmat R i)) t.1
      obtain ⟨hv2, hf2⟩ := CMat_inverse_sub_spec id hid R i hRi (s.1 (CMat_pat cmat R i)) t.2
      refine ⟨fun r c hc => ?_, fun a ha => ?_, fun r c hc => ?_, fun a ha => ?_⟩ <;>
        dsimp only
      · by_cases hrR : r = R
        · subst hrR
          rw [hv1 c hc, h1 r c hc, h1 i c hc, if_neg (by omega), if_neg (by simp),
            if_pos ⟨Nat.lt_succ_self r, hRi⟩]
        · rw [hf1 _ (fun c' hc' => CMat_pat_ne cmat hs hc hc' (Or.inl hrR)), h1 r c hc]
          have hiff : (r < R + 1 ∧ r ≠ i) ↔ (r < R ∧ r ≠ i) := by omega
          simp only [hiff]
      · rw [hf1 a (fun c hc => ha R c (Nat.lt_succ_self R) hc)]
        exact h2 a (fun r c hr => ha r c (Nat.lt_succ_of_lt hr))
      · by_cases hrR : r = R
        · subst hrR
          rw [hv2 c hc, h3 r c hc, h3 i c hc, if_neg (by omega), if_neg (by simp),
            if_pos ⟨Nat.lt_succ_self r, hRi⟩]
        · rw [hf2 _ (fun c' hc' => CMat_pat_ne id hid hc hc' (Or.inl hrR)), h3 r c hc]
          have hiff : (r < R + 1 ∧ r ≠ i) ↔ (r < R ∧ r ≠ i) := by omega
          simp only [hiff]
      · rw [hf2 a (fun c hc => ha R c (Nat.lt_succ_self R) hc)]
        exact h4 a (fun r c hr => ha r c (Nat.lt_succ_of_lt hr))

end InverseLoops2

section IdentityCopy

variable {α : Type} [CommRing α]

/-- On a square `dst` with distinct cells, `CMat_identity` returns and leaves `1` on the
diagonal of `dst`, `0` in its other cells, and the rest of the memory as it was. -/
theorem CMat_identity_spec (buf : Nat → α) (dst : CMat) (hsq : dst.nrow = dst.ncol)
    (hs : dst.ncol ≤ dst.stride) :
    ∃ res, CMat_identity buf dst = Except.ok res ∧
      (∀ r c, r < dst.nrow → c < dst.ncol →
        res (CMat_pat dst r c) = if r = c then 1 else 0) ∧
      (∀ a, (∀ r c, r < dst.nrow → c < dst.ncol → a ≠ CMat_pat dst r c) → res a = buf a) := by
  rw [CMat_identity, if_pos hsq, CMat_iterate]
  exact forLoopE2_update dst.nrow dst.ncol (fun r c => CMat_pat dst r c)
    (fun r c => if r = c then 1 else 0)
    (fun row col b => Except.ok (Function.update b (CMat_pat dst row col)
      (if row = col then 1 else 0))) buf
    (fun x y x' y' _ hy _ hy' h => CMat_pat_inj dst hs hy hy' h)
    (fun x y _ _ b _ => rfl)

omit [CommRing α] in
/-- The copy made with `CMat_iterate2` and the body `*val1 = *val2`, the second operand
being read in the memory `d`. -/
theorem CMat_iterate2_copy_spec (buf d : Nat → α) (cmat1 cmat2 : CMat)
    (hr : cmat1.nrow = cmat2.nrow) (hc : cmat1.ncol = cmat2.ncol)
    (hs : cmat1.ncol ≤ cmat1.stride) :
    ∃ res, CMat_iterate2 cmat1 cmat2
        (fun _ _ val1 val2 b => Except.ok (Function.update b val1 (d val2))) buf
          = Except.ok res ∧
      (∀ r c, r < cmat1.nrow → c < cmat1.ncol →
        res (CMat_pat cmat1 r c) = d (CMat_pat cmat2 r c)) ∧
      (∀ a, (∀ r c, r < cmat1.nrow → c < cmat1.ncol → a ≠ CMat_pat cmat1 r c) →
        res a = buf a) := by
  rw [CMat_iterate2, if_pos hr, if_pos hc]
  exact forLoopE2_update cmat1.nrow cmat1.ncol (fun r c => CMat_pat cmat1 r c)
    (fun r c => d (CMat_pat cmat2 r c))
    (fun row col b => Except.ok (Function.update b (CMat_pat cmat1 row col)
      (d (CMat_pat cmat2 row col)))) buf
    (fun x y x' y' _ hy _ hy' h => CMat_pat_inj cmat1 hs hy hy' h)
    (fun x y _ _ b _ => rfl)

end IdentityCopy

/-! ## Row operations as products of matrices -/

section RowOps

variable {α : Type} [Field α] {n : Nat}

/-- Exchanging rows is a multiplication on the left by a permutation matrix. -/
theorem rowop_swap (σ : Equiv.Perm (Fin n)) (X X' : Matrix (Fin n) (Fin n) α)
    (h : ∀ r c, X' r c = X (σ r) c) : X' = σ.permMatrix α * X := by
  rw [PEquiv.toPEquiv_mul_matrix]
  ext r c
  exact h r c

theorem det_permMatrix_ne_zero (σ : Equiv.Perm (Fin n)) :
    (σ.permMatrix α).det ≠ 0 := by
  rw [Matrix.det_permutation]
  rcases Int.units_eq_one_or (Equiv.Perm.sign σ) with h | h <;> simp [h]

/-- Dividing row `i` by `s` is a multiplication on the left by a diagonal matrix. -/
theorem rowop_scale (i : Fin n) (s : α) (X X' : Matrix (Fin n) (Fin n) α)
    (h : ∀ r c, X' r c = if r = i then X r c / s else X r c) :
    X' = Matrix.diagonal (fun r => if r = i then s⁻¹ else 1) * X := by
  ext r c
  rw [Matrix.diagonal_mul, h r c]
  split_ifs
  · rw [div_eq_inv_mul]
  · rw [one_mul]

theorem det_scale_ne_zero (i : Fin n) (s : α) (hs : s ≠ 0) :
    (Matrix.diagonal (fun r : Fin n => if r = i then s⁻¹ else 1)).det ≠ 0 := by
  rw [Matrix.det_diagonal, Finset.prod_ne_zero_iff]
  intro r _
  split_ifs
  · exact inv_ne_zero hs
  · exact one_ne_zero

/-- Subtracting from every row `r ≠ i` the multiple `x r` of row `i` is a multiplication
on the left by a matrix of determinant `1`. -/
theorem rowop_elim (i : Fin n) (x : Fin n → α) (X X' : Matrix (Fin n) (Fin n) α)
    (h : ∀ r c, X' r c = if r = i then X r c else X r c - X i c * x r) :
    X' = (1 + Matrix.col Unit (fun r => if r = i then 0 else -x r)
            * Matrix.row Unit (Pi.single i (1 : α))) * X := by
  ext r c
  rw [Matrix.add_mul, Matrix.one_mul, Matrix.add_apply, Matrix.mul_assoc, Matrix.mul_apply,
    h r c]
  simp only [Finset.univ_unique, Matrix.col_apply, Finset.sum_singleton, Matrix.mul_apply,
    Matrix.row_apply, Pi.single_apply, ite_mul, one_mul, zero_mul, Finset.sum_ite_eq',
    Finset.mem_univ, if_true]
  split_ifs
  · simp
  · ring

theorem det_elim_eq_one (i : Fin n) (x : Fin n → α) :
    (1 + Matrix.col Unit (fun r => if r = i then 0 else -x r)
        * Matrix.row Unit (Pi.single i (1 : α))).det = 1 := by
  rw [Matrix.det_one_add_col_mul_row, Matrix.dotProduct, Finset.sum_eq_zero, add_zero]
  intro k _
  by_cases hk : k = i <;> simp [hk]

/-- A row operation applied to both memories keeps the first two parts of the invariant. -/
theorem rowop_preserve (T E M E' M' A0 : Matrix (Fin n) (Fin n) α) (hT : T.det ≠ 0)
    (hM : M' = T * M) (hE : E' = T * E) (hEA : E * A0 = M) (hdet : E.det ≠ 0) :
    E' * A0 = M' ∧ E'.det ≠ 0 := by
  subst hM hE
  refine ⟨by rw [Matrix.mul_assoc, hEA], ?_⟩
  rw [Matrix.det_mul]
  exact mul_ne_zero hT hdet

/-- A matrix whose first `i` columns are those of the identity and whose column `i` is
zero from row `i` down is singular. -/
theorem det_eq_zero_of_pivot_column (M : Matrix (Fin n) (Fin n) α) (i : Fin n)
    (hcols : ∀ r c : Fin n, c < i → M r c = if r = c then 1 else 0)
    (hzero : ∀ r : Fin n, i ≤ r → M r i = 0) : M.det = 0 := by
  rw [← Matrix.exists_mulVec_eq_zero_iff]
  refine ⟨fun c => if c = i then 1 else if c < i then -M c i else 0, ?_, ?_⟩
  · intro h
    have := congrFun h i
    simp at this
  · funext r
    have hterm : ∀ c : Fin n,
        M r c * (if c = i then 1 else if c < i then -M c i else 0)
          = (if c = i then M r i else 0) + (if c = r then (if r < i then -M r i else 0) else 0) := by
      intro c
      by_cases hci : c = i
      · subst hci
        by_cases hcr : c = r
        · subst hcr
          simp
        · simp [hcr]
      · by_cases hlt : c < i
        · rw [hcols r c hlt]
          by_cases hcr : c = r
          · subst hcr
            simp [hci, hlt]
          · simp [hci, hlt, hcr, Ne.symm hcr]
        · by_cases hcr : c = r
          · subst hcr
            simp [hci, hlt]
          · simp [hci, hlt, hcr]
    simp only [Matrix.mulVec, Matrix.dotProduct, hterm, Finset.sum_add_distrib,
      Finset.sum_ite_eq', Finset.mem_univ, if_true, Pi.zero_apply]
    by_cases hlt : r < i
    · simp [hlt]
    · simp [hlt, hzero r (not_lt.mp hlt)]

end RowOps

/-! ## The pivot loop of `CMat_inverse` -/

section Pivot

variable {α : Type} [Field α]

omit [Field α] in
theorem CMat.toMatrix_apply (n : Nat) (b : Nat → α) (cmat : CMat) (r c : Fin n) :
    CMat.toMatrix n b cmat r c = b (CMat_pat cmat r c) := rfl

/-- The swap of rows `i < j` keeps the invariant for the pivots done so far and brings
row `j` of `cmat` to row `i`. -/
theorem CMat_inverse_swap_inv (n : Nat) (cmat id : CMat) (hc : cmat.ncol = n)
    (hs : n ≤ cmat.stride) (hic : id.ncol = n) (his : n ≤ id.stride)
    (A0 : Matrix (Fin n) (Fin n) α) (i j k : Nat) (hij : i < j) (hj : j < n) (hk : k ≤ i)
    (s : (Nat → α) × (Nat → α)) (hinv : CMat_inverse_inv n cmat id A0 k s) :
    CMat_inverse_inv n cmat id A0 k (CMat_inverse_swap cmat id i j s) ∧
    (CMat_inverse_swap cmat id i j s).1 (CMat_pat cmat i i) = s.1 (CMat_pat cmat j i) ∧
    (∀ a, (∀ r c, r < n → c < n → a ≠ CMat_pat cmat r c) →
      (CMat_inverse_swap cmat id i j s).1 a = s.1 a) := by
  have hi : i < n := Nat.lt_trans hij hj
  obtain ⟨⟨hv1, hf1⟩, ⟨hv2, hf2⟩⟩ := CMat_inverse_swap_spec cmat id (hc ▸ hs) (hic ▸ his)
    (by omega) i j (Nat.ne_of_lt hij) s
  rw [hc] at hv1 hf1 hv2 hf2
  have hent : ∀ (m : CMat), m.ncol = n → n ≤ m.stride → ∀ (b b' : Nat → α),
      (∀ c, c < n → b' (CMat_pat m i c) = b (CMat_pat m j c) ∧
        b' (CMat_pat m j c) = b (CMat_pat m i c)) →
      (∀ a, (∀ c, c < n → a ≠ CMat_pat m i c ∧ a ≠ CMat_pat m j c) → b' a = b a) →
      ∀ r c : Fin n, CMat.toMatrix n b' m r c
        = CMat.toMatrix n b m (Equiv.swap (⟨i, hi⟩ : Fin n) ⟨j, hj⟩ r) c := by
    intro m hmc hms b b' hv hf r c
    simp only [CMat.toMatrix_apply]
    by_cases hri : r = ⟨i, hi⟩
    · subst hri
      rw [Equiv.swap_apply_left]
      exact (hv c c.isLt).1
    · by_cases hrj : r = ⟨j, hj⟩
      · subst hrj
        rw [Equiv.swap_apply_right]
        exact (hv c c.isLt).2
      · rw [Equiv.swap_apply_of_ne_of_ne hri hrj]
        have hri' : (r : Nat) ≠ i := fun h => hri (Fin.ext h)
        have hrj' : (r : Nat) ≠ j := fun h => hrj (Fin.ext h)
        exact hf _ (fun c' hc' =>
          ⟨CMat_pat_ne m (hmc ▸ hms) (hmc ▸ c.isLt) (hmc ▸ hc') (Or.inl hri'),
           CMat_pat_ne m (hmc ▸ hms) (hmc ▸ c.isLt) (hmc ▸ hc') (Or.inl hrj')⟩)
  have hM := hent cmat hc hs s.1 _ hv1 hf1
  have hE := hent id hic his s.2 _ hv2 hf2
  obtain ⟨hEA, hdet, hcols⟩ := hinv
  obtain ⟨hEA', hdet'⟩ := rowop_preserve _ _ _ _ _ A0
    (det_permMatrix_ne_zero (Equiv.swap (⟨i, hi⟩ : Fin n) ⟨j, hj⟩))
    (rowop_swap _ _ _ hM) (rowop_swap _ _ _ hE) hEA hdet
  refine ⟨⟨hEA', hdet', ?_⟩, (hv1 i hi).1, ?_⟩
  · intro r c hck
    rw [hM r c, hcols _ c hck]
    have hci : (c : Nat) ≠ i := by omega
    have hcj : (c : Nat) ≠ j := by omega
    by_cases hri : r = ⟨i, hi⟩
    · subst hri
      rw [Equiv.swap_apply_left, if_neg (fun h => hcj (by rw [← h])),
        if_neg (fun h => hci (by rw [← h]))]
    · by_cases hrj : r = ⟨j, hj⟩
      · subst hrj
        rw [Equiv.swap_apply_right, if_neg (fun h => hci (by rw [← h])),
          if_neg (fun h => hcj (by rw [← h]))]
      · rw [Equiv.swap_apply_of_ne_of_ne hri hrj]
  · intro a ha
    exact hf1 a (fun c hc' => ⟨ha i c hi hc', ha j c hj hc'⟩)

/-- The division of row `i` by its non-zero element of column `i` keeps the invariant for
the pivots done so far and leaves `1` on the diagonal. -/
theorem CMat_inverse_div_inv (n : Nat) (cmat id : CMat) (hc : cmat.ncol = n)
    (hs : n ≤ cmat.stride) (hic : id.ncol = n) (his : n ≤ id.stride)
    (A0 : Matrix (Fin n) (Fin n) α) (i k : Nat) (hi : i < n) (hk : k ≤ i)
    (s : (Nat → α) × (Nat → α)) (hinv : CMat_inverse_inv n cmat id A0 k s)
    (hdiv : s.1 (CMat_pat cmat i i) ≠ 0) :
    CMat_inverse_inv n cmat id A0 k
      (CMat_inverse_div cmat i (s.1 (CMat_pat cmat i i)) s.1,
        CMat_inverse_div id i (s.1 (CMat_pat cmat i i)) s.2) ∧
    CMat_inverse_div cmat i (s.1 (CMat_pat cmat i i)) s.1 (CMat_pat cmat i i) = 1 ∧
    (∀ a, (∀ r c, r < n → c < n → a ≠ CMat_pat cmat r c) →
      CMat_inverse_div cmat i (s.1 (CMat_pat cmat i i)) s.1 a = s.1 a) := by
  have hent : ∀ (m : CMat), m.ncol = n → n ≤ m.stride → ∀ (b : Nat → α) (dv : α)
      (r c : Fin n), CMat.toMatrix n (CMat_inverse_div m i dv b) m r c
        = if r = ⟨i, hi⟩ then CMat.toMatrix n b m r c / dv else CMat.toMatrix n b m r c := by
    intro m hmc hms b dv r c
    obtain ⟨hv, hf⟩ := CMat_inverse_div_spec m i dv b
    simp only [CMat.toMatrix_apply]
    by_cases hri : r = ⟨i, hi⟩
    · subst hri
      rw [if_pos rfl]
      exact hv c (hmc ▸ c.isLt)
    · rw [if_neg hri]
      have hri' : (r : Nat) ≠ i := fun h => hri (Fin.ext h)
      exact hf _ (fun c' hc' => CMat_pat_ne m (hmc ▸ hms) (hmc ▸ c.isLt) hc' (Or.inl hri'))
  obtain ⟨hv1, hf1⟩ := CMat_inverse_div_spec cmat i (s.1 (CMat_pat cmat i i)) s.1
  obtain ⟨hEA, hdet, hcols⟩ := hinv
  obtain ⟨hEA', hdet'⟩ := rowop_preserve _ _ _ _ _ A0
    (det_scale_ne_zero (⟨i, hi⟩ : Fin n) _ hdiv)
    (rowop_scale _ _ _ _ (hent cmat hc hs s.1 (s.1 (CMat_pat cmat i i))))
    (rowop_scale _ _ _ _ (hent id hic his s.2 (s.1 (CMat_pat cmat i i)))) hEA hdet
  refine ⟨⟨hEA', hdet', ?_⟩, ?_, ?_⟩
  · intro r c hck
    rw [hent cmat hc hs s.1 _ r c, hcols r c hck]
    by_cases hri : r = ⟨i, hi⟩
    · subst hri
      have hne : (⟨i, hi⟩ : Fin n) ≠ c := fun h => by
        have := congrArg Fin.val h
        simp only at this
        omega
      rw [if_pos rfl, if_neg hne, zero_div]
    · rw [if_neg hri]
  · rw [hv1 i (hc ▸ hi), div_self hdiv]
  · intro a ha
    exact hf1 a (fun c hc' => ha i c hi (hc ▸ hc'))

/-- The elimination for the pivot `i`, on a state in which row `i` has `1` on the diagonal,
extends the invariant to `i + 1` pivots. -/
theorem CMat_inverse_elim_inv (n : Nat) (cmat id : CMat) (hr : cmat.nrow = n)
    (hc : cmat.ncol = n) (hs : n ≤ cmat.stride) (hic : id.ncol = n) (his : n ≤ id.stride)
    (A0 : Matrix (Fin n) (Fin n) α) (i : Nat) (hi : i < n)
    (s : (Nat → α) × (Nat → α)) (hinv : CMat_inverse_inv n cmat id A0 i s)
    (hone : s.1 (CMat_pat cmat i i) = 1) :
    CMat_inverse_inv n cmat id A0 (i + 1) (CMat_inverse_elim cmat id i s) ∧
    (∀ a, (∀ r c, r < n → c < n → a ≠ CMat_pat cmat r c) →
      (CMat_inverse_elim cmat id i s).1 a = s.1 a) := by
  obtain ⟨hv1, hf1, hv2, _⟩ := CMat_inverse_elim_spec cmat id (hc ▸ hs) (hic ▸ his) i
    (hc ▸ hi) s
  rw [hr, hc] at hv1 hf1
  rw [hr, hic] at hv2
  have hM : ∀ r c : Fin n, CMat.toMatrix n (CMat_inverse_elim cmat id i s).1 cmat r c
      = if r = ⟨i, hi⟩ then CMat.toMatrix n s.1 cmat r c
        else CMat.toMatrix n s.1 cmat r c
          - CMat.toMatrix n s.1 cmat ⟨i, hi⟩ c * CMat.toMatrix n s.1 cmat r ⟨i, hi⟩ := by
    intro r c
    simp only [CMat.toMatrix_apply]
    rw [hv1 r c r.isLt c.isLt]
    by_cases hri : r = ⟨i, hi⟩
    · have : (r : Nat) = i := congrArg Fin.val hri
      rw [if_pos this, if_pos hri]
    · have : (r : Nat) ≠ i := fun h => hri (Fin.ext h)
      rw [if_neg this, if_neg hri]
  have hE : ∀ r c : Fin n, CMat.toMatrix n (CMat_inverse_elim cmat id i s).2 id r c
      = if r = ⟨i, hi⟩ then CMat.toMatrix n s.2 id r c
        else CMat.toMatrix n s.2 id r c
          - CMat.toMatrix n s.2 id ⟨i, hi⟩ c * CMat.toMatrix n s.1 cmat r ⟨i, hi⟩ := by
    intro r c
    simp only [CMat.toMatrix_apply]
    rw [hv2 r c r.isLt c.isLt]
    by_cases hri : r = ⟨i, hi⟩
    · have : (r : Nat) = i := congrArg Fin.val hri
      rw [if_pos this, if_pos hri]
    · have : (r : Nat) ≠ i := fun h => hri (Fin.ext h)
      rw [if_neg this, if_neg hri]
  obtain ⟨hEA, hdet, hcols⟩ := hinv
  obtain ⟨hEA', hdet'⟩ := rowop_preserve _ _ _ _ _ A0
    (by
      rw [det_elim_eq_one (⟨i, hi⟩ : Fin n)
        (fun r => CMat.toMatrix n s.1 cmat r ⟨i, hi⟩)]
      exact one_ne_zero)
    (rowop_elim _ _ _ _ hM) (rowop_elim _ _ _ _ hE) hEA hdet
  refine ⟨⟨hEA', hdet', ?_⟩, hf1⟩
  intro r c hck
  rw [hM r c]
  rcases Nat.lt_succ_iff_lt_or_eq.mp hck with hlt | heq
  · have hic0 : CMat.toMatrix n s.1 cmat ⟨i, hi⟩ c = 0 := by
      rw [hcols _ c hlt, if_neg]
      intro h
      have := congrArg Fin.val h
      simp only at this
      omega
    rw [hic0, zero_mul, sub_zero, ite_self]
    exact hcols r c hlt
  · have hci : c = ⟨i, hi⟩ := Fin.ext heq
    subst hci
    have hii : CMat.toMatrix n s.1 cmat ⟨i, hi⟩ ⟨i, hi⟩ = 1 := hone
    by_cases hri : r = ⟨i, hi⟩
    · rw [if_pos hri, if_pos hri, hri]
      exact hii
    · rw [if_neg hri, if_neg hri, hii, one_mul, sub_self]

end Pivot

section PivotLoop

variable {α : Type} [Field α] [DecidableEq α]

/-- One iteration of the pivot loop, started in a state that satisfies the invariant for
`i` pivots: either it completes and the invariant holds for `i + 1` pivots, or it returns
`false` with the state unchanged, and then the input matrix is singular.  No iteration
aborts.  The memory outside the cells of `cmat` is not written. -/
theorem CMat_inverse_iter_spec (n : Nat) (cmat id : CMat) (hr : cmat.nrow = n)
    (hc : cmat.ncol = n) (hs : n ≤ cmat.stride) (hic : id.ncol = n) (his : n ≤ id.stride)
    (A0 : Matrix (Fin n) (Fin n) α) (i : Nat) (hi : i < n)
    (s : (Nat → α) × (Nat → α)) (hinv : CMat_inverse_inv n cmat id A0 i s) :
    (∃ s', CMat_inverse_iter cmat id i s = Except.ok (true, s') ∧
      CMat_inverse_inv n cmat id A0 (i + 1) s' ∧
      (∀ a, (∀ r c, r < n → c < n → a ≠ CMat_pat cmat r c) → s'.1 a = s.1 a)) ∨
    (CMat_inverse_iter cmat id i s = Except.ok (false, s) ∧ A0.det = 0) := by
  -- what the iteration does once the pivot row is in place
  have hrest : ∀ s1 : (Nat → α) × (Nat → α), CMat_inverse_inv n cmat id A0 i s1 →
      s1.1 (CMat_pat cmat i i) ≠ 0 →
      (∀ a, (∀ r c, r < n → c < n → a ≠ CMat_pat cmat r c) → s1.1 a = s.1 a) →
      ∃ s', (if CMat_at s1.1 cmat i i = 0 then Except.error Fault.divByZero
          else Except.ok (true, CMat_inverse_elim cmat id i
            (CMat_inverse_div cmat i (CMat_at s1.1 cmat i i) s1.1,
              CMat_inverse_div id i (CMat_at s1.1 cmat i i) s1.2)))
          = Except.ok (true, s') ∧
        CMat_inverse_inv n cmat id A0 (i + 1) s' ∧
        (∀ a, (∀ r c, r < n → c < n → a ≠ CMat_pat cmat r c) → s'.1 a = s.1 a) := by
    intro s1 hinv1 hne hfr1
    obtain ⟨hinv2, hone, hfr2⟩ := CMat_inverse_div_inv n cmat id hc hs hic his A0 i i hi
      (Nat.le_refl i) s1 hinv1 hne
    obtain ⟨hinv3, hfr3⟩ := CMat_inverse_elim_inv n cmat id hr hc hs hic his A0 i hi
      _ hinv2 hone
    refine ⟨_, ?_, hinv3, ?_⟩
    · rw [CMat_at, if_neg hne]
    · intro a ha
      rw [hfr3 a ha]
      exact (hfr2 a ha).trans (hfr1 a ha)
  unfold CMat_inverse_iter
  by_cases hzero : CMat_at s.1 cmat i i = 0
  · simp only [hzero, if_true]
    cases hfind : CMat_inverse_search s.1 cmat i with
    | none =>
      right
      refine ⟨rfl, ?_⟩
      obtain ⟨hEA, hdet, hcols⟩ := hinv
      have hM0 : (CMat.toMatrix n s.1 cmat).det = 0 := by
        refine det_eq_zero_of_pivot_column _ ⟨i, hi⟩ (fun r c hlt => hcols r c hlt) ?_
        intro r hle
        rcases Nat.eq_or_lt_of_le (show i ≤ (r : Nat) from hle) with heq | hlt
        · have : r = ⟨i, hi⟩ := Fin.ext heq.symm
          rw [this]
          exact hzero
        · unfold CMat_inverse_search at hfind
          rw [List.find?_eq_none] at hfind
          have hmem : (r : Nat) ∈ List.range' (i + 1) (cmat.nrow - (i + 1)) := by
            rw [List.mem_range'_1]
            have := r.isLt
            omega
          have := hfind r hmem
          simpa using this
      rw [← hEA, Matrix.det_mul] at hM0
      exact (mul_eq_zero.mp hM0).resolve_left hdet
    | some j =>
      left
      have hmem := List.mem_of_find?_eq_some hfind
      rw [List.mem_range'_1] at hmem
      have hj : j < n := by omega
      have hpj : CMat_at s.1 cmat j i ≠ 0 := by
        have := List.find?_some hfind
        simpa using this
      obtain ⟨hinv1, hval, hfr1⟩ := CMat_inverse_swap_inv n cmat id hc hs hic his A0 i j i
        (by omega) hj (Nat.le_refl i) s hinv
      exact hrest _ hinv1 (by rw [hval]; exact hpj) hfr1
  · left
    have h := hrest s hinv hzero (fun a _ => rfl)
    rw [if_neg hzero] at h
    simp only [hzero, if_false]
    exact h

/-- The pivot loop, started in a state that satisfies the invariant for no pivot: after
`k ≤ n` iterations either it goes on and the invariant holds for `k` pivots, or it has
returned `false`, and then the input matrix is singular. -/
theorem CMat_inverse_loop_spec (n : Nat) (cmat id : CMat) (hr : cmat.nrow = n)
    (hc : cmat.ncol = n) (hs : n ≤ cmat.stride) (hic : id.ncol = n) (his : n ≤ id.stride)
    (A0 : Matrix (Fin n) (Fin n) α) (s : (Nat → α) × (Nat → α))
    (hinv : CMat_inverse_inv n cmat id A0 0 s) (k : Nat) (hk : k ≤ n) :
    ∃ flag s', forLoopRet k (CMat_inverse_iter cmat id) s = Except.ok (flag, s') ∧
      (flag = true → CMat_inverse_inv n cmat id A0 k s') ∧
      (flag = false → A0.det = 0) ∧
      (∀ a, (∀ r c, r < n → c < n → a ≠ CMat_pat cmat r c) → s'.1 a = s.1 a) := by
  induction k with
  | zero => exact ⟨true, s, rfl, fun _ => hinv, fun h => Bool.noConfusion h, fun a _ => rfl⟩
  | succ k ih =>
    obtain ⟨flag, s1, hloop, htrue, hfalse, hfr⟩ := ih (Nat.le_of_succ_le hk)
    cases flag with
    | false =>
      exact ⟨false, s1, by simp only [forLoopRet, hloop], fun h => Bool.noConfusion h,
        fun _ => hfalse rfl, hfr⟩
    | true =>
      rcases CMat_inverse_iter_spec n cmat id hr hc hs hic his A0 k hk s1 (htrue rfl) with
        ⟨s2, hiter, hinv2, hfr2⟩ | ⟨hiter, hdet⟩
      · exact ⟨true, s2, by simp only [forLoopRet, hloop, hiter], fun _ => hinv2,
          fun h => Bool.noConfusion h, fun a ha => (hfr2 a ha).trans (hfr a ha)⟩
      · exact ⟨false, s1, by simp only [forLoopRet, hloop, hiter], fun h => Bool.noConfusion h,
          fun _ => hdet, hfr⟩

/-- What `CMat_inverse` does on a square matrix with distinct cells: it never aborts; when
it returns `true` the matrix it leaves is a left inverse of the input, and when it returns
`false` the input is singular.  The memory outside the cells of `cmat` is not written. -/
theorem CMat_inverse_spec (n : Nat) (buf : Nat → α) (cmat : CMat) (hr : cmat.nrow = n)
    (hc : cmat.ncol = n) (hs : n ≤ cmat.stride) :
    ∃ flag res, CMat_inverse buf cmat = Except.ok (flag, res) ∧
      (flag = true → CMat.toMatrix n res cmat * CMat.toMatrix n buf cmat = 1) ∧
      (flag = false → (CMat.toMatrix n buf cmat).det = 0) ∧
      (∀ a, (∀ r c, r < n → c < n → a ≠ CMat_pat cmat r c) → res a = buf a) := by
  have hinit : (CMat_init cmat.nrow cmat.ncol : (Nat → α) × CMat)
      = (fun _ => 0, { data := 0, nrow := n, ncol := n, stride := n }) := by
    simp only [CMat_init, hr, hc]
  obtain ⟨ibuf, hib, hival, _⟩ := CMat_identity_spec (fun _ => (0 : α))
    { data := 0, nrow := n, ncol := n, stride := n } rfl (Nat.le_refl _)
  have hE0 : CMat.toMatrix n ibuf { data := 0, nrow := n, ncol := n, stride := n } = 1 := by
    ext r c
    rw [CMat.toMatrix_apply, hival r c r.isLt c.isLt, Matrix.one_apply]
    simp only [Fin.ext_iff]
  have hinv0 : CMat_inverse_inv n cmat { data := 0, nrow := n, ncol := n, stride := n }
      (CMat.toMatrix n buf cmat) 0 (buf, ibuf) :=
    ⟨by rw [hE0, Matrix.one_mul], by rw [hE0, Matrix.det_one]; exact one_ne_zero,
      fun r c h => absurd h (Nat.not_lt_zero _)⟩
  obtain ⟨flag, s', hloop, htrue, hfalse, hfr⟩ := CMat_inverse_loop_spec n cmat
    { data := 0, nrow := n, ncol := n, stride := n } hr hc hs rfl (Nat.le_refl n)
    (CMat.toMatrix n buf cmat) (buf, ibuf) hinv0 n (Nat.le_refl n)
  unfold CMat_inverse
  simp only [hinit]
  simp only [hib, hr, hloop]
  cases flag with
  | false => exact ⟨false, s'.1, rfl, fun h => Bool.noConfusion h, fun _ => hfalse rfl, hfr⟩
  | true =>
    obtain ⟨hEA, _, hcols⟩ := htrue rfl
    obtain ⟨res, hres, hrval, hrfr⟩ := CMat_iterate2_copy_spec s'.1 s'.2 cmat
      { data := 0, nrow := n, ncol := n, stride := n } hr hc (hc ▸ hs)
    rw [hr, hc] at hrval hrfr
    refine ⟨true, res, by simp only [hres], fun _ => ?_, fun h => Bool.noConfusion h,
      fun a ha => (hrfr a ha).trans (hfr a ha)⟩
    have hM1 : CMat.toMatrix n s'.1 cmat = 1 := by
      ext r c
      rw [hcols r c c.isLt, Matrix.one_apply]
    have hB : CMat.toMatrix n res cmat
        = CMat.toMatrix n s'.2 { data := 0, nrow := n, ncol := n, stride := n } := by
      ext r c
      exact hrval r c r.isLt c.isLt
    rw [hB, hEA, hM1]

end PivotLoop

/-! ## `CMat_inverse`: main results -/

section InverseClaims

variable {α : Type} [Field α] [DecidableEq α]

/-- C1: inverse round trip.  For every `n` and every non-singular `n × n` matrix `A` held
by a descriptor with distinct cells, `CMat_inverse` returns `true` and leaves a matrix `B`
with `A * B = 1`; and `CMat_dot`, applied to any memory that holds `A` and `B` and a
destination with distinct cells that shares none with them, leaves the `n × n` identity in
the destination. -/
theorem CMat_inverse_round_trip (n : Nat) (buf : Nat → α) (cmat : CMat)
    (hr : cmat.nrow = n) (hc : cmat.ncol = n) (hs : n ≤ cmat.stride)
    (hdet : (CMat.toMatrix n buf cmat).det ≠ 0) :
    ∃ res, CMat_inverse buf cmat = Except.ok (true, res) ∧
      CMat.toMatrix n buf cmat * CMat.toMatrix n res cmat = 1 ∧
      ∀ (mem : Nat → α) (dst a b : CMat),
        a.nrow = n → a.ncol = n → b.nrow = n → b.ncol = n →
        dst.nrow = n → dst.ncol = n → n ≤ dst.stride →
        (∀ r c r' c', r < n → c < n → r' < n → c' < n →
          CMat_pat a r' c' ≠ CMat_pat dst r c ∧ CMat_pat b r' c' ≠ CMat_pat dst r c) →
        (∀ r c, r < n → c < n →
          CMat_at mem a r c = CMat_at buf cmat r c ∧
          CMat_at mem b r c = CMat_at res cmat r c) →
        ∃ out, CMat_dot mem dst a b = Except.ok out ∧
          ∀ r c, r < n → c < n → CMat_at out dst r c = if r = c then 1 else 0 := by
  obtain ⟨flag, res, hres, htrue, hfalse, _⟩ := CMat_inverse_spec n buf cmat hr hc hs
  cases flag with
  | false => exact absurd (hfalse rfl) hdet
  | true =>
    have hAB : CMat.toMatrix n buf cmat * CMat.toMatrix n res cmat = 1 :=
      Matrix.mul_eq_one_comm.mp (htrue rfl)
    refine ⟨res, hres, hAB, ?_⟩
    intro mem dst a b har hac hbr hbc hdr hdc hds hdisj hold
    obtain ⟨out, hout, hval, _⟩ := CMat_dot_spec mem dst a b (har.trans hdr.symm)
      (hac.trans hbr.symm) (hbc.trans hdc.symm) (hdc ▸ hds)
      (fun r c r' i h1 h2 h3 h4 =>
        (hdisj r c r' i (hdr ▸ h1) (hdc ▸ h2) (har ▸ h3) (hac ▸ h4)).1)
      (fun r c i c' h1 h2 h3 h4 =>
        (hdisj r c i c' (hdr ▸ h1) (hdc ▸ h2) (hbr ▸ h3) (hbc ▸ h4)).2)
    refine ⟨out, hout, ?_⟩
    intro r c hrn hcn
    rw [hval r c (hdr ▸ hrn) (hdc ▸ hcn), hac]
    have hsum : (∑ i in Finset.range n, CMat_at mem a r i * CMat_at mem b i c)
        = ∑ i in Finset.range n, CMat_at buf cmat r i * CMat_at res cmat i c :=
      Finset.sum_congr rfl (fun i hi => by
        have hi' := Finset.mem_range.mp hi
        rw [(hold r i hrn hi').1, (hold i c hi' hcn).2])
    rw [hsum, Finset.sum_range]
    have h1 := congrFun (congrFun hAB ⟨r, hrn⟩) ⟨c, hcn⟩
    rw [Matrix.mul_apply, Matrix.one_apply] at h1
    simp only [Fin.mk.injEq] at h1
    exact h1

/-- C2 (amended): with arithmetic taken as exact (the elements are those of a field), for
every singular square matrix held by a descriptor with distinct cells, in particular for
every square matrix that has an all-zero row, `CMat_inverse` returns `false`: it does so
without failing an assertion and without dividing by zero. -/
theorem CMat_inverse_singular (n : Nat) (buf : Nat → α) (cmat : CMat)
    (hr : cmat.nrow = n) (hc : cmat.ncol = n) (hs : n ≤ cmat.stride)
    (hsing : (CMat.toMatrix n buf cmat).det = 0 ∨
      ∃ r, r < n ∧ ∀ c, c < n → CMat_at buf cmat r c = 0) :
    ∃ res, CMat_inverse buf cmat = Except.ok (false, res) := by
  have hdet : (CMat.toMatrix n buf cmat).det = 0 := by
    rcases hsing with h | ⟨r, hrn, hrow⟩
    · exact h
    · exact Matrix.det_eq_zero_of_row_eq_zero (⟨r, hrn⟩ : Fin n) (fun c => hrow c c.isLt)
  obtain ⟨flag, res, hres, htrue, _, _⟩ := CMat_inverse_spec n buf cmat hr hc hs
  cases flag with
  | false => exact ⟨res, hres⟩
  | true =>
    have h := congrArg Matrix.det (htrue rfl)
    rw [Matrix.det_mul, hdet, mul_zero, Matrix.det_one] at h
    exact absurd h zero_ne_one

end InverseClaims

/-! ## Witnesses and failing inputs -/

/-- Witness of C1 on the 4 × 4 matrix of `example_inverse`: it is non-singular,
`CMat_inverse` returns `true`, the matrix left is a right inverse, and its elements are
the sixteen values of the documentation. -/
theorem CMat_inverse_round_trip_witness :
    (CMat.toMatrix 4 example_arr_rat example_cmat).det ≠ 0 ∧
    (∃ res, CMat_inverse example_arr_rat example_cmat = Except.ok (true, res) ∧
      CMat.toMatrix 4 example_arr_rat example_cmat * CMat.toMatrix 4 res example_cmat = 1) ∧
    inverse_result true (CMat_inverse example_arr_rat example_cmat)
      = [-5/7, 2/7, 0, 2/7, 0, 0, 1, 4/5, 0, 0, 0, -1/5, -1/7, -1/7, 0, -1/7] := by
  have hdet : (CMat.toMatrix 4 example_arr_rat example_cmat).det ≠ 0 := by
    have h := CMat_det_eq 4 example_arr_rat example_cmat rfl rfl
    have h35 : CMat_det example_arr_rat example_cmat = Except.ok (-35) := by decide!
    rw [h35] at h
    rw [← Except.ok.inj h]
    norm_num
  obtain ⟨res, h1, h2, _⟩ :=
    CMat_inverse_round_trip 4 example_arr_rat example_cmat rfl rfl (by decide) hdet
  exact ⟨hdet, ⟨res, h1, h2⟩, by decide!⟩

/-- Witness of C2 on a 2 × 2 matrix whose second row is zero. -/
theorem CMat_inverse_singular_witness :
    (∀ c, c < 2 → CMat_at singular_arr (CMat_from_arr 0 2 2) 1 c = 0) ∧
    ∃ res, CMat_inverse singular_arr (CMat_from_arr 0 2 2) = Except.ok (false, res) :=
  ⟨by decide, CMat_inverse_singular 2 singular_arr (CMat_from_arr 0 2 2) rfl rfl (by decide)
    (Or.inr ⟨1, by decide, by decide⟩)⟩

/-- C6 (failing input): the address of element `(r, c)` of the view made by
`CMat_from_submat` is the address of the parent's element `(row_start + r, col_start + c)`
plus `(row_start + r) * col_start`.  On the 2 × 2 parent at offset `0` with stride `2`, the
view taken at `row_start = 0`, `col_start = 1` with 2 rows and 1 column has its element
`(1, 0)` at offset `4`, while the parent's element `(1, 1)` is at offset `3`. -/
theorem CMat_from_submat_shape_failing :
    (∀ (p : CMat) (row_start col_start rows cols r c : Nat),
      CMat_pat (CMat_from_submat p row_start col_start rows cols) r c
        = CMat_pat p (row_start + r) (col_start + c) + (row_start + r) * col_start) ∧
    CMat_pat (CMat_from_submat (CMat_from_arr 0 2 2) 0 1 2 1) 1 0 = 4 ∧
    CMat_pat (CMat_from_arr 0 2 2) (0 + 1) (1 + 0) = 3 := by
  refine ⟨?_, by decide, by decide⟩
  intro p row_start col_start rows cols r c
  simp only [CMat_pat, CMat_from_submat]
  ring

/-- C7 (failing input): the view made by `CMat_from_submat` has the stride
`col_start + p.stride` and its origin `row_start * (col_start + p.stride) + col_start`
elements after the origin of `p`.  On the 2 × 2 parent at offset `0` with stride `2` and
`row_start = 1`, `col_start = 1` the stride is `3`, not `2`, and the origin is at offset
`4`, not `1 * 2 + 1 = 3`. -/
theorem CMat_from_submat_stride_failing :
    (∀ (p : CMat) (row_start col_start rows cols : Nat),
      (CMat_from_submat p row_start col_start rows cols).stride = col_start + p.stride ∧
      (CMat_from_submat p row_start col_start rows cols).data
        = p.data + row_start * (col_start + p.stride) + col_start) ∧
    (CMat_from_submat (CMat_from_arr 0 2 2) 1 1 1 1).stride = 3 ∧
    (CMat_from_arr 0 2 2).stride = 2 ∧
    (CMat_from_submat (CMat_from_arr 0 2 2) 1 1 1 1).data = 4 ∧
    (CMat_from_arr 0 2 2).data + (1 * (CMat_from_arr 0 2 2).stride + 1) = 3 :=
  ⟨fun _ _ _ _ _ => ⟨rfl, rfl⟩, by decide, by decide, by decide, by decide⟩

/-- C8 (failing input): the address of element `(r, c)` of the view made by
`CMat_from_subarr` (and by `CMat_from_sub2darr`) is
`arr + row_start * (col_start + ncol) + col_start + r * stride + c`.  On an array of row
width `3` at offset `0`, the view taken at `row_start = 1`, `col_start = 0` with 1 row and
2 columns has its element `(0, 0)` at offset `2`, which is row `0`, column `2` of the
array, while row `1`, column `0` of the array is at offset `3`. -/
theorem CMat_from_subarr_failing :
    (∀ (arr row_start col_start nrow ncol stride r c : Nat),
      CMat_pat (CMat_from_subarr arr row_start col_start nrow ncol stride) r c
        = arr + row_start * (col_start + ncol) + col_start + r * stride + c ∧
      CMat_pat (CMat_from_sub2darr arr stride row_start col_start nrow ncol) r c
        = arr + row_start * (col_start + ncol) + col_start + r * stride + c) ∧
    0 + 2 ≤ 3 ∧
    CMat_pat (CMat_from_subarr 0 1 0 1 2 3) 0 0 = 2 ∧
    CMat_pat (CMat_from_sub2darr 0 3 1 0 1 2) 0 0 = 2 ∧
    (1 + 0) * 3 + 0 + 0 = 3 :=
  ⟨fun _ _ _ _ _ _ _ _ => ⟨rfl, rfl⟩, by decide, by decide, by decide, by decide⟩

/-- Witness of C3 on the 4 × 4 matrix of `example_det`: `CMat_det` returns `-35`, which
is the Leibniz sum. -/
theorem CMat_det_eq_leibniz_witness :
    example_cmat.nrow = 4 ∧ example_cmat.ncol = 4 ∧
    CMat_det example_arr example_cmat = Except.ok (-35) ∧
    (∑ σ : Equiv.Perm (Fin 4),
      Equiv.Perm.sign σ • ∏ i : Fin 4, CMat_at example_arr example_cmat (σ i) i) = -35 := by
  have h := CMat_det_eq_leibniz 4 example_arr example_cmat rfl rfl
  have h35 : CMat_det example_arr example_cmat = Except.ok (-35) := by decide
  rw [h35] at h
  exact ⟨rfl, rfl, h35, (Except.ok.inj h).symm⟩

/-- Witness of C4 on the 4 × 4 matrix of `example_det`. -/
theorem CMat_det_laplace_witness :
    example_cmat.nrow = example_cmat.ncol ∧ 0 < example_cmat.nrow ∧
    ∃ cof : Nat → ℤ,
      (∀ c, c < example_cmat.ncol → CMat_cofactor example_arr example_cmat 0 c
        = Except.ok (cof c)) ∧
      CMat_det example_arr example_cmat = Except.ok
        (∑ c in Finset.range example_cmat.ncol, CMat_at example_arr example_cmat 0 c * cof c) :=
  ⟨rfl, by decide, (CMat_det_laplace example_arr example_cmat rfl).2 (by decide)⟩

/-- Witness of C5 on the 4 × 4 matrix of `example_det`, row `0` and column `1`: the
cofactor is the negated determinant of the minor. -/
theorem CMat_cofactor_eq_minor_det_witness :
    (∀ r, r < 3 → ∀ c, c < 3 →
      CMat_at example_minor (CMat_from_arr 0 3 3) r c
        = CMat_at example_arr example_cmat (skipIndex 0 r) (skipIndex 1 c)) ∧
    ∃ d, CMat_det example_minor (CMat_from_arr 0 3 3) = Except.ok d ∧
      CMat_cofactor example_arr example_cmat 0 1
        = Except.ok (if (0 + 1) % 2 = 0 then d else -d) :=
  ⟨by decide, CMat_cofactor_eq_minor_det 3 example_arr example_cmat rfl rfl 0 1
    (by decide) (by decide) example_minor (CMat_from_arr 0 3 3) rfl rfl
    (fun r c hr hc => (by decide : ∀ r, r < 3 → ∀ c, c < 3 →
      CMat_at example_minor (CMat_from_arr 0 3 3) r c
        = CMat_at example_arr example_cmat (skipIndex 0 r) (skipIndex 1 c)) r hr c hc)⟩

/-- Witness of C9: the adjugate of the 4 × 4 matrix of `example_det`, written to the
sixteen cells that follow it in memory. -/
theorem CMat_adj_spec_witness :
    ∃ res, CMat_adj example_arr (CMat_from_arr 16 4 4) example_cmat = Except.ok res ∧
      (∀ r c, r < 4 → c < 4 →
        CMat_cofactor example_arr example_cmat r c
            = Except.ok (CMat_at res (CMat_from_arr 16 4 4) c r) ∧
        CMat_cofactor res example_cmat r c
            = Except.ok (CMat_at res (CMat_from_arr 16 4 4) c r)) ∧
      (∀ r c, r < 4 → c < 4 →
        CMat_at res example_cmat r c = CMat_at example_arr example_cmat r c) :=
  CMat_adj_spec 4 example_arr (CMat_from_arr 16 4 4) example_cmat rfl rfl rfl rfl
    (by decide)
    (fun r c r' c' hr hc hr' hc' => by
      simp only [CMat_pat, example_cmat, CMat_from_arr]
      omega)

/-- Witness of C10 on the matrices of `example_dot`: `[[1,2,3],[4,5,6]]` times
`[[10,11],[20,21],[30,31]]` is `[[140,146],[320,335]]`. -/
theorem CMat_dot_correct_witness :
    (∃ res, CMat_dot example_dot_mem (CMat_from_arr 12 2 2) (CMat_from_arr 0 2 3)
        (CMat_from_arr 6 3 2) = Except.ok res ∧
      (∀ r c, r < 2 → c < 2 →
        CMat_at res (CMat_from_arr 12 2 2) r c
          = ∑ i in Finset.range 3, CMat_at example_dot_mem (CMat_from_arr 0 2 3) r i
              * CMat_at example_dot_mem (CMat_from_arr 6 3 2) i c) ∧
      (∀ r i, r < 2 → i < 3 → CMat_at res (CMat_from_arr 0 2 3) r i
        = CMat_at example_dot_mem (CMat_from_arr 0 2 3) r i) ∧
      (∀ i c, i < 3 → c < 2 → CMat_at res (CMat_from_arr 6 3 2) i c
        = CMat_at example_dot_mem (CMat_from_arr 6 3 2) i c)) ∧
    (CMat_dot example_dot_mem (CMat_from_arr 12 2 2) (CMat_from_arr 0 2 3)
      (CMat_from_arr 6 3 2)).toOption.map (fun res => [res 12, res 13, res 14, res 15])
        = some [140, 146, 320, 335] :=
  ⟨CMat_dot_correct example_dot_mem (CMat_from_arr 12 2 2) (CMat_from_arr 0 2 3)
    (CMat_from_arr 6 3 2) rfl rfl rfl (by decide)
    (fun r c r' i hr hc hr' hi => by
      simp only [CMat_pat, CMat_from_arr] at *
      omega)
    (fun r c i c' hr hc hi hc' => by
      simp only [CMat_pat, CMat_from_arr] at *
      omega),
    by decide⟩

/-! ## Shape assertions of the square-only operations -/

section SquareOnly

/-- C16: every square-only operation rejects a matrix with `nrow ≠ ncol` by a failed
assertion: `CMat_det`, `CMat_adj` (for `src`), `CMat_identity` and `CMat_inverse` abort
instead of returning a value; in particular `CMat_inverse` does not return `false`. -/
theorem square_only_assertions {α : Type} [Field α] [DecidableEq α] (buf : Nat → α)
    (cmat dst : CMat) (h : cmat.nrow ≠ cmat.ncol) :
    CMat_det buf cmat = Except.error Fault.assertion ∧
    CMat_adj buf dst cmat = Except.error Fault.assertion ∧
    CMat_identity buf cmat = Except.error Fault.assertion ∧
    CMat_inverse buf cmat = Except.error Fault.assertion := by
  refine ⟨?_, ?_, ?_, ?_⟩
  · rw [CMat_det, CMat_det_fuel, if_neg h]
  · rw [CMat_adj, if_neg h]
  · rw [CMat_identity, if_neg h]
  · have hid : CMat_identity (CMat_init cmat.nrow cmat.ncol : (Nat → α) × CMat).1
        (CMat_init cmat.nrow cmat.ncol : (Nat → α) × CMat).2
          = Except.error Fault.assertion := by
      rw [CMat_identity]
      exact if_neg h
    unfold CMat_inverse
    simp only [hid]

end SquareOnly

/-! ## `CMat_identity` and `CMat_transpose` -/

section IdentityTranspose

variable {α : Type}

/-- C14: for every square `n × n` destination with distinct cells, whatever its previous
contents and its stride (at least `n`), `CMat_identity` returns and afterwards
`dst[r][c]` is `1` when `r = c` and `0` otherwise, for all `r, c < n`. -/
theorem CMat_identity_correct [CommRing α] (n : Nat) (buf : Nat → α) (dst : CMat)
    (hr : dst.nrow = n) (hc : dst.ncol = n) (hs : n ≤ dst.stride) :
    ∃ res, CMat_identity buf dst = Except.ok res ∧
      ∀ r c, r < n → c < n → CMat_at res dst r c = if r = c then 1 else 0 := by
  obtain ⟨res, hres, hval, _⟩ := CMat_identity_spec buf dst (hr.trans hc.symm) (hc ▸ hs)
  exact ⟨res, hres, fun r c hrn hcn => hval r c (hr ▸ hrn) (hc ▸ hcn)⟩

/-- What `CMat_transpose` does when its assertions hold and `dst` has distinct cells that
it does not share with `src`. -/
theorem CMat_transpose_spec (buf : Nat → α) (dst src : CMat)
    (h1 : dst.nrow = src.ncol) (h2 : dst.ncol = src.nrow) (hs : dst.ncol ≤ dst.stride)
    (hdisj : ∀ r c r' c', r < src.nrow → c < src.ncol → r' < src.nrow → c' < src.ncol →
      CMat_pat src r c ≠ CMat_pat dst c' r') :
    ∃ res, CMat_transpose buf dst src = Except.ok res ∧
      (∀ r c, r < src.nrow → c < src.ncol → res (CMat_pat dst c r) = buf (CMat_pat src r c)) ∧
      (∀ a, (∀ r c, r < src.nrow → c < src.ncol → a ≠ CMat_pat dst c r) → res a = buf a) := by
  rw [CMat_transpose, if_pos h1, if_pos h2, CMat_iterate]
  exact forLoopE2_update src.nrow src.ncol (fun r c => CMat_pat dst c r)
    (fun r c => buf (CMat_pat src r c))
    (fun row col b => Except.ok (Function.update b (CMat_pat dst col row)
      (b (CMat_pat src row col)))) buf
    (fun x y x' y' hx _ hx' _ h =>
      (CMat_pat_inj dst hs (h2 ▸ hx) (h2 ▸ hx') h).symm)
    (fun x y hx hy b hb => by
      beta_reduce at hb ⊢
      rw [hb _ (fun x' y' hx' hy' => hdisj x y x' y' hx hy hx' hy')])

/-- C12: for `src` (`p × q`) and `dst` (`q × p`) such that the cells of `dst` are distinct
from each other and from those of `src`, `CMat_transpose(dst, src)` passes its shape
assertions and afterwards `dst[c][r] = src[r][c]` for all `r < p`, `c < q`, with `src`
unchanged; when `dst.nrow ≠ src.ncol` or `dst.ncol ≠ src.nrow` the assertion fails. -/
theorem CMat_transpose_correct (buf : Nat → α) (dst src : CMat) :
    (dst.nrow = src.ncol → dst.ncol = src.nrow → dst.ncol ≤ dst.stride →
      (∀ r c r' c', r < src.nrow → c < src.ncol → r' < src.nrow → c' < src.ncol →
        CMat_pat src r c ≠ CMat_pat dst c' r') →
      ∃ res, CMat_transpose buf dst src = Except.ok res ∧
        (∀ r c, r < src.nrow → c < src.ncol →
          CMat_at res dst c r = CMat_at buf src r c ∧
          CMat_at res src r c = CMat_at buf src r c)) ∧
    (dst.nrow ≠ src.ncol ∨ dst.ncol ≠ src.nrow →
      CMat_transpose buf dst src = Except.error Fault.assertion) := by
  constructor
  · intro h1 h2 hs hdisj
    obtain ⟨res, hres, hval, hframe⟩ := CMat_transpose_spec buf dst src h1 h2 hs hdisj
    exact ⟨res, hres, fun r c hr hc => ⟨hval r c hr hc,
      hframe _ (fun r' c' hr' hc' => hdisj r c r' c' hr hc hr' hc')⟩⟩
  · intro h
    unfold CMat_transpose
    by_cases h1 : dst.nrow = src.ncol
    · rw [if_pos h1, if_neg (h.resolve_left (not_not.mpr h1))]
    · rw [if_neg h1]

/-- C13: transpose involution.  Transposing `A` (`p × q`) into `B` (`q × p`) and then `B`
into `C` (`p × q`), where `B` and `C` have distinct cells, `B` shares none with `A` and
`C` shares none with `B`, both calls return and `C` holds the elements `A` had; `A` itself
still holds them when `C` shares no cell with it. -/
theorem CMat_transpose_involution (p q : Nat) (buf : Nat → α) (a b c : CMat)
    (har : a.nrow = p) (hac : a.ncol = q) (hbr : b.nrow = q) (hbc : b.ncol = p)
    (hcr : c.nrow = p) (hcc : c.ncol = q) (hbs : p ≤ b.stride) (hcs : q ≤ c.stride)
    (hab : ∀ r k r' k', r < p → k < q → r' < p → k' < q →
      CMat_pat a r k ≠ CMat_pat b k' r')
    (hbc' : ∀ r k r' k', r < p → k < q → r' < p → k' < q →
      CMat_pat b k r ≠ CMat_pat c r' k') :
    ∃ res1 res2, CMat_transpose buf b a = Except.ok res1 ∧
      CMat_transpose res1 c b = Except.ok res2 ∧
      (∀ r k, r < p → k < q → CMat_at res2 c r k = CMat_at buf a r k) ∧
      ((∀ r k r' k', r < p → k < q → r' < p → k' < q →
          CMat_pat a r k ≠ CMat_pat c r' k') →
        ∀ r k, r < p → k < q → CMat_at res2 a r k = CMat_at buf a r k) := by
  obtain ⟨res1, hres1, hval1, hframe1⟩ := CMat_transpose_spec buf b a (hbr.trans hac.symm)
    (hbc.trans har.symm) (hbc ▸ hbs)
    (fun r k r' k' hr hk hr' hk' => hab r k r' k' (har ▸ hr) (hac ▸ hk) (har ▸ hr') (hac ▸ hk'))
  obtain ⟨res2, hres2, hval2, hframe2⟩ := CMat_transpose_spec res1 c b (hcr.trans hbc.symm)
    (hcc.trans hbr.symm) (hcc ▸ hcs)
    (fun k r k' r' hk hr hk' hr' =>
      hbc' r k r' k' (hbc ▸ hr) (hbr ▸ hk) (hbc ▸ hr') (hbr ▸ hk'))
  rw [har, hac] at hval1 hframe1
  rw [hbr, hbc] at hval2 hframe2
  refine ⟨res1, res2, hres1, hres2, ?_, ?_⟩
  · intro r k hr hk
    rw [CMat_at, hval2 k r hk hr, hval1 r k hr hk]
    rfl
  · intro hac' r k hr hk
    rw [CMat_at, hframe2 _ (fun k' r' hk' hr' => hac' r k r' k' hr hk hr' hk'),
      hframe1 _ (fun r' k' hr' hk' => hab r k r' k' hr hk hr' hk')]
    rfl

end IdentityTranspose

/-! ## Products with the identity and element-wise addition -/

section IdentityLaw

variable {α : Type} [CommRing α]

end IdentityLaw

section ReadWriteLoops

variable {α : Type}

/-- The version of `forLoopE2_update` for a body that also reads the cell it writes:
iteration `(x, y)` finds at `addr x y` the value the memory had before the loops. -/
theorem forLoopE2_update_read (X Y : Nat) (addr : Nat → Nat → Nat) (v : Nat → Nat → α)
    (body : Nat → Nat → (Nat → α) → Except Fault (Nat → α)) (buf : Nat → α)
    (hinj : ∀ x y x' y', x < X → y < Y → x' < X → y' < Y →
      addr x y = addr x' y' → x = x' ∧ y = y')
    (hbody : ∀ x y, x < X → y < Y → ∀ b : Nat → α,
      (∀ a, (∀ x' y', x' < X → y' < Y → a ≠ addr x' y') → b a = buf a) →
      b (addr x y) = buf (addr x y) →
      body x y b = Except.ok (Function.update b (addr x y) (v x y))) :
    ∃ res, forLoopE X (fun x s => forLoopE Y (fun y s => body x y s) s) buf = Except.ok res ∧
      (∀ x y, x < X → y < Y → res (addr x y) = v x y) ∧
      (∀ a, (∀ x y, x < X → y < Y → a ≠ addr x y) → res a = buf a) := by
  have key : ∀ n, n ≤ X → ∃ res,
      forLoopE n (fun x s => forLoopE Y (fun y s => body x y s) s) buf = Except.ok res ∧
      (∀ x y, x < n → y < Y → res (addr x y) = v x y) ∧
      (∀ a, (∀ x y, x < n → y < Y → a ≠ addr x y) → res a = buf a) := by
    intro n
    induction n with
    | zero =>
      intro _
      exact ⟨buf, rfl, fun x y hx => absurd hx (Nat.not_lt_zero x), fun a _ => rfl⟩
    | succ k ih =>
      intro hk
      obtain ⟨b, hb, hval, hframe⟩ := ih (Nat.le_of_succ_le hk)
      obtain ⟨res, hres, hrval, hrframe⟩ := forLoopE_update Y (addr k) (v k) (body k) b
        (fun y y' hy hy' h => (hinj k y k y' hk hy hk hy' h).2)
        (fun y hy b' hb' => hbody k y hk hy b'
          (fun a ha => by
            rw [hb' a (fun y' _ => ha k y' hk (by omega))]
            exact hframe a (fun x' y' hx' hy' => ha x' y' (by omega) hy'))
          (by
            rw [hb' _ (fun y' hy' h =>
              absurd (hinj k y k y' hk hy hk (by omega) h).2 (by omega))]
            exact hframe _ (fun x' y' hx' hy' h =>
              absurd (hinj k y x' y' hk hy (by omega) hy' h).1 (by omega))))
      refine ⟨res, ?_, ?_, ?_⟩
      · simp only [forLoopE, hb]
        exact hres
      · intro x y hx hy
        rcases Nat.lt_succ_iff_lt_or_eq.mp hx with hlt | heq
        · rw [hrframe _ (fun y' hy' h =>
            absurd (hinj x y k y' (by omega) hy hk hy' h).1 (Nat.ne_of_lt hlt))]
          exact hval x y hlt hy
        · rw [heq]
          exact hrval y hy
      · intro a ha
        rw [hrframe a (fun y hy => ha k y (Nat.lt_succ_self k) hy)]
        exact hframe a (fun x y hx hy => ha x y (Nat.lt_succ_of_lt hx) hy)
  exact key X (Nat.le_refl X)

/-- C15: element-wise addition through `CMat_iterate2` with the body `*val1 += *val2`.
For `m1` and `m2` of equal `nrow` and `ncol` (their strides may differ), the cells of `m1`
being distinct from each other and from those of `m2`, the loop returns, and afterwards
`m1[r][c]` is the old `m1[r][c] + m2[r][c]` for every `r < nrow`, `c < ncol`, and `m2` is
unchanged. -/
theorem CMat_iterate2_add_correct [Add α] (buf : Nat → α) (m1 m2 : CMat)
    (hr : m1.nrow = m2.nrow) (hc : m1.ncol = m2.ncol) (hs : m1.ncol ≤ m1.stride)
    (hdisj : ∀ r c r' c', r < m1.nrow → c < m1.ncol → r' < m1.nrow → c' < m1.ncol →
      CMat_pat m2 r' c' ≠ CMat_pat m1 r c) :
    ∃ res, CMat_iterate2_add buf m1 m2 = Except.ok res ∧
      ∀ r c, r < m1.nrow → c < m1.ncol →
        CMat_at res m1 r c = CMat_at buf m1 r c + CMat_at buf m2 r c ∧
        CMat_at res m2 r c = CMat_at buf m2 r c := by
  obtain ⟨res, hres, hval, hframe⟩ := forLoopE2_update_read m1.nrow m1.ncol
    (fun r c => CMat_pat m1 r c)
    (fun r c => buf (CMat_pat m1 r c) + buf (CMat_pat m2 r c))
    (fun row col b => Except.ok (Function.update b (CMat_pat m1 row col)
      (b (CMat_pat m1 row col) + b (CMat_pat m2 row col)))) buf
    (fun x y x' y' _ hy _ hy' h => CMat_pat_inj m1 hs hy hy' h)
    (fun x y hx hy b hb hcur => by
      beta_reduce at hb hcur ⊢
      rw [hcur, hb _ (fun x' y' hx' hy' => hdisj x' y' x y hx' hy' hx hy)])
  refine ⟨res, ?_, fun r c hrn hcn => ⟨hval r c hrn hcn,
    hframe _ (fun x' y' hx' hy' => hdisj x' y' r c hx' hy' hrn hcn)⟩⟩
  rw [CMat_iterate2_add, CMat_iterate2, if_pos hr, if_pos hc]
  exact hres

end ReadWriteLoops

/-! ## The iteration macros -/

section Iterators

variable {σ : Type}

/-- A loop whose body never aborts returns. -/
theorem forLoopE_total (n : Nat) (body : Nat → σ → Except Fault σ) (s : σ)
    (h : ∀ k t, ∃ t', body k t = Except.ok t') : ∃ t, forLoopE n body s = Except.ok t := by
  obtain ⟨t, ht, _⟩ := forLoopE_invariant (fun _ _ => True) n body s trivial
    (fun k _ t _ => by
      obtain ⟨t', ht'⟩ := h k t
      exact ⟨t', ht', trivial⟩)
  exact ⟨t, ht⟩

/-- C17: shape checking of the zipped iterators.  With a body that never aborts,
`CMat_iterate2(m1, m2, ...)` fails its assertion if and only if `m1.nrow ≠ m2.nrow` or
`m1.ncol ≠ m2.ncol`, and `CMat_iterate3(m1, m2, m3, ...)` if and only if `m2` or `m3`
differs from `m1` in `nrow` or `ncol`; the strides play no part; and on a mismatch the
result is the failed assertion whatever the body is, so that no iteration is executed. -/
theorem CMat_iterate_shape_check (m1 m2 m3 : CMat) (s : σ)
    (block2 : Nat → Nat → Nat → Nat → σ → Except Fault σ)
    (block3 : Nat → Nat → Nat → Nat → Nat → σ → Except Fault σ)
    (h2 : ∀ row col val1 val2 t, ∃ t', block2 row col val1 val2 t = Except.ok t')
    (h3 : ∀ row col val1 val2 val3 t, ∃ t', block3 row col val1 val2 val3 t = Except.ok t') :
    (CMat_iterate2 m1 m2 block2 s = Except.error Fault.assertion ↔
      (m1.nrow ≠ m2.nrow ∨ m1.ncol ≠ m2.ncol)) ∧
    (CMat_iterate3 m1 m2 m3 block3 s = Except.error Fault.assertion ↔
      ((m1.nrow ≠ m2.nrow ∨ m1.ncol ≠ m2.ncol) ∨ (m1.nrow ≠ m3.nrow ∨ m1.ncol ≠ m3.ncol))) ∧
    (∀ st1 st2 : Nat,
      (CMat_iterate2 { m1 with stride := st1 } { m2 with stride := st2 } block2 s
          = Except.error Fault.assertion ↔
        CMat_iterate2 m1 m2 block2 s = Except.error Fault.assertion)) ∧
    (∀ st1 st2 st3 : Nat,
      (CMat_iterate3 { m1 with stride := st1 } { m2 with stride := st2 }
          { m3 with stride := st3 } block3 s = Except.error Fault.assertion ↔
        CMat_iterate3 m1 m2 m3 block3 s = Except.error Fault.assertion)) ∧
    ((m1.nrow ≠ m2.nrow ∨ m1.ncol ≠ m2.ncol) →
      ∀ block : Nat → Nat → Nat → Nat → σ → Except Fault σ,
        CMat_iterate2 m1 m2 block s = Except.error Fault.assertion) ∧
    (((m1.nrow ≠ m2.nrow ∨ m1.ncol ≠ m2.ncol) ∨ (m1.nrow ≠ m3.nrow ∨ m1.ncol ≠ m3.ncol)) →
      ∀ block : Nat → Nat → Nat → Nat → Nat → σ → Except Fault σ,
        CMat_iterate3 m1 m2 m3 block s = Except.error Fault.assertion) := by
  have hfail2 : ∀ (a b : CMat) (block : Nat → Nat → Nat → Nat → σ → Except Fault σ),
      (a.nrow ≠ b.nrow ∨ a.ncol ≠ b.ncol) →
      CMat_iterate2 a b block s = Except.error Fault.assertion := by
    intro a b block h
    unfold CMat_iterate2
    by_cases hr : a.nrow = b.nrow
    · rw [if_pos hr, if_neg (h.resolve_left (not_not.mpr hr))]
    · rw [if_neg hr]
  have hfail3 : ∀ (a b c : CMat) (block : Nat → Nat → Nat → Nat → Nat → σ → Except Fault σ),
      ((a.nrow ≠ b.nrow ∨ a.ncol ≠ b.ncol) ∨ (a.nrow ≠ c.nrow ∨ a.ncol ≠ c.ncol)) →
      CMat_iterate3 a b c block s = Except.error Fault.assertion := by
    intro a b c block h
    unfold CMat_iterate3
    by_cases h1 : a.nrow = b.nrow
    · rw [if_pos h1]
      by_cases h2' : a.ncol = b.ncol
      · rw [if_pos h2']
        by_cases h3' : a.nrow = c.nrow
        · rw [if_pos h3']
          by_cases h4 : a.ncol = c.ncol
          · rcases h with (h | h) | (h | h)
            · exact absurd h1 h
            · exact absurd h2' h
            · exact absurd h3' h
            · exact absurd h4 h
          · rw [if_neg h4]
        · rw [if_neg h3']
      · rw [if_neg h2']
    · rw [if_neg h1]
  have hiff2 : ∀ a b : CMat, (CMat_iterate2 a b block2 s = Except.error Fault.assertion ↔
      (a.nrow ≠ b.nrow ∨ a.ncol ≠ b.ncol)) := by
    intro a b
    refine ⟨fun h => ?_, hfail2 a b block2⟩
    by_contra hne
    have hr : a.nrow = b.nrow := by
      by_contra hr
      exact hne (Or.inl hr)
    have hc : a.ncol = b.ncol := by
      by_contra hc
      exact hne (Or.inr hc)
    rw [CMat_iterate2, if_pos hr, if_pos hc] at h
    obtain ⟨t, ht⟩ := forLoopE_total a.nrow (fun row s =>
      forLoopE a.ncol (fun col s =>
        block2 row col (CMat_pat a row col) (CMat_pat b row col) s) s) s
      (fun row t => forLoopE_total a.ncol _ t (fun col t' => h2 _ _ _ _ t'))
    rw [ht] at h
    cases h
  have hiff3 : ∀ a b c : CMat, (CMat_iterate3 a b c block3 s = Except.error Fault.assertion ↔
      ((a.nrow ≠ b.nrow ∨ a.ncol ≠ b.ncol) ∨ (a.nrow ≠ c.nrow ∨ a.ncol ≠ c.ncol))) := by
    intro a b c
    refine ⟨fun h => ?_, hfail3 a b c block3⟩
    by_contra hne
    have h1 : a.nrow = b.nrow := by
      by_contra hr
      exact hne (Or.inl (Or.inl hr))
    have h2' : a.ncol = b.ncol := by
      by_contra hc
      exact hne (Or.inl (Or.inr hc))
    have h3' : a.nrow = c.nrow := by
      by_contra hr
      exact hne (Or.inr (Or.inl hr))
    have h4 : a.ncol = c.ncol := by
      by_contra hc
      exact hne (Or.inr (Or.inr hc))
    rw [CMat_iterate3, if_pos h1, if_pos h2', if_pos h3', if_pos h4] at h
    obtain ⟨t, ht⟩ := forLoopE_total a.nrow (fun row s =>
      forLoopE a.ncol (fun col s =>
        block3 row col (CMat_pat a row col) (CMat_pat b row col) (CMat_pat c row col) s) s) s
      (fun row t => forLoopE_total a.ncol _ t (fun col t' => h3 _ _ _ _ _ t'))
    rw [ht] at h
    cases h
  refine ⟨hiff2 m1 m2, hiff3 m1 m2 m3, ?_, ?_, fun h block => hfail2 m1 m2 block h,
    fun h block => hfail3 m1 m2 m3 block h⟩
  · intro st1 st2
    rw [hiff2, hiff2]
  · intro st1 st2 st3
    rw [hiff3, hiff3]

/-- The loop `forLoopE` is the monadic fold of its body over `0, 1, ..., n-1`. -/
theorem forLoopE_eq_foldlM (n : Nat) (body : Nat → σ → Except Fault σ) (s : σ) :
    forLoopE n body s = (List.range n).foldlM (fun t k => body k t) s := by
  induction n with
  | zero => rfl
  | succ k ih =>
    rw [List.range_succ, List.foldlM_append, ← ih]
    simp only [forLoopE]
    cases forLoopE k body s with
    | error e => rfl
    | ok t =>
      simp only [List.foldlM_cons, List.foldlM_nil, bind, Except.bind]
      cases body k t <;> rfl

/-- Two nested loops are the monadic fold over the pairs of indices in row-major order. -/
theorem forLoopE2_eq_foldlM (n m : Nat) (body : Nat → Nat → σ → Except Fault σ) (s : σ) :
    forLoopE n (fun row t => forLoopE m (fun col t => body row col t) t) s
      = (List.product (List.range n) (List.range m)).foldlM
          (fun t rc => body rc.1 rc.2 t) s := by
  have hflat : ∀ (l : List Nat) (t : σ),
      (List.product l (List.range m)).foldlM (fun t rc => body rc.1 rc.2 t) t
        = l.foldlM (fun t row => (List.range m).foldlM (fun t col => body row col t) t) t := by
    intro l
    induction l with
    | nil => intro t; rfl
    | cons a l ih =>
      intro t
      have hcons : List.product (a :: l) (List.range m)
          = (List.range m).map (Prod.mk a) ++ List.product l (List.range m) := by
        simp [List.product]
      rw [hcons, List.foldlM_append, List.foldlM_map, List.foldlM_cons]
      congr 1
      funext t'
      exact ih t'
  rw [hflat, forLoopE_eq_foldlM]
  congr 1
  funext t row
  exact forLoopE_eq_foldlM m _ t

/-- The pairs `(row, col)` with `row < n` and `col < m`, each exactly once, in row-major
order: `row` outer, `col` inner. -/
theorem product_range_row_major (n m : Nat) :
    (∀ r c, (r, c) ∈ List.product (List.range n) (List.range m) ↔ r < n ∧ c < m) ∧
    (List.product (List.range n) (List.range m)).Pairwise
      (fun p q => p.1 < q.1 ∨ (p.1 = q.1 ∧ p.2 < q.2)) := by
  constructor
  · intro r c
    exact List.mem_product.trans (by rw [List.mem_range, List.mem_range])
  · unfold List.product
    rw [List.pairwise_flatMap]
    constructor
    · intro a _
      rw [List.pairwise_map]
      exact (List.pairwise_lt_range m).imp (fun h => Or.inr ⟨rfl, h⟩)
    · refine (List.pairwise_lt_range n).imp ?_
      intro a b hab x hx y hy
      obtain ⟨_, _, rfl⟩ := List.mem_map.mp hx
      obtain ⟨_, _, rfl⟩ := List.mem_map.mp hy
      exact Or.inl hab

/-- C18: iteration order.  `CMat_iterate` executes its body exactly once for each
`(row, col)` with `row < nrow` and `col < ncol`, in row-major order (`row` outer, `col`
inner), the value pointer being `data + row * stride + col`: it is the fold of the body
over the list of these pairs.  So are `CMat_iterate2` and `CMat_iterate3` on arguments of
the same shape, each value pointer being computed in its own matrix. -/
theorem CMat_iterate_row_major (cmat m2 m3 : CMat) (s : σ)
    (block : Nat → Nat → Nat → σ → Except Fault σ)
    (block2 : Nat → Nat → Nat → Nat → σ → Except Fault σ)
    (block3 : Nat → Nat → Nat → Nat → Nat → σ → Except Fault σ) :
    CMat_iterate cmat block s
      = (List.product (List.range cmat.nrow) (List.range cmat.ncol)).foldlM
          (fun t rc => block rc.1 rc.2 (cmat.data + rc.1 * cmat.stride + rc.2) t) s ∧
    (cmat.nrow = m2.nrow → cmat.ncol = m2.ncol →
      CMat_iterate2 cmat m2 block2 s
        = (List.product (List.range cmat.nrow) (List.range cmat.ncol)).foldlM
            (fun t rc => block2 rc.1 rc.2 (cmat.data + rc.1 * cmat.stride + rc.2)
              (m2.data + rc.1 * m2.stride + rc.2) t) s) ∧
    (cmat.nrow = m2.nrow → cmat.ncol = m2.ncol → cmat.nrow = m3.nrow → cmat.ncol = m3.ncol →
      CMat_iterate3 cmat m2 m3 block3 s
        = (List.product (List.range cmat.nrow) (List.range cmat.ncol)).foldlM
            (fun t rc => block3 rc.1 rc.2 (cmat.data + rc.1 * cmat.stride + rc.2)
              (m2.data + rc.1 * m2.stride + rc.2) (m3.data + rc.1 * m3.stride + rc.2) t) s) ∧
    (∀ r c, (r, c) ∈ List.product (List.range cmat.nrow) (List.range cmat.ncol)
      ↔ r < cmat.nrow ∧ c < cmat.ncol) ∧
    (List.product (List.range cmat.nrow) (List.range cmat.ncol)).Pairwise
      (fun p q => p.1 < q.1 ∨ (p.1 = q.1 ∧ p.2 < q.2)) := by
  refine ⟨?_, ?_, ?_, (product_range_row_major _ _).1, (product_range_row_major _ _).2⟩
  · rw [CMat_iterate]
    exact forLoopE2_eq_foldlM cmat.nrow cmat.ncol
      (fun row col t => block row col (CMat_pat cmat row col) t) s
  · intro hr hc
    rw [CMat_iterate2, if_pos hr, if_pos hc]
    exact forLoopE2_eq_foldlM cmat.nrow cmat.ncol
      (fun row col t => block2 row col (CMat_pat cmat row col) (CMat_pat m2 row col) t) s
  · intro h1 h2 h3 h4
    rw [CMat_iterate3, if_pos h1, if_pos h2, if_pos h3, if_pos h4]
    exact forLoopE2_eq_foldlM cmat.nrow cmat.ncol
      (fun row col t => block3 row col (CMat_pat cmat row col) (CMat_pat m2 row col)
        (CMat_pat m3 row col) t) s

end Iterators

/-! ## The pivot loop of `CMat_inverse`: intermediate states -/

section InverseStates

variable {α : Type} [Field α] [DecidableEq α]

/-- The function `CMat_inverse` is its pivot loop run for `nrow` iterations, followed by
the `return false` of the loop or by the copy of `id` and `return true`. -/
theorem CMat_inverse_eq_steps (buf : Nat → α) (cmat : CMat) :
    CMat_inverse buf cmat
      = match CMat_inverse_steps buf cmat cmat.nrow with
        | .error e => .error e
        | .ok (false, s) => .ok (false, s.1)
        | .ok (true, s) =>
          match CMat_iterate2 cmat (CMat_init cmat.nrow cmat.ncol : (Nat → α) × CMat).2
              (fun _ _ val1 val2 b => .ok (Function.update b val1 (s.2 val2))) s.1 with
          | .error e => .error e
          | .ok b => .ok (true, b) := by
  unfold CMat_inverse CMat_inverse_steps
  dsimp only
  generalize CMat_identity (CMat_init cmat.nrow cmat.ncol : (Nat → α) × CMat).1
    (CMat_init cmat.nrow cmat.ncol : (Nat → α) × CMat).2 = x
  cases x <;> rfl

/-- The pivot loop of `CMat_inverse` on a square matrix with distinct cells never aborts;
while it goes on the invariant holds, and when it returns `false` the input is singular. -/
theorem CMat_inverse_steps_spec (n : Nat) (buf : Nat → α) (cmat : CMat) (hr : cmat.nrow = n)
    (hc : cmat.ncol = n) (hs : n ≤ cmat.stride) (k : Nat) (hk : k ≤ n) :
    ∃ flag s', CMat_inverse_steps buf cmat k = Except.ok (flag, s') ∧
      (flag = true → CMat_inverse_inv n cmat { data := 0, nrow := n, ncol := n, stride := n }
        (CMat.toMatrix n buf cmat) k s') ∧
      (flag = false → (CMat.toMatrix n buf cmat).det = 0) ∧
      (∀ a, (∀ r c, r < n → c < n → a ≠ CMat_pat cmat r c) → s'.1 a = buf a) := by
  have hinit : (CMat_init cmat.nrow cmat.ncol : (Nat → α) × CMat)
      = (fun _ => 0, { data := 0, nrow := n, ncol := n, stride := n }) := by
    simp only [CMat_init, hr, hc]
  obtain ⟨ibuf, hib, hival, _⟩ := CMat_identity_spec (fun _ => (0 : α))
    { data := 0, nrow := n, ncol := n, stride := n } rfl (Nat.le_refl _)
  have hE0 : CMat.toMatrix n ibuf { data := 0, nrow := n, ncol := n, stride := n } = 1 := by
    ext r c
    rw [CMat.toMatrix_apply, hival r c r.isLt c.isLt, Matrix.one_apply]
    simp only [Fin.ext_iff]
  have hinv0 : CMat_inverse_inv n cmat { data := 0, nrow := n, ncol := n, stride := n }
      (CMat.toMatrix n buf cmat) 0 (buf, ibuf) :=
    ⟨by rw [hE0, Matrix.one_mul], by rw [hE0, Matrix.det_one]; exact one_ne_zero,
      fun r c h => absurd h (Nat.not_lt_zero _)⟩
  obtain ⟨flag, s', hloop, htrue, hfalse, hfr⟩ := CMat_inverse_loop_spec n cmat
    { data := 0, nrow := n, ncol := n, stride := n } hr hc hs rfl (Nat.le_refl n)
    (CMat.toMatrix n buf cmat) (buf, ibuf) hinv0 k hk
  refine ⟨flag, s', ?_, htrue, hfalse, hfr⟩
  unfold CMat_inverse_steps
  simp only [hinit]
  simp only [hib, hloop]

/-- C20: loop invariant of the Gauss-Jordan elimination in `CMat_inverse`.  Whenever the
pivot iteration for the index `i` completes, the columns `0..i` of the working matrix `m`
are those of the identity and the scratch matrix `id` satisfies `id * A0 = m`, where `A0`
is the input; and the elimination of a row `row ≠ i` subtracts from it, in `m` and in
`id`, row `i` times the element `m[row][i]` as it was before the row was changed. -/
theorem CMat_inverse_loop_invariant (n : Nat) (buf : Nat → α) (cmat : CMat)
    (hr : cmat.nrow = n) (hc : cmat.ncol = n) (hs : n ≤ cmat.stride) (i : Nat) (hi : i < n)
    (s' : (Nat → α) × (Nat → α))
    (hrun : CMat_inverse_steps buf cmat (i + 1) = Except.ok (true, s')) :
    (∀ r c, r < n → c ≤ i → CMat_at s'.1 cmat r c = if r = c then 1 else 0) ∧
    CMat.toMatrix n s'.2 { data := 0, nrow := n, ncol := n, stride := n }
        * CMat.toMatrix n buf cmat = CMat.toMatrix n s'.1 cmat ∧
    ∀ (t : (Nat → α) × (Nat → α)) (row c : Nat), row < n → c < n → row ≠ i →
      CMat_at (CMat_inverse_elim cmat { data := 0, nrow := n, ncol := n, stride := n } i t).1
          cmat row c
        = CMat_at t.1 cmat row c - CMat_at t.1 cmat i c * CMat_at t.1 cmat row i ∧
      CMat_at (CMat_inverse_elim cmat { data := 0, nrow := n, ncol := n, stride := n } i t).2
          { data := 0, nrow := n, ncol := n, stride := n } row c
        = CMat_at t.2 { data := 0, nrow := n, ncol := n, stride := n } row c
          - CMat_at t.2 { data := 0, nrow := n, ncol := n, stride := n } i c
            * CMat_at t.1 cmat row i := by
  obtain ⟨flag, s'', hsteps, htrue, _, _⟩ :=
    CMat_inverse_steps_spec n buf cmat hr hc hs (i + 1) hi
  rw [hrun] at hsteps
  have hpair := Except.ok.inj hsteps
  have hflag : flag = true := (congrArg Prod.fst hpair).symm
  have hs' : s'' = s' := (congrArg Prod.snd hpair).symm
  subst hs'
  obtain ⟨hEA, _, hcols⟩ := htrue hflag
  refine ⟨?_, hEA, ?_⟩
  · intro r c hrn hci
    have hcn : c < n := Nat.lt_of_le_of_lt hci hi
    have h := hcols ⟨r, hrn⟩ ⟨c, hcn⟩ (Nat.lt_succ_of_le hci)
    rw [CMat.toMatrix_apply] at h
    simp only [Fin.mk.injEq] at h
    exact h
  · intro t row c hrow hcn hne
    obtain ⟨hv1, _, hv2, _⟩ := CMat_inverse_elim_spec cmat
      { data := 0, nrow := n, ncol := n, stride := n } (hc ▸ hs) (Nat.le_refl n) i
      (hc ▸ hi) t
    have h1 := hv1 row c (hr ▸ hrow) (hc ▸ hcn)
    have h2 := hv2 row c (hr ▸ hrow) hcn
    rw [if_neg hne] at h1 h2
    exact ⟨h1, h2⟩

/-- A run that is known to have the flag `true` has a state. -/
theorem exists_state_of_flag {σ : Type} (x : Except Fault (Bool × σ))
    (h : x.toOption.map Prod.fst = some true) : ∃ s, x = Except.ok (true, s) := by
  cases x with
  | error e => simp [Except.toOption] at h
  | ok p =>
    obtain ⟨f, s⟩ := p
    simp only [Except.toOption, Option.map_some', Option.some.injEq] at h
    exact ⟨s, by rw [← h]⟩

end InverseStates

/-- C19: a failed inversion is not atomic.  On the singular matrix `[[1, 1], [1, 1]]`
`CMat_inverse` returns `false` and leaves `[[1, 1], [0, 0]]`: the second row was
eliminated with the first pivot before the second pivot found the matrix singular. -/
theorem CMat_inverse_not_atomic :
    (CMat.toMatrix 2 example_ones (CMat_from_arr 0 2 2)).det = 0 ∧
    ∃ res, CMat_inverse example_ones (CMat_from_arr 0 2 2) = Except.ok (false, res) ∧
      [res 0, res 1, res 2, res 3] = [1, 1, 0, 0] ∧
      CMat_at res (CMat_from_arr 0 2 2) 1 0 ≠ CMat_at example_ones (CMat_from_arr 0 2 2) 1 0 := by
  have hdet : (CMat.toMatrix 2 example_ones (CMat_from_arr 0 2 2)).det = 0 := by
    have h := CMat_det_eq 2 example_ones (CMat_from_arr 0 2 2) rfl rfl
    have h0 : CMat_det example_ones (CMat_from_arr 0 2 2) = Except.ok 0 := by decide!
    rw [h0] at h
    exact (Except.ok.inj h).symm
  refine ⟨hdet, ?_⟩
  obtain ⟨flag, res, hres, htrue, _, _⟩ :=
    CMat_inverse_spec 2 example_ones (CMat_from_arr 0 2 2) rfl rfl (by decide)
  have hev : inverse_result false (CMat_inverse example_ones (CMat_from_arr 0 2 2))
      = [1, 1, 0, 0, 0, 0, 0, 0, 0, 0, 0, 0, 0, 0, 0, 0] := by decide!
  rw [hres] at hev
  cases flag with
  | true => simp [inverse_result] at hev
  | false =>
    simp only [inverse_result, if_true] at hev
    have h0 : res 0 = 1 := by simpa using congrArg (fun l => l.getD 0 0) hev
    have h1 : res 1 = 1 := by simpa using congrArg (fun l => l.getD 1 0) hev
    have h2 : res 2 = 0 := by simpa using congrArg (fun l => l.getD 2 0) hev
    have h3 : res 3 = 0 := by simpa using congrArg (fun l => l.getD 3 0) hev
    refine ⟨res, hres, by rw [h0, h1, h2, h3], ?_⟩
    have hat : CMat_at res (CMat_from_arr 0 2 2) 1 0 = res 2 := rfl
    have hat0 : CMat_at example_ones (CMat_from_arr 0 2 2) 1 0 = 1 := by decide
    rw [hat, h2, hat0]
    exact zero_ne_one

/-! ## Witnesses of the results on products, transposes and iterators -/

/-- Witness of C12: the transpose of `[[1,2,3],[4,5,6]]` is `[[1,4],[2,5],[3,6]]`, and a
destination with two columns for a source with three rows fails the assertion. -/
theorem CMat_transpose_correct_witness :
    (∃ res, CMat_transpose example_dot_mem (CMat_from_arr 12 3 2) (CMat_from_arr 0 2 3)
        = Except.ok res ∧
      ∀ r c, r < 2 → c < 3 →
        CMat_at res (CMat_from_arr 12 3 2) c r
          = CMat_at example_dot_mem (CMat_from_arr 0 2 3) r c ∧
        CMat_at res (CMat_from_arr 0 2 3) r c
          = CMat_at example_dot_mem (CMat_from_arr 0 2 3) r c) ∧
    (CMat_transpose example_dot_mem (CMat_from_arr 12 3 2) (CMat_from_arr 0 2 3)).toOption.map
        (fun res => [res 12, res 13, res 14, res 15, res 16, res 17])
      = some [1, 4, 2, 5, 3, 6] ∧
    CMat_transpose example_dot_mem (CMat_from_arr 12 3 2) (CMat_from_arr 0 3 2)
      = Except.error Fault.assertion :=
  ⟨(CMat_transpose_correct example_dot_mem (CMat_from_arr 12 3 2) (CMat_from_arr 0 2 3)).1
      rfl rfl (by decide)
      (fun r c r' c' hr hc hr' hc' => by
        simp only [CMat_pat, CMat_from_arr] at *
        omega),
    by decide,
    (CMat_transpose_correct example_dot_mem (CMat_from_arr 12 3 2) (CMat_from_arr 0 3 2)).2
      (Or.inl (by decide))⟩

/-- Witness of C13: `[[1,2,3],[4,5,6]]` transposed to the cells from offset `12` and
back to the cells from offset `18`. -/
theorem CMat_transpose_involution_witness :
    ∃ res1 res2, CMat_transpose example_dot_mem (CMat_from_arr 12 3 2) (CMat_from_arr 0 2 3)
        = Except.ok res1 ∧
      CMat_transpose res1 (CMat_from_arr 18 2 3) (CMat_from_arr 12 3 2) = Except.ok res2 ∧
      (∀ r k, r < 2 → k < 3 →
        CMat_at res2 (CMat_from_arr 18 2 3) r k
          = CMat_at example_dot_mem (CMat_from_arr 0 2 3) r k) ∧
      ((∀ r k r' k', r < 2 → k < 3 → r' < 2 → k' < 3 →
          CMat_pat (CMat_from_arr 0 2 3) r k ≠ CMat_pat (CMat_from_arr 18 2 3) r' k') →
        ∀ r k, r < 2 → k < 3 →
          CMat_at res2 (CMat_from_arr 0 2 3) r k
            = CMat_at example_dot_mem (CMat_from_arr 0 2 3) r k) :=
  CMat_transpose_involution 2 3 example_dot_mem (CMat_from_arr 0 2 3) (CMat_from_arr 12 3 2)
    (CMat_from_arr 18 2 3) rfl rfl rfl rfl rfl rfl (by decide) (by decide)
    (fun r k r' k' hr hk hr' hk' => by
      simp only [CMat_pat, CMat_from_arr]
      omega)
    (fun r k r' k' hr hk hr' hk' => by
      simp only [CMat_pat, CMat_from_arr]
      omega)

/-- Witness of C14: a 2 × 2 destination over the first four elements of `example_arr`
becomes `[[1, 0], [0, 1]]`. -/
theorem CMat_identity_correct_witness :
    (∃ res, CMat_identity example_arr (CMat_from_arr 0 2 2) = Except.ok res ∧
      ∀ r c, r < 2 → c < 2 → CMat_at res (CMat_from_arr 0 2 2) r c = if r = c then 1 else 0) ∧
    (CMat_identity example_arr (CMat_from_arr 0 2 2)).toOption.map
        (fun res => [res 0, res 1, res 2, res 3]) = some [1, 0, 0, 1] :=
  ⟨CMat_identity_correct 2 example_arr (CMat_from_arr 0 2 2) rfl rfl (by decide), by decide⟩

/-- Witness of C15 on the matrices of `example_add`: `[[1,2],[3,4],[5,6]]` plus
`[[10,11],[20,21],[30,31]]` is `[[11,13],[23,25],[35,37]]`. -/
theorem CMat_iterate2_add_correct_witness :
    (∃ res, CMat_iterate2_add example_add_mem (CMat_from_arr 0 3 2) (CMat_from_arr 6 3 2)
        = Except.ok res ∧
      ∀ r c, r < 3 → c < 2 →
        CMat_at res (CMat_from_arr 0 3 2) r c
          = CMat_at example_add_mem (CMat_from_arr 0 3 2) r c
            + CMat_at example_add_mem (CMat_from_arr 6 3 2) r c ∧
        CMat_at res (CMat_from_arr 6 3 2) r c
          = CMat_at example_add_mem (CMat_from_arr 6 3 2) r c) ∧
    (CMat_iterate2_add example_add_mem (CMat_from_arr 0 3 2) (CMat_from_arr 6 3 2)).toOption.map
        (fun res => [res 0, res 1, res 2, res 3, res 4, res 5])
      = some [11, 13, 23, 25, 35, 37] :=
  ⟨CMat_iterate2_add_correct example_add_mem (CMat_from_arr 0 3 2) (CMat_from_arr 6 3 2)
      rfl rfl (by decide)
      (fun r c r' c' hr hc hr' hc' => by
        simp only [CMat_pat, CMat_from_arr] at *
        omega),
    by decide⟩

/-- Witness of C16 on a 2 × 3 descriptor. -/
theorem square_only_assertions_witness :
    (CMat_from_arr 0 2 3).nrow ≠ (CMat_from_arr 0 2 3).ncol ∧
    CMat_det example_arr_rat (CMat_from_arr 0 2 3) = Except.error Fault.assertion ∧
    CMat_adj example_arr_rat (CMat_from_arr 6 2 3) (CMat_from_arr 0 2 3)
      = Except.error Fault.assertion ∧
    CMat_identity example_arr_rat (CMat_from_arr 0 2 3) = Except.error Fault.assertion ∧
    CMat_inverse example_arr_rat (CMat_from_arr 0 2 3) = Except.error Fault.assertion :=
  ⟨by decide, square_only_assertions example_arr_rat (CMat_from_arr 0 2 3)
    (CMat_from_arr 6 2 3) (by decide)⟩

/-- Witness of C17 with the bodies `*val1 += *val2` and `*val3 = *val1 + *val2`: a 3 × 2
and a 2 × 3 matrix fail the assertion, two 3 × 2 matrices do not. -/
theorem CMat_iterate_shape_check_witness :
    CMat_iterate2 (CMat_from_arr 0 3 2) (CMat_from_arr 6 2 3)
        (fun _ _ val1 val2 b => Except.ok (Function.update b val1 (b val1 + b val2)))
        example_add_mem = Except.error Fault.assertion ∧
    ¬ CMat_iterate2 (CMat_from_arr 0 3 2) (CMat_from_arr 6 3 2)
        (fun _ _ val1 val2 b => Except.ok (Function.update b val1 (b val1 + b val2)))
        example_add_mem = Except.error Fault.assertion ∧
    CMat_iterate3 (CMat_from_arr 0 3 2) (CMat_from_arr 6 3 2) (CMat_from_arr 12 3 3)
        (fun _ _ val1 val2 val3 b => Except.ok (Function.update b val3 (b val1 + b val2)))
        example_add_mem = Except.error Fault.assertion :=
  have h := CMat_iterate_shape_check (CMat_from_arr 0 3 2) (CMat_from_arr 6 2 3)
    (CMat_from_arr 12 3 3) example_add_mem
    (fun _ _ val1 val2 b => Except.ok (Function.update b val1 (b val1 + b val2)))
    (fun _ _ val1 val2 val3 b => Except.ok (Function.update b val3 (b val1 + b val2)))
    (fun _ _ _ _ _ => ⟨_, rfl⟩) (fun _ _ _ _ _ _ => ⟨_, rfl⟩)
  have h' := CMat_iterate_shape_check (CMat_from_arr 0 3 2) (CMat_from_arr 6 3 2)
    (CMat_from_arr 12 3 3) example_add_mem
    (fun _ _ val1 val2 b => Except.ok (Function.update b val1 (b val1 + b val2)))
    (fun _ _ val1 val2 val3 b => Except.ok (Function.update b val3 (b val1 + b val2)))
    (fun _ _ _ _ _ => ⟨_, rfl⟩) (fun _ _ _ _ _ _ => ⟨_, rfl⟩)
  ⟨h.1.mpr (Or.inl (by decide)),
    fun hfail => absurd (h'.1.mp hfail) (by decide),
    h'.2.1.mpr (Or.inr (Or.inr (by decide)))⟩

/-- Witness of C18: the pairs and pointers that `CMat_iterate` passes to its body on a
2 × 3 view at offset `5` with stride `4`, in the order of the calls. -/
theorem CMat_iterate_row_major_witness :
    CMat_iterate { data := 5, nrow := 2, ncol := 3, stride := 4 }
        (fun row col val (t : List (Nat × Nat × Nat)) => Except.ok (t ++ [(row, col, val)])) []
      = Except.ok [(0, 0, 5), (0, 1, 6), (0, 2, 7), (1, 0, 9), (1, 1, 10), (1, 2, 11)] :=
  ((CMat_iterate_row_major { data := 5, nrow := 2, ncol := 3, stride := 4 }
    { data := 0, nrow := 2, ncol := 3, stride := 3 }
    { data := 0, nrow := 2, ncol := 3, stride := 3 } []
    (fun row col val (t : List (Nat × Nat × Nat)) => Except.ok (t ++ [(row, col, val)]))
    (fun _ _ _ _ t => Except.ok t) (fun _ _ _ _ _ t => Except.ok t)).1).trans (by decide)

/-- Witness of C20 on the matrix `[[1, 2], [0, 0]]`: the iteration for the pivot `0`
completes. -/
theorem CMat_inverse_loop_invariant_witness :
    ∃ s', CMat_inverse_steps singular_arr (CMat_from_arr 0 2 2) (0 + 1) = Except.ok (true, s') ∧
      (∀ r c, r < 2 → c ≤ 0 →
        CMat_at s'.1 (CMat_from_arr 0 2 2) r c = if r = c then 1 else 0) ∧
      CMat.toMatrix 2 s'.2 { data := 0, nrow := 2, ncol := 2, stride := 2 }
          * CMat.toMatrix 2 singular_arr (CMat_from_arr 0 2 2)
        = CMat.toMatrix 2 s'.1 (CMat_from_arr 0 2 2) := by
  obtain ⟨s', hs'⟩ := exists_state_of_flag
    (CMat_inverse_steps singular_arr (CMat_from_arr 0 2 2) (0 + 1)) (by decide!)
  have h := CMat_inverse_loop_invariant 2 singular_arr (CMat_from_arr 0 2 2) rfl rfl
    (by decide) 0 (by decide) s' hs'
  exact ⟨s', hs', h.1, h.2.1⟩

/-! ## Sub-views taken at column 0 -/

/-- C23: the view `CMat_from_submat(p, row_start, 0, rows, cols)` has the shape asked for,
its stride is the stride of `p`, and its element `(r, c)` is the element
`(row_start + r, c)` of `p`: the two have the same address, hence the same value in every
memory. -/
theorem CMat_from_submat_col_zero (p : CMat) (row_start rows cols : Nat) :
    (CMat_from_submat p row_start 0 rows cols).nrow = rows ∧
    (CMat_from_submat p row_start 0 rows cols).ncol = cols ∧
    (CMat_from_submat p row_start 0 rows cols).stride = p.stride ∧
    ∀ r c, r < rows → c < cols →
      CMat_pat (CMat_from_submat p row_start 0 rows cols) r c
        = CMat_pat p (row_start + r) c ∧
      ∀ (α : Type) (buf : Nat → α),
        CMat_at buf (CMat_from_submat p row_start 0 rows cols) r c
          = CMat_at buf p (row_start + r) c := by
  have haddr : ∀ r c, CMat_pat (CMat_from_submat p row_start 0 rows cols) r c
      = CMat_pat p (row_start + r) c := by
    intro r c
    simp only [CMat_pat, CMat_from_submat, Nat.zero_add, Nat.add_zero]
    rw [Nat.add_mul]
    omega
  refine ⟨rfl, rfl, by simp only [CMat_from_submat, Nat.zero_add], ?_⟩
  intro r c _ _
  exact ⟨haddr r c, fun α buf => by rw [CMat_at, CMat_at, haddr r c]⟩

/-! ## Termination of `CMat_det` -/

section Termination

variable {α : Type} [CommRing α]

/-- Any fuel above the number of rows gives the determinant. -/
theorem CMat_det_fuel_ge (n : Nat) (buf : Nat → α) (cmat : CMat)
    (hr : cmat.nrow = n) (hc : cmat.ncol = n) (fuel : Nat) (hf : n + 1 ≤ fuel) :
    CMat_det_fuel fuel buf cmat = Except.ok (Matrix.det (CMat.toMatrix n buf cmat)) := by
  induction n generalizing buf cmat fuel with
  | zero =>
    obtain ⟨f, rfl⟩ : ∃ f, fuel = f + 1 := ⟨fuel - 1, by omega⟩
    simp [CMat_det_fuel, hr, hc]
  | succ n ih =>
    obtain ⟨f, rfl⟩ : ∃ f, fuel = f + 1 := ⟨fuel - 1, by omega⟩
    have hL : CMat_det_fuel (f + 1) buf cmat
        = forLoopE (n + 1) (fun col det =>
            match CMat_cofactor_with (CMat_det_fuel f) buf cmat 0 col with
            | .ok c => .ok (det + CMat_at buf cmat 0 col * c)
            | .error e => .error e) 0 := by
      rw [CMat_det_fuel, if_pos (hr.trans hc.symm), if_neg (by omega), hc]
    have hR : CMat_det_fuel (n + 1 + 1) buf cmat
        = forLoopE (n + 1) (fun col det =>
            match CMat_cofactor_with (CMat_det_fuel (n + 1)) buf cmat 0 col with
            | .ok c => .ok (det + CMat_at buf cmat 0 col * c)
            | .error e => .error e) 0 := by
      rw [CMat_det_fuel, if_pos (hr.trans hc.symm), if_neg (by omega), hc]
    rw [← CMat_det_fuel_eq (n + 1) buf cmat hr hc, hL, hR]
    refine forLoopE_congr (n + 1) _ _ 0 ?_
    intro col hcol det
    have h1 := CMat_cofactor_with_eq n (CMat_det_fuel f)
      (fun b m h1 h2 => ih b m h1 h2 f (by omega)) buf cmat hr hc 0 ⟨col, hcol⟩
    have h2 := CMat_cofactor_with_eq n (CMat_det_fuel (n + 1))
      (fun b m h1 h2 => CMat_det_fuel_eq n b m h1 h2) buf cmat hr hc 0 ⟨col, hcol⟩
    simp only [Fin.val_zero] at h1 h2
    simp only [h1, h2]

/-- A loop whose first iteration aborts aborts. -/
theorem forLoopE_first_error {σ : Type} (n : Nat) (body : Nat → σ → Except Fault σ) (s : σ)
    (e : Fault) (h : body 0 s = Except.error e) :
    forLoopE (n + 1) body s = Except.error e := by
  induction n with
  | zero => simpa [forLoopE] using h
  | succ k ih =>
    rw [forLoopE, ih]

/-- With no more fuel than rows the recursion reaches the bound. -/
theorem CMat_det_fuel_le (n : Nat) (buf : Nat → α) (cmat : CMat)
    (hr : cmat.nrow = n) (hc : cmat.ncol = n) (fuel : Nat) (hf : fuel ≤ n) :
    CMat_det_fuel fuel buf cmat = Except.error Fault.outOfFuel := by
  induction fuel generalizing n buf cmat with
  | zero => rfl
  | succ f ih =>
    obtain ⟨k, rfl⟩ : ∃ k, n = k + 1 := ⟨n - 1, by omega⟩
    rw [CMat_det_fuel, if_pos (hr.trans hc.symm), if_neg (by omega), hc]
    apply forLoopE_first_error
    have hsub : CMat_cofactor_with (CMat_det_fuel f) buf cmat 0 0
        = Except.error Fault.outOfFuel := by
      unfold CMat_cofactor_with
      simp only [hr, hc, size_pred_succ, CMat_init]
      rw [ih k _ _ rfl rfl (by omega)]
    simp only [hsub]

/-- C26: the recursion of `CMat_det` through `CMat_cofactor` is bounded.  On a square
`n × n` matrix `CMat_det` returns a value; the recursion never reaches its bound, any
larger bound gives the same result, and a bound of `n` or less is reached, so that the
depth is exactly `n + 1`; and for `n ≥ 1` every `CMat_cofactor` call passes to the
determinant it calls a minor with `n - 1` rows and `n - 1` columns. -/
theorem CMat_det_terminates (n : Nat) (buf : Nat → α) (cmat : CMat)
    (hr : cmat.nrow = n) (hc : cmat.ncol = n) :
    (∃ d, CMat_det buf cmat = Except.ok d) ∧
    (∀ fuel, n + 1 ≤ fuel → CMat_det_fuel fuel buf cmat = CMat_det buf cmat) ∧
    (∀ fuel, fuel ≤ n → CMat_det_fuel fuel buf cmat = Except.error Fault.outOfFuel) ∧
    (0 < n → ∀ (det : (Nat → α) → CMat → Except Fault α) (row col : Nat),
      CMat_cofactor_with det buf cmat row col
        = match det (CMat_cofactor_fill buf cmat row col ((fun _ => 0), 0)).1
            { data := 0, nrow := n - 1, ncol := n - 1, stride := n - 1 } with
          | .ok d => .ok (if (row + col) % 2 = 0 then d else -d)
          | .error e => .error e) := by
  have hdet : CMat_det buf cmat = Except.ok (Matrix.det (CMat.toMatrix n buf cmat)) := by
    unfold CMat_det
    rw [hr]
    exact CMat_det_fuel_eq n buf cmat hr hc
  refine ⟨⟨_, hdet⟩, ?_, fun fuel hf => CMat_det_fuel_le n buf cmat hr hc fuel hf, ?_⟩
  · intro fuel hf
    rw [hdet]
    exact CMat_det_fuel_ge n buf cmat hr hc fuel hf
  · intro hpos det row col
    have hp : size_pred n = n - 1 := by
      unfold size_pred
      rw [if_neg (by omega)]
    unfold CMat_cofactor_with
    simp only [hr, hc, hp, CMat_init]

end Termination

/-! ## The adjugate law -/

section AdjugateLaw

variable {α : Type} [CommRing α]

/-- On a square `src` and a `dst` of the same shape with distinct cells that it does not
share with `src`, `CMat_adj` returns and leaves in `dst` the adjugate of the matrix of
`src`; the memory outside the cells of `dst` is not written. -/
theorem CMat_adj_adjugate (n : Nat) (buf : Nat → α) (dst src : CMat)
    (hsr : src.nrow = n) (hsc : src.ncol = n) (hdr : dst.nrow = n) (hdc : dst.ncol = n)
    (hs : n ≤ dst.stride)
    (hdisj : ∀ r c r' c', r < n → c < n → r' < n → c' < n →
      CMat_pat src r' c' ≠ CMat_pat dst r c) :
    ∃ res, CMat_adj buf dst src = Except.ok res ∧
      CMat.toMatrix n res dst = Matrix.adjugate (CMat.toMatrix n buf src) ∧
      (∀ a, (∀ r c, r < n → c < n → a ≠ CMat_pat dst r c) → res a = buf a) := by
  cases n with
  | zero =>
    refine ⟨buf, ?_, ?_, fun a _ => rfl⟩
    · rw [CMat_adj, if_pos (hsr.trans hsc.symm), if_pos (hdr.trans hsr.symm),
        if_pos (hdc.trans hsc.symm), CMat_iterate, hsr]
      rfl
    · ext r
      exact r.elim0
  | succ k =>
    obtain ⟨res, hres, hval, hframe⟩ := forLoopE2_update (k + 1) (k + 1)
      (fun row col => CMat_pat dst col row)
      (fun row col => if h : row < k + 1 ∧ col < k + 1 then
        (-1) ^ (row + col) * Matrix.det ((CMat.toMatrix (k + 1) buf src).submatrix
          (Fin.succAbove ⟨row, h.1⟩) (Fin.succAbove ⟨col, h.2⟩)) else 0)
      (fun row col b =>
        match CMat_cofactor b src row col with
        | .ok c => .ok (Function.update b (CMat_pat dst col row) c)
        | .error e => .error e)
      buf
      (fun x y x' y' hx _ hx' _ h => (CMat_pat_inj dst (hdc ▸ hs) (hdc ▸ hx) (hdc ▸ hx') h).symm)
      (by
        intro row col hrow hcol b hb
        beta_reduce at hb ⊢
        rw [CMat_cofactor_eq k b src hsr hsc ⟨row, hrow⟩ ⟨col, hcol⟩,
          CMat.toMatrix_congr (k + 1) b buf src (fun r c hr hc =>
            hb _ (fun x' y' hx' hy' => hdisj y' x' r c hy' hx' hr hc))]
        simp only [hrow, hcol, and_self, dite_true])
    refine ⟨res, ?_, ?_, fun a ha => hframe a (fun x y hx hy => ha y x hy hx)⟩
    · rw [CMat_adj, if_pos (hsr.trans hsc.symm), if_pos (hdr.trans hsr.symm),
        if_pos (hdc.trans hsc.symm), CMat_iterate, hsr, hsc]
      exact hres
    · ext r c
      have h := hval c r c.isLt r.isLt
      beta_reduce at h
      rw [CMat.toMatrix_apply, h, Matrix.adjugate_fin_succ_eq_det_submatrix]
      simp only [c.isLt, r.isLt, and_self, dite_true, Fin.eta]

/-- C22: adjugate law.  For an `n × n` matrix `A`, the matrix `adj` that `CMat_adj` writes
for it (into distinct cells that `A` does not use) and a destination with distinct cells
that shares none with `A` or `adj`, the products `CMat_dot(dst, A, adj)` and
`CMat_dot(dst, adj, A)` are both the value of `CMat_det(A)` times the identity. -/
theorem CMat_adjugate_law (n : Nat) (buf : Nat → α) (a adj dst : CMat)
    (har : a.nrow = n) (hac : a.ncol = n) (hjr : adj.nrow = n) (hjc : adj.ncol = n)
    (hdr : dst.nrow = n) (hdc : dst.ncol = n) (hjs : n ≤ adj.stride) (hds : n ≤ dst.stride)
    (haj : ∀ r c r' c', r < n → c < n → r' < n → c' < n →
      CMat_pat a r' c' ≠ CMat_pat adj r c)
    (hd : ∀ r c r' c', r < n → c < n → r' < n → c' < n →
      CMat_pat a r' c' ≠ CMat_pat dst r c ∧ CMat_pat adj r' c' ≠ CMat_pat dst r c) :
    ∃ b1 d, CMat_adj buf adj a = Except.ok b1 ∧ CMat_det buf a = Except.ok d ∧
      (∃ res, CMat_dot b1 dst a adj = Except.ok res ∧
        ∀ r c, r < n → c < n → CMat_at res dst r c = if r = c then d else 0) ∧
      (∃ res, CMat_dot b1 dst adj a = Except.ok res ∧
        ∀ r c, r < n → c < n → CMat_at res dst r c = if r = c then d else 0) := by
  obtain ⟨b1, hb1, hadj, hframe⟩ := CMat_adj_adjugate n buf adj a har hac hjr hjc hjs haj
  have hA : ∀ r c, r < n → c < n → CMat_at b1 a r c = CMat_at buf a r c :=
    fun r c hr hc => hframe _ (fun r' c' hr' hc' => haj r' c' r c hr' hc' hr hc)
  have hAm : CMat.toMatrix n b1 a = CMat.toMatrix n buf a :=
    CMat.toMatrix_congr n b1 buf a hA
  have hentry : ∀ (M : Matrix (Fin n) (Fin n) α) (r c : Nat) (hr : r < n) (hc : c < n),
      M = Matrix.det (CMat.toMatrix n buf a) • (1 : Matrix (Fin n) (Fin n) α) →
      M ⟨r, hr⟩ ⟨c, hc⟩ = if r = c then Matrix.det (CMat.toMatrix n buf a) else 0 := by
    intro M r c hr hc hM
    rw [hM, Matrix.smul_apply, Matrix.one_apply, smul_eq_mul]
    simp only [Fin.mk.injEq, mul_ite, mul_one, mul_zero]
  refine ⟨b1, _, hb1, CMat_det_eq n buf a har hac, ?_, ?_⟩
  · obtain ⟨res, hres, hval, _⟩ := CMat_dot_spec b1 dst a adj (har.trans hdr.symm)
      (hac.trans hjr.symm) (hjc.trans hdc.symm) (hdc ▸ hds)
      (fun r c r' i h1 h2 h3 h4 =>
        (hd r c r' i (hdr ▸ h1) (hdc ▸ h2) (har ▸ h3) (hac ▸ h4)).1)
      (fun r c i c' h1 h2 h3 h4 =>
        (hd r c i c' (hdr ▸ h1) (hdc ▸ h2) (hjr ▸ h3) (hjc ▸ h4)).2)
    refine ⟨res, hres, fun r c hr hc => ?_⟩
    rw [hval r c (hdr ▸ hr) (hdc ▸ hc), hac, Finset.sum_range]
    have h := hentry (CMat.toMatrix n b1 a * CMat.toMatrix n b1 adj) r c hr hc
      (by rw [hadj, hAm, Matrix.mul_adjugate])
    rw [Matrix.mul_apply] at h
    exact h
  · obtain ⟨res, hres, hval, _⟩ := CMat_dot_spec b1 dst adj a (hjr.trans hdr.symm)
      (hjc.trans har.symm) (hac.trans hdc.symm) (hdc ▸ hds)
      (fun r c r' i h1 h2 h3 h4 =>
        (hd r c r' i (hdr ▸ h1) (hdc ▸ h2) (hjr ▸ h3) (hjc ▸ h4)).2)
      (fun r c i c' h1 h2 h3 h4 =>
        (hd r c i c' (hdr ▸ h1) (hdc ▸ h2) (har ▸ h3) (hac ▸ h4)).1)
    refine ⟨res, hres, fun r c hr hc => ?_⟩
    rw [hval r c (hdr ▸ hr) (hdc ▸ hc), hjc, Finset.sum_range]
    have h := hentry (CMat.toMatrix n b1 adj * CMat.toMatrix n b1 a) r c hr hc
      (by rw [hadj, hAm, Matrix.adjugate_mul])
    rw [Matrix.mul_apply] at h
    exact h

end AdjugateLaw

/-! ## The accesses of the minor extraction -/

section FillBounds

variable {α : Type}

/-- A function that commutes with the body of a loop commutes with the loop. -/
theorem forLoop_map {σ τ : Type} (f : σ → τ) (n : Nat) (body : Nat → σ → σ)
    (body' : Nat → τ → τ) (s : σ) (h : ∀ k t, f (body k t) = body' k (f t)) :
    f (forLoop n body s) = forLoop n body' (f s) := by
  induction n with
  | zero => rfl
  | succ k ih => rw [forLoop_succ, forLoop_succ, h, ih]

/-- The fill loop with its record computes the same block and `idx` as the fill loop. -/
theorem CMat_cofactor_fill_log_fst (buf : Nat → α) (cmat : CMat) (row col : Nat)
    (st : (Nat → α) × Nat) :
    (CMat_cofactor_fill_log buf cmat row col st).1 = CMat_cofactor_fill buf cmat row col st := by
  unfold CMat_cofactor_fill_log CMat_cofactor_fill
  refine forLoop_map Prod.fst cmat.nrow _ _ (st, []) ?_
  intro i t
  refine forLoop_map Prod.fst cmat.ncol _ _ t ?_
  intro j u
  by_cases h : i = row ∨ j = col
  · simp only [h, if_true]
  · simp only [h, if_false]

/-- The record of the fill loop started at `idx = 0`: the indices written are
`0, 1, ..., idx - 1` in this order, every element read is inside the input and outside row
`row` and column `col`, and the block is unchanged from `idx` on. -/
theorem CMat_cofactor_fill_log_inv (buf : Nat → α) (cmat : CMat) (row col : Nat)
    (d : Nat → α) :
    (CMat_cofactor_fill_log buf cmat row col (d, 0)).2.map (fun e => e.1)
      = List.range (CMat_cofactor_fill_log buf cmat row col (d, 0)).1.2 ∧
    (∀ e, e ∈ (CMat_cofactor_fill_log buf cmat row col (d, 0)).2 →
      e.2.1 < cmat.nrow ∧ e.2.2 < cmat.ncol ∧ e.2.1 ≠ row ∧ e.2.2 ≠ col) ∧
    (∀ a, (CMat_cofactor_fill_log buf cmat row col (d, 0)).1.2 ≤ a →
      (CMat_cofactor_fill_log buf cmat row col (d, 0)).1.1 a = d a) := by
  unfold CMat_cofactor_fill_log
  refine forLoop_invariant
    (fun _ (s : ((Nat → α) × Nat) × List (Nat × Nat × Nat)) =>
      s.2.map (fun e => e.1) = List.range s.1.2 ∧
      (∀ e, e ∈ s.2 → e.2.1 < cmat.nrow ∧ e.2.2 < cmat.ncol ∧ e.2.1 ≠ row ∧ e.2.2 ≠ col) ∧
      (∀ a, s.1.2 ≤ a → s.1.1 a = d a))
    cmat.nrow _ ((d, 0), [])
    ⟨rfl, fun e he => absurd he (List.not_mem_nil e), fun a _ => rfl⟩ ?_
  intro i hi s hs
  refine forLoop_invariant
    (fun _ (s : ((Nat → α) × Nat) × List (Nat × Nat × Nat)) =>
      s.2.map (fun e => e.1) = List.range s.1.2 ∧
      (∀ e, e ∈ s.2 → e.2.1 < cmat.nrow ∧ e.2.2 < cmat.ncol ∧ e.2.1 ≠ row ∧ e.2.2 ≠ col) ∧
      (∀ a, s.1.2 ≤ a → s.1.1 a = d a))
    cmat.ncol _ s hs ?_
  intro j hj t ⟨h1, h2, h3⟩
  by_cases h : i = row ∨ j = col
  · simp only [h, if_true]
    exact ⟨h1, h2, h3⟩
  · simp only [h, if_false]
    refine ⟨?_, ?_, ?_⟩
    · rw [List.map_append, h1, List.range_succ]
      rfl
    · intro e he
      rcases List.mem_append.mp he with he | he
      · exact h2 e he
      · rw [List.mem_singleton] at he
        subst he
        exact ⟨hi, hj, fun hir => h (Or.inl hir), fun hjc => h (Or.inr hjc)⟩
    · intro a ha
      rw [Function.update_noteq (by omega)]
      exact h3 a (by omega)

/-- C25: minor extraction stays in bounds.  On an `(n+1) × (n+1)` matrix and for
`row, col ≤ n`, the fill loop of `CMat_cofactor` executes its assignment `n * n` times, at
the consecutive indices `0, 1, ..., n * n - 1` of the minor, in this order; every element
it reads is an element `(i, j)` of the input with `i, j ≤ n`; and the block of the minor
is unchanged from index `n * n` on, `n * n` being the number of elements that `CMat_init`
allocates for the minor. -/
theorem CMat_cofactor_fill_in_bounds [CommRing α] (n : Nat) (buf : Nat → α) (cmat : CMat)
    (hr : cmat.nrow = n + 1) (hc : cmat.ncol = n + 1) (row col : Nat)
    (hrow : row ≤ n) (hcol : col ≤ n) (d : Nat → α) :
    (CMat_cofactor_fill_log buf cmat row col (d, 0)).1
      = CMat_cofactor_fill buf cmat row col (d, 0) ∧
    (CMat_cofactor_fill_log buf cmat row col (d, 0)).2.map (fun e => e.1)
      = List.range (n * n) ∧
    (CMat_cofactor_fill_log buf cmat row col (d, 0)).2.length = n * n ∧
    (∀ e, e ∈ (CMat_cofactor_fill_log buf cmat row col (d, 0)).2 →
      e.1 < n * n ∧ e.2.1 < n + 1 ∧ e.2.2 < n + 1) ∧
    (CMat_cofactor_fill buf cmat row col (d, 0)).2 = n * n ∧
    (∀ a, n * n ≤ a → (CMat_cofactor_fill buf cmat row col (d, 0)).1 a = d a) ∧
    (size_pred cmat.nrow) * (size_pred cmat.ncol) = n * n := by
  obtain ⟨h1, h2, h3⟩ := CMat_cofactor_fill_log_inv buf cmat row col d
  have hfst := CMat_cofactor_fill_log_fst buf cmat row col (d, 0)
  have hidx : (CMat_cofactor_fill buf cmat row col (d, 0)).2 = n * n :=
    (CMat_cofactor_fill_spec buf cmat n row col hr hc hrow hcol d).1
  rw [hfst] at h1 h3
  rw [hidx] at h1 h3
  refine ⟨hfst, h1, ?_, ?_, hidx, h3, ?_⟩
  · have := congrArg List.length h1
    rw [List.length_map, List.length_range] at this
    exact this
  · intro e he
    have hmem : e.1 ∈ (CMat_cofactor_fill_log buf cmat row col (d, 0)).2.map (fun e => e.1) :=
      List.mem_map_of_mem _ he
    rw [h1, List.mem_range] at hmem
    obtain ⟨hi, hj, _, _⟩ := h2 e he
    exact ⟨hmem, hr ▸ hi, hc ▸ hj⟩
  · rw [hr, hc, size_pred_succ]

end FillBounds

/-! ## The divisor of `CMat_inverse` -/

section Divisor

variable {α : Type}

/-- After the swap loop for rows `i < j`, whatever the stride, the element `(i, i)` is the
element `(j, i)` of the memory before the loop. -/
theorem swap_loop_pivot (cmat : CMat) (i j : Nat) (hij : i < j) (hi : i < cmat.ncol)
    (buf : Nat → α) :
    forLoop cmat.ncol (fun k b => Function.update
        (Function.update b (CMat_pat cmat i k) (CMat_at b cmat j k))
        (CMat_pat cmat j k) (CMat_at b cmat i k)) buf (CMat_pat cmat i i)
      = buf (CMat_pat cmat j i) := by
  have hmul : i * cmat.stride ≤ j * cmat.stride :=
    Nat.mul_le_mul_right cmat.stride (Nat.le_of_lt hij)
  have key := forLoop_invariant
    (fun k (b : Nat → α) =>
      (k ≤ i → b (CMat_pat cmat j i) = buf (CMat_pat cmat j i)) ∧
      (i < k → b (CMat_pat cmat i i) = buf (CMat_pat cmat j i)))
    cmat.ncol
    (fun k b => Function.update
        (Function.update b (CMat_pat cmat i k) (CMat_at b cmat j k))
        (CMat_pat cmat j k) (CMat_at b cmat i k))
    buf ⟨fun _ => rfl, fun h => absurd h (Nat.not_lt_zero i)⟩ ?_
  · exact key.2 hi
  · intro k _ b ⟨h1, h2⟩
    beta_reduce
    simp only [CMat_at]
    rcases Nat.lt_trichotomy k i with hlt | heq | hgt
    · refine ⟨fun _ => ?_, fun h => absurd h (by omega)⟩
      rw [Function.update_noteq (by simp only [CMat_pat]; omega),
        Function.update_noteq (by simp only [CMat_pat]; omega)]
      exact h1 (Nat.le_of_lt hlt)
    · subst heq
      refine ⟨fun h => absurd h (by omega), fun _ => ?_⟩
      by_cases heq : CMat_pat cmat k k = CMat_pat cmat j k
      · rw [← heq, Function.update_same]
        have := h1 (Nat.le_refl k)
        rw [← heq] at this
        exact this
      · rw [Function.update_noteq heq, Function.update_same]
        exact h1 (Nat.le_refl k)
    · refine ⟨fun h => absurd h (by omega), fun _ => ?_⟩
      rw [Function.update_noteq (by simp only [CMat_pat]; omega),
        Function.update_noteq (by simp only [CMat_pat]; omega)]
      exact h2 hgt

/-- The swap loop of `CMat_inverse` brings the element `(j, i)` of `cmat` to `(i, i)`. -/
theorem CMat_inverse_swap_pivot (cmat id : CMat) (i j : Nat) (hij : i < j)
    (hi : i < cmat.ncol) (s : (Nat → α) × (Nat → α)) :
    CMat_at (CMat_inverse_swap cmat id i j s).1 cmat i i = CMat_at s.1 cmat j i := by
  have hsplit : CMat_inverse_swap cmat id i j s
      = (forLoop cmat.ncol (fun k b => Function.update
            (Function.update b (CMat_pat cmat i k) (CMat_at b cmat j k))
            (CMat_pat cmat j k) (CMat_at b cmat i k)) s.1,
         forLoop cmat.ncol (fun k b => Function.update
            (Function.update b (CMat_pat id i k) (CMat_at b id j k))
            (CMat_pat id j k) (CMat_at b id i k)) s.2) := by
    unfold CMat_inverse_swap
    exact forLoop_pair cmat.ncol
      (fun k b => Function.update
        (Function.update b (CMat_pat cmat i k) (CMat_at b cmat j k))
        (CMat_pat cmat j k) (CMat_at b cmat i k))
      (fun k b => Function.update
        (Function.update b (CMat_pat id i k) (CMat_at b id j k))
        (CMat_pat id j k) (CMat_at b id i k)) s
  rw [hsplit]
  exact swap_loop_pivot cmat i j hij hi s.1

end Divisor

section DivisorField

variable {α : Type} [Field α] [DecidableEq α]

/-- The three ways through one iteration of the pivot loop, for a pivot index inside the
columns: the diagonal element is not zero and it is the divisor; or it is zero, a row
`j > i` with `m[j][i] ≠ 0` is swapped into row `i` and `m[j][i]` is the divisor; or it is
zero, column `i` is zero below it, and the iteration returns `false` without dividing. -/
theorem CMat_inverse_iter_cases (cmat id : CMat) (i : Nat) (hi : i < cmat.ncol)
    (s : (Nat → α) × (Nat → α)) :
    (CMat_at s.1 cmat i i ≠ 0 ∧
      CMat_inverse_iter cmat id i s = Except.ok (true, CMat_inverse_elim cmat id i
        (CMat_inverse_div cmat i (CMat_at s.1 cmat i i) s.1,
          CMat_inverse_div id i (CMat_at s.1 cmat i i) s.2))) ∨
    (CMat_at s.1 cmat i i = 0 ∧ ∃ j, i < j ∧ j < cmat.nrow ∧ CMat_at s.1 cmat j i ≠ 0 ∧
      CMat_at (CMat_inverse_swap cmat id i j s).1 cmat i i = CMat_at s.1 cmat j i ∧
      CMat_inverse_iter cmat id i s = Except.ok (true, CMat_inverse_elim cmat id i
        (CMat_inverse_div cmat i (CMat_at s.1 cmat j i) (CMat_inverse_swap cmat id i j s).1,
          CMat_inverse_div id i (CMat_at s.1 cmat j i) (CMat_inverse_swap cmat id i j s).2))) ∨
    (CMat_at s.1 cmat i i = 0 ∧
      (∀ j, i < j → j < cmat.nrow → CMat_at s.1 cmat j i = 0) ∧
      CMat_inverse_iter cmat id i s = Except.ok (false, s)) := by
  unfold CMat_inverse_iter
  by_cases hzero : CMat_at s.1 cmat i i = 0
  · right
    simp only [hzero, if_true]
    cases hfind : CMat_inverse_search s.1 cmat i with
    | none =>
      right
      refine ⟨trivial, ?_, rfl⟩
      intro j hij hj
      unfold CMat_inverse_search at hfind
      rw [List.find?_eq_none] at hfind
      have hmem : j ∈ List.range' (i + 1) (cmat.nrow - (i + 1)) := by
        rw [List.mem_range'_1]
        omega
      have := hfind j hmem
      simpa using this
    | some j =>
      left
      have hmem := List.mem_of_find?_eq_some hfind
      rw [List.mem_range'_1] at hmem
      have hpj : CMat_at s.1 cmat j i ≠ 0 := by
        have := List.find?_some hfind
        simpa using this
      have hsw := CMat_inverse_swap_pivot cmat id i j (by omega) hi s
      refine ⟨trivial, j, by omega, by omega, hpj, hsw, ?_⟩
      simp only [hsw, hpj, if_false]
  · left
    refine ⟨hzero, ?_⟩
    simp only [hzero, if_false]

/-- On a square matrix the pivot loop of `CMat_inverse` never aborts, whatever the stride. -/
theorem CMat_inverse_loop_total (cmat id : CMat) (hsq : cmat.nrow = cmat.ncol)
    (s : (Nat → α) × (Nat → α)) (k : Nat) (hk : k ≤ cmat.nrow) :
    ∃ flag s', forLoopRet k (CMat_inverse_iter cmat id) s = Except.ok (flag, s') := by
  induction k with
  | zero => exact ⟨true, s, rfl⟩
  | succ k ih =>
    obtain ⟨flag, s1, hloop⟩ := ih (Nat.le_of_succ_le hk)
    cases flag with
    | false => exact ⟨false, s1, by simp only [forLoopRet, hloop]⟩
    | true =>
      rcases CMat_inverse_iter_cases cmat id k (by omega) s1 with
        ⟨_, h⟩ | ⟨_, _, _, _, _, _, h⟩ | ⟨_, _, h⟩
      · exact ⟨true, _, by simp only [forLoopRet, hloop]; exact h⟩
      · exact ⟨true, _, by simp only [forLoopRet, hloop]; exact h⟩
      · exact ⟨false, _, by simp only [forLoopRet, hloop]; exact h⟩

/-- C21: division in `CMat_inverse` is guarded.  On every input `CMat_inverse` ends
without a division by zero, and on every square input (whatever its stride) it returns
`true` or `false`.  In each pivot iteration the divisor is not zero: it is `m[i][i]` when
this is not zero, and otherwise the element `m[j][i] ≠ 0` of a row `j > i` that the swap
has brought to `m[i][i]`; when there is no such row the iteration returns `false` before
any division. -/
theorem CMat_inverse_div_guarded (buf : Nat → α) (cmat : CMat) :
    CMat_inverse buf cmat ≠ Except.error Fault.divByZero ∧
    (cmat.nrow = cmat.ncol → ∃ flag res, CMat_inverse buf cmat = Except.ok (flag, res)) ∧
    ∀ (id : CMat) (i : Nat) (s : (Nat → α) × (Nat → α)), i < cmat.ncol →
      (CMat_at s.1 cmat i i ≠ 0 ∧
        CMat_inverse_iter cmat id i s = Except.ok (true, CMat_inverse_elim cmat id i
          (CMat_inverse_div cmat i (CMat_at s.1 cmat i i) s.1,
            CMat_inverse_div id i (CMat_at s.1 cmat i i) s.2))) ∨
      (CMat_at s.1 cmat i i = 0 ∧ ∃ j, i < j ∧ j < cmat.nrow ∧ CMat_at s.1 cmat j i ≠ 0 ∧
        CMat_at (CMat_inverse_swap cmat id i j s).1 cmat i i = CMat_at s.1 cmat j i ∧
        CMat_inverse_iter cmat id i s = Except.ok (true, CMat_inverse_elim cmat id i
          (CMat_inverse_div cmat i (CMat_at s.1 cmat j i) (CMat_inverse_swap cmat id i j s).1,
            CMat_inverse_div id i (CMat_at s.1 cmat j i)
              (CMat_inverse_swap cmat id i j s).2))) ∨
      (CMat_at s.1 cmat i i = 0 ∧
        (∀ j, i < j → j < cmat.nrow → CMat_at s.1 cmat j i = 0) ∧
        CMat_inverse_iter cmat id i s = Except.ok (false, s)) := by
  have hsquare : cmat.nrow = cmat.ncol →
      ∃ flag res, CMat_inverse buf cmat = Except.ok (flag, res) := by
    intro hsq
    obtain ⟨ibuf, hib⟩ : ∃ ibuf,
        CMat_identity (CMat_init cmat.nrow cmat.ncol : (Nat → α) × CMat).1
          (CMat_init cmat.nrow cmat.ncol : (Nat → α) × CMat).2 = Except.ok ibuf := by
      rw [CMat_identity, if_pos (show (CMat_init cmat.nrow cmat.ncol :
        (Nat → α) × CMat).2.nrow = (CMat_init cmat.nrow cmat.ncol :
        (Nat → α) × CMat).2.ncol from hsq), CMat_iterate]
      exact forLoopE_total _ _ _ (fun row t => forLoopE_total _ _ t (fun col u => ⟨_, rfl⟩))
    obtain ⟨flag, s', hloop⟩ := CMat_inverse_loop_total cmat
      (CMat_init cmat.nrow cmat.ncol : (Nat → α) × CMat).2 hsq (buf, ibuf) cmat.nrow
      (Nat.le_refl _)
    unfold CMat_inverse
    simp only [hib, hloop]
    cases flag with
    | false => exact ⟨false, s'.1, rfl⟩
    | true =>
      obtain ⟨res, hres⟩ : ∃ res, CMat_iterate2 cmat
          (CMat_init cmat.nrow cmat.ncol : (Nat → α) × CMat).2
          (fun _ _ val1 val2 b => Except.ok (Function.update b val1 (s'.2 val2))) s'.1
            = Except.ok res := by
        rw [CMat_iterate2, if_pos (show cmat.nrow = (CMat_init cmat.nrow cmat.ncol :
          (Nat → α) × CMat).2.nrow from rfl), if_pos (show cmat.ncol =
          (CMat_init cmat.nrow cmat.ncol : (Nat → α) × CMat).2.ncol from rfl)]
        exact forLoopE_total _ _ _ (fun row t => forLoopE_total _ _ t (fun col u => ⟨_, rfl⟩))
      exact ⟨true, res, by simp only [hres]⟩
  refine ⟨?_, hsquare, fun id i s hi => CMat_inverse_iter_cases cmat id i hi s⟩
  by_cases hsq : cmat.nrow = cmat.ncol
  · obtain ⟨flag, res, h⟩ := hsquare hsq
    rw [h]
    exact fun h' => Except.noConfusion h'
  · have hid : CMat_identity (CMat_init cmat.nrow cmat.ncol : (Nat → α) × CMat).1
        (CMat_init cmat.nrow cmat.ncol : (Nat → α) × CMat).2
          = Except.error Fault.assertion := by
      rw [CMat_identity]
      exact if_neg hsq
    unfold CMat_inverse
    simp only [hid]
    intro h
    cases h

end DivisorField

/-! ## `CMat_inverse` on two representations of the same matrix -/

section Strided

variable {α : Type}

/-- The swap loop on one memory, element by element: row `i` holds the old row `j`, row
`j` the old row `i`, and every other row is as it was. -/
theorem swap_loop_entries (cmat : CMat) (hs : cmat.ncol ≤ cmat.stride) (i j : Nat)
    (hne : i ≠ j) (buf : Nat → α) (n : Nat) (hn : n ≤ cmat.ncol) (r c : Nat) (hc : c < n) :
    forLoop n (fun k b => Function.update
        (Function.update b (CMat_pat cmat i k) (CMat_at b cmat j k))
        (CMat_pat cmat j k) (CMat_at b cmat i k)) buf (CMat_pat cmat r c)
      = buf (CMat_pat cmat (if r = i then j else if r = j then i else r) c) := by
  obtain ⟨hval, hframe⟩ := swap_loop_spec cmat hs i j hne buf n hn
  by_cases hri : r = i
  · rw [if_pos hri, hri]
    exact (hval c hc).1
  · rw [if_neg hri]
    by_cases hrj : r = j
    · rw [if_pos hrj, hrj]
      exact (hval c hc).2
    · rw [if_neg hrj]
      exact hframe _ (fun c' hc' =>
        ⟨CMat_pat_ne cmat hs (Nat.lt_of_lt_of_le hc hn) (Nat.lt_of_lt_of_le hc' hn)
            (Or.inl hri),
          CMat_pat_ne cmat hs (Nat.lt_of_lt_of_le hc hn) (Nat.lt_of_lt_of_le hc' hn)
            (Or.inl hrj)⟩)

/-- The swap loop of `CMat_inverse` keeps two representations of the same matrices equal. -/
theorem CMat_inverse_swap_congr (n : Nat) (cmat cmat' id id' : CMat)
    (hc : cmat.ncol = n) (hs : n ≤ cmat.stride) (hc' : cmat'.ncol = n) (hs' : n ≤ cmat'.stride)
    (hic : id.ncol = n) (his : n ≤ id.stride) (hic' : id'.ncol = n) (his' : n ≤ id'.stride)
    (i j : Nat) (hi : i < n) (hj : j < n) (hne : i ≠ j)
    (s s' : (Nat → α) × (Nat → α))
    (h1 : CMat.sameContents n s.1 cmat s'.1 cmat') (h2 : CMat.sameContents n s.2 id s'.2 id') :
    CMat.sameContents n (CMat_inverse_swap cmat id i j s).1 cmat
      (CMat_inverse_swap cmat' id' i j s').1 cmat' ∧
    CMat.sameContents n (CMat_inverse_swap cmat id i j s).2 id
      (CMat_inverse_swap cmat' id' i j s').2 id' := by
  have hsplit : ∀ (m d : CMat) (t : (Nat → α) × (Nat → α)), CMat_inverse_swap m d i j t
      = (forLoop m.ncol (fun k b => Function.update
            (Function.update b (CMat_pat m i k) (CMat_at b m j k))
            (CMat_pat m j k) (CMat_at b m i k)) t.1,
         forLoop m.ncol (fun k b => Function.update
            (Function.update b (CMat_pat d i k) (CMat_at b d j k))
            (CMat_pat d j k) (CMat_at b d i k)) t.2) := by
    intro m d t
    unfold CMat_inverse_swap
    exact forLoop_pair m.ncol
      (fun k b => Function.update
        (Function.update b (CMat_pat m i k) (CMat_at b m j k))
        (CMat_pat m j k) (CMat_at b m i k))
      (fun k b => Function.update
        (Function.update b (CMat_pat d i k) (CMat_at b d j k))
        (CMat_pat d j k) (CMat_at b d i k)) t
  have hσ : ∀ r, r < n → (if r = i then j else if r = j then i else r) < n := by
    intro r hr
    split_ifs <;> assumption
  rw [hsplit cmat id s, hsplit cmat' id' s']
  refine ⟨fun r c hr hcn => ?_, fun r c hr hcn => ?_⟩
  · show forLoop cmat.ncol _ s.1 (CMat_pat cmat r c) = forLoop cmat'.ncol _ s'.1 (CMat_pat cmat' r c)
    rw [swap_loop_entries cmat (hc ▸ hs) i j hne s.1 cmat.ncol (Nat.le_refl _) r c (hc ▸ hcn),
      swap_loop_entries cmat' (hc' ▸ hs') i j hne s'.1 cmat'.ncol (Nat.le_refl _) r c
        (hc' ▸ hcn)]
    exact h1 _ c (hσ r hr) hcn
  · show forLoop cmat.ncol _ s.2 (CMat_pat id r c) = forLoop cmat'.ncol _ s'.2 (CMat_pat id' r c)
    rw [swap_loop_entries id (hic ▸ his) i j hne s.2 cmat.ncol (by omega) r c (hc ▸ hcn),
      swap_loop_entries id' (hic' ▸ his') i j hne s'.2 cmat'.ncol (by omega) r c
        (hc' ▸ hcn)]
    exact h2 _ c (hσ r hr) hcn

/-- Two predicates that agree on the elements of a list find the same element. -/
theorem find?_congr_mem {β : Type} (l : List β) (p q : β → Bool)
    (h : ∀ x, x ∈ l → p x = q x) : l.find? p = l.find? q := by
  induction l with
  | nil => rfl
  | cons a l ih =>
    rw [List.find?_cons, List.find?_cons, h a (List.mem_cons_self a l),
      ih (fun x hx => h x (List.mem_cons_of_mem a hx))]

end Strided

section StridedField

variable {α : Type} [Field α]

/-- The division loop, element by element. -/
theorem CMat_inverse_div_entries (cmat : CMat) (hs : cmat.ncol ≤ cmat.stride) (i : Nat)
    (div : α) (buf : Nat → α) (r c : Nat) (hc : c < cmat.ncol) :
    CMat_inverse_div cmat i div buf (CMat_pat cmat r c)
      = if r = i then buf (CMat_pat cmat r c) / div else buf (CMat_pat cmat r c) := by
  obtain ⟨hval, hframe⟩ := CMat_inverse_div_spec cmat i div buf
  by_cases hri : r = i
  · rw [if_pos hri, hri]
    exact hval c hc
  · rw [if_neg hri]
    exact hframe _ (fun c' hc' => CMat_pat_ne cmat hs hc hc' (Or.inl hri))

/-- The division loop keeps two representations of the same matrix equal. -/
theorem CMat_inverse_div_congr (n : Nat) (cmat cmat' : CMat)
    (hc : cmat.ncol = n) (hs : n ≤ cmat.stride) (hc' : cmat'.ncol = n) (hs' : n ≤ cmat'.stride)
    (i : Nat) (div : α) (b b' : Nat → α) (h : CMat.sameContents n b cmat b' cmat') :
    CMat.sameContents n (CMat_inverse_div cmat i div b) cmat
      (CMat_inverse_div cmat' i div b') cmat' := by
  intro r c hr hcn
  show CMat_inverse_div cmat i div b (CMat_pat cmat r c)
    = CMat_inverse_div cmat' i div b' (CMat_pat cmat' r c)
  rw [CMat_inverse_div_entries cmat (hc ▸ hs) i div b r c (hc ▸ hcn),
    CMat_inverse_div_entries cmat' (hc' ▸ hs') i div b' r c (hc' ▸ hcn)]
  have := h r c hr hcn
  simp only [CMat_at] at this
  rw [this]

/-- The elimination loop keeps two representations of the same matrices equal. -/
theorem CMat_inverse_elim_congr (n : Nat) (cmat cmat' id id' : CMat)
    (hr : cmat.nrow = n) (hc : cmat.ncol = n) (hs : n ≤ cmat.stride)
    (hr' : cmat'.nrow = n) (hc' : cmat'.ncol = n) (hs' : n ≤ cmat'.stride)
    (hic : id.ncol = n) (his : n ≤ id.stride) (hic' : id'.ncol = n) (his' : n ≤ id'.stride)
    (i : Nat) (hi : i < n) (s s' : (Nat → α) × (Nat → α))
    (h1 : CMat.sameContents n s.1 cmat s'.1 cmat') (h2 : CMat.sameContents n s.2 id s'.2 id') :
    CMat.sameContents n (CMat_inverse_elim cmat id i s).1 cmat
      (CMat_inverse_elim cmat' id' i s').1 cmat' ∧
    CMat.sameContents n (CMat_inverse_elim cmat id i s).2 id
      (CMat_inverse_elim cmat' id' i s').2 id' := by
  obtain ⟨e1, _, e2, _⟩ := CMat_inverse_elim_spec cmat id (hc ▸ hs) (hic ▸ his) i (hc ▸ hi) s
  obtain ⟨e1', _, e2', _⟩ :=
    CMat_inverse_elim_spec cmat' id' (hc' ▸ hs') (hic' ▸ his') i (hc' ▸ hi) s'
  have g1 : ∀ r c, r < n → c < n → s.1 (CMat_pat cmat r c) = s'.1 (CMat_pat cmat' r c) := h1
  have g2 : ∀ r c, r < n → c < n → s.2 (CMat_pat id r c) = s'.2 (CMat_pat id' r c) := h2
  refine ⟨fun r c hrn hcn => ?_, fun r c hrn hcn => ?_⟩
  · show (CMat_inverse_elim cmat id i s).1 (CMat_pat cmat r c)
      = (CMat_inverse_elim cmat' id' i s').1 (CMat_pat cmat' r c)
    rw [e1 r c (hr ▸ hrn) (hc ▸ hcn), e1' r c (hr' ▸ hrn) (hc' ▸ hcn), g1 r c hrn hcn,
      g1 i c hi hcn, g1 r i hrn hi]
  · show (CMat_inverse_elim cmat id i s).2 (CMat_pat id r c)
      = (CMat_inverse_elim cmat' id' i s').2 (CMat_pat id' r c)
    rw [e2 r c (hr ▸ hrn) (hic ▸ hcn), e2' r c (hr' ▸ hrn) (hic' ▸ hcn), g2 r c hrn hcn,
      g2 i c hi hcn, g1 r i hrn hi]

variable [DecidableEq α]

/-- The search for a pivot row gives the same row on two representations of the same
matrix. -/
theorem CMat_inverse_search_congr (n : Nat) (cmat cmat' : CMat) (hr : cmat.nrow = n)
    (hr' : cmat'.nrow = n) (i : Nat) (hi : i < n) (b b' : Nat → α)
    (h : CMat.sameContents n b cmat b' cmat') :
    CMat_inverse_search b cmat i = CMat_inverse_search b' cmat' i := by
  unfold CMat_inverse_search
  rw [hr, hr']
  apply find?_congr_mem
  intro j hj
  rw [List.mem_range'_1] at hj
  rw [h j i (by omega) hi]

/-- One iteration of the pivot loop on two representations of the same matrices: both
return the same flag and leave the same matrices, or both stop with the same fault. -/
theorem CMat_inverse_iter_congr (n : Nat) (cmat cmat' id id' : CMat)
    (hr : cmat.nrow = n) (hc : cmat.ncol = n) (hs : n ≤ cmat.stride)
    (hr' : cmat'.nrow = n) (hc' : cmat'.ncol = n) (hs' : n ≤ cmat'.stride)
    (hic : id.ncol = n) (his : n ≤ id.stride) (hic' : id'.ncol = n) (his' : n ≤ id'.stride)
    (i : Nat) (hi : i < n) (s s' : (Nat → α) × (Nat → α))
    (h1 : CMat.sameContents n s.1 cmat s'.1 cmat') (h2 : CMat.sameContents n s.2 id s'.2 id') :
    (∃ flag t t', CMat_inverse_iter cmat id i s = Except.ok (flag, t) ∧
      CMat_inverse_iter cmat' id' i s' = Except.ok (flag, t') ∧
      CMat.sameContents n t.1 cmat t'.1 cmat' ∧ CMat.sameContents n t.2 id t'.2 id') ∨
    (∃ e, CMat_inverse_iter cmat id i s = Except.error e ∧
      CMat_inverse_iter cmat' id' i s' = Except.error e) := by
  have hrest : ∀ (t t' : (Nat → α) × (Nat → α)),
      CMat.sameContents n t.1 cmat t'.1 cmat' → CMat.sameContents n t.2 id t'.2 id' →
      (∃ flag u u',
        (if CMat_at t.1 cmat i i = 0 then Except.error Fault.divByZero
          else Except.ok (true, CMat_inverse_elim cmat id i
            (CMat_inverse_div cmat i (CMat_at t.1 cmat i i) t.1,
              CMat_inverse_div id i (CMat_at t.1 cmat i i) t.2))) = Except.ok (flag, u) ∧
        (if CMat_at t'.1 cmat' i i = 0 then Except.error Fault.divByZero
          else Except.ok (true, CMat_inverse_elim cmat' id' i
            (CMat_inverse_div cmat' i (CMat_at t'.1 cmat' i i) t'.1,
              CMat_inverse_div id' i (CMat_at t'.1 cmat' i i) t'.2))) = Except.ok (flag, u') ∧
        CMat.sameContents n u.1 cmat u'.1 cmat' ∧ CMat.sameContents n u.2 id u'.2 id') ∨
      (∃ e,
        (if CMat_at t.1 cmat i i = 0 then Except.error Fault.divByZero
          else Except.ok (true, CMat_inverse_elim cmat id i
            (CMat_inverse_div cmat i (CMat_at t.1 cmat i i) t.1,
              CMat_inverse_div id i (CMat_at t.1 cmat i i) t.2))) = Except.error e ∧
        (if CMat_at t'.1 cmat' i i = 0 then Except.error Fault.divByZero
          else Except.ok (true, CMat_inverse_elim cmat' id' i
            (CMat_inverse_div cmat' i (CMat_at t'.1 cmat' i i) t'.1,
              CMat_inverse_div id' i (CMat_at t'.1 cmat' i i) t'.2))) = Except.error e) := by
    intro t t' g1 g2
    have hd : CMat_at t.1 cmat i i = CMat_at t'.1 cmat' i i := g1 i i hi hi
    rw [← hd]
    by_cases hz : CMat_at t.1 cmat i i = 0
    · right
      exact ⟨Fault.divByZero, by rw [if_pos hz], by rw [if_pos hz]⟩
    · left
      rw [if_neg hz, if_neg hz]
      have d1 := CMat_inverse_div_congr n cmat cmat' hc hs hc' hs' i (CMat_at t.1 cmat i i)
        t.1 t'.1 g1
      have d2 := CMat_inverse_div_congr n id id' hic his hic' his' i (CMat_at t.1 cmat i i)
        t.2 t'.2 g2
      have e := CMat_inverse_elim_congr n cmat cmat' id id' hr hc hs hr' hc' hs' hic his
        hic' his' i hi
        (CMat_inverse_div cmat i (CMat_at t.1 cmat i i) t.1,
          CMat_inverse_div id i (CMat_at t.1 cmat i i) t.2)
        (CMat_inverse_div cmat' i (CMat_at t.1 cmat i i) t'.1,
          CMat_inverse_div id' i (CMat_at t.1 cmat i i) t'.2) d1 d2
      exact ⟨true, _, _, rfl, rfl, e.1, e.2⟩
  have hd : CMat_at s.1 cmat i i = CMat_at s'.1 cmat' i i := h1 i i hi hi
  have hsearch := CMat_inverse_search_congr n cmat cmat' hr hr' i hi s.1 s'.1 h1
  unfold CMat_inverse_iter
  rw [← hd, ← hsearch]
  by_cases hz : CMat_at s.1 cmat i i = 0
  · simp only [hz, if_true]
    cases hfind : CMat_inverse_search s.1 cmat i with
    | none => exact Or.inl ⟨false, s, s', rfl, rfl, h1, h2⟩
    | some j =>
      have hmem := List.mem_of_find?_eq_some hfind
      rw [List.mem_range'_1] at hmem
      have sw := CMat_inverse_swap_congr n cmat cmat' id id' hc hs hc' hs' hic his hic' his'
        i j hi (by omega) (by omega) s s' h1 h2
      exact hrest _ _ sw.1 sw.2
  · have hz' : ¬ CMat_at s'.1 cmat' i i = 0 := hd ▸ hz
    have h := hrest s s' h1 h2
    simp only [hz, hz', if_false] at h ⊢
    exact h

/-- The pivot loop on two representations of the same matrices: both return the same flag
and leave the same matrices, or both stop with the same fault. -/
theorem CMat_inverse_loop_congr (n : Nat) (cmat cmat' id id' : CMat)
    (hr : cmat.nrow = n) (hc : cmat.ncol = n) (hs : n ≤ cmat.stride)
    (hr' : cmat'.nrow = n) (hc' : cmat'.ncol = n) (hs' : n ≤ cmat'.stride)
    (hic : id.ncol = n) (his : n ≤ id.stride) (hic' : id'.ncol = n) (his' : n ≤ id'.stride)
    (s s' : (Nat → α) × (Nat → α))
    (h1 : CMat.sameContents n s.1 cmat s'.1 cmat') (h2 : CMat.sameContents n s.2 id s'.2 id')
    (k : Nat) (hk : k ≤ n) :
    (∃ flag t t', forLoopRet k (CMat_inverse_iter cmat id) s = Except.ok (flag, t) ∧
      forLoopRet k (CMat_inverse_iter cmat' id') s' = Except.ok (flag, t') ∧
      CMat.sameContents n t.1 cmat t'.1 cmat' ∧ CMat.sameContents n t.2 id t'.2 id') ∨
    (∃ e, forLoopRet k (CMat_inverse_iter cmat id) s = Except.error e ∧
      forLoopRet k (CMat_inverse_iter cmat' id') s' = Except.error e) := by
  induction k with
  | zero => exact Or.inl ⟨true, s, s', rfl, rfl, h1, h2⟩
  | succ k ih =>
    rcases ih (Nat.le_of_succ_le hk) with ⟨flag, t, t', e1, e2, g1, g2⟩ | ⟨e, e1, e2⟩
    · cases flag with
      | false =>
        exact Or.inl ⟨false, t, t', by simp only [forLoopRet, e1], by simp only [forLoopRet, e2],
          g1, g2⟩
      | true =>
        rcases CMat_inverse_iter_congr n cmat cmat' id id' hr hc hs hr' hc' hs' hic his hic'
          his' k (by omega) t t' g1 g2 with ⟨f, u, u', a1, a2, b1, b2⟩ | ⟨e, a1, a2⟩
        · exact Or.inl ⟨f, u, u', by simp only [forLoopRet, e1]; exact a1,
            by simp only [forLoopRet, e2]; exact a2, b1, b2⟩
        · exact Or.inr ⟨e, by simp only [forLoopRet, e1]; exact a1,
            by simp only [forLoopRet, e2]; exact a2⟩
    · exact Or.inr ⟨e, by simp only [forLoopRet, e1], by simp only [forLoopRet, e2]⟩

/-- C24: `CMat_inverse` respects strided views.  For a square `n × n` view `v` with stride
at least `n` and any other `n × n` descriptor `v'` with stride at least `n` that holds
the same logical contents (in particular a contiguous copy of `v`), `CMat_inverse`
returns on both, with the same flag and the same logical `n × n` contents, and every
element of the memory of `v` that is not a cell `(r, c)` of `v` with `r, c < n` is left
unchanged. -/
theorem CMat_inverse_strided (n : Nat) (buf buf' : Nat → α) (v v' : CMat)
    (hr : v.nrow = n) (hc : v.ncol = n) (hs : n ≤ v.stride)
    (hr' : v'.nrow = n) (hc' : v'.ncol = n) (hs' : n ≤ v'.stride)
    (hcopy : ∀ r c, r < n → c < n → CMat_at buf' v' r c = CMat_at buf v r c) :
    ∃ flag res res', CMat_inverse buf v = Except.ok (flag, res) ∧
      CMat_inverse buf' v' = Except.ok (flag, res') ∧
      (∀ r c, r < n → c < n → CMat_at res v r c = CMat_at res' v' r c) ∧
      (∀ a, (∀ r c, r < n → c < n → a ≠ v.data + r * v.stride + c) → res a = buf a) := by
  obtain ⟨flag, res, hres, _, _, hframe⟩ := CMat_inverse_spec n buf v hr hc hs
  obtain ⟨flag', res', hres', _, _, _⟩ := CMat_inverse_spec n buf' v' hr' hc' hs'
  have key : flag' = flag ∧ CMat.sameContents n res v res' v' := by
    have hcmp := hres
    have hcmp' := hres'
    unfold CMat_inverse at hcmp hcmp'
    rw [hr, hc] at hcmp
    rw [hr', hc'] at hcmp'
    obtain ⟨ibuf, hib, _, _⟩ := CMat_identity_spec
      (CMat_init n n : (Nat → α) × CMat).1 (CMat_init n n : (Nat → α) × CMat).2 rfl
      (Nat.le_refl n)
    simp only [hib] at hcmp hcmp'
    have hloop := CMat_inverse_loop_congr n v v' (CMat_init n n : (Nat → α) × CMat).2
      (CMat_init n n : (Nat → α) × CMat).2 hr hc hs hr' hc' hs' rfl (Nat.le_refl n) rfl
      (Nat.le_refl n) (buf, ibuf) (buf', ibuf) (fun r c h1 h2 => (hcopy r c h1 h2).symm)
      (fun _ _ _ _ => rfl) n (Nat.le_refl n)
    rcases hloop with ⟨f, t, t', e1, e2, g1, g2⟩ | ⟨e, e1, e2⟩
    · rw [e1] at hcmp
      rw [e2] at hcmp'
      cases f with
      | false =>
        simp only [Except.ok.injEq, Prod.mk.injEq] at hcmp hcmp'
        obtain ⟨hf, ht⟩ := hcmp
        obtain ⟨hf', ht'⟩ := hcmp'
        refine ⟨by rw [← hf, ← hf'], ?_⟩
        rw [← ht, ← ht']
        exact g1
      | true =>
        obtain ⟨c1, hc1, hv1, _⟩ := CMat_iterate2_copy_spec t.1 t.2 v
          (CMat_init n n : (Nat → α) × CMat).2 hr hc (hc ▸ hs)
        obtain ⟨c2, hc2, hv2, _⟩ := CMat_iterate2_copy_spec t'.1 t'.2 v'
          (CMat_init n n : (Nat → α) × CMat).2 hr' hc' (hc' ▸ hs')
        simp only [hc1, hc2, Except.ok.injEq, Prod.mk.injEq] at hcmp hcmp'
        obtain ⟨hf, ht⟩ := hcmp
        obtain ⟨hf', ht'⟩ := hcmp'
        refine ⟨by rw [← hf, ← hf'], ?_⟩
        rw [← ht, ← ht']
        intro r c hrn hcn
        show c1 (CMat_pat v r c) = c2 (CMat_pat v' r c)
        rw [hv1 r c (hr ▸ hrn) (hc ▸ hcn), hv2 r c (hr' ▸ hrn) (hc' ▸ hcn)]
        exact g2 r c hrn hcn
    · rw [e1] at hcmp
      cases hcmp
  refine ⟨flag, res, res', hres, ?_, key.2, fun a ha => hframe a ha⟩
  rw [hres', key.1]

end StridedField

/-! ## Instances on the matrices of the examples -/

/-- Witness of C21 on the 4 × 4 matrix of `example_inverse`, whose element `(1, 1)` is
zero when the second pivot is reached: `CMat_inverse` returns and no division by zero is
done. -/
theorem CMat_inverse_div_guarded_witness :
    CMat_inverse example_arr_rat example_cmat ≠ Except.error Fault.divByZero ∧
    ∃ flag res, CMat_inverse example_arr_rat example_cmat = Except.ok (flag, res) :=
  ⟨(CMat_inverse_div_guarded example_arr_rat example_cmat).1,
    (CMat_inverse_div_guarded example_arr_rat example_cmat).2.1 rfl⟩

/-- Witness of C22 on the 4 × 4 matrix of `example_det`, with the adjugate written to the
sixteen cells that follow it in memory and the products to the sixteen cells after
those. -/
theorem CMat_adjugate_law_witness :
    ∃ b1 d, CMat_adj example_arr (CMat_from_arr 16 4 4) example_cmat = Except.ok b1 ∧
      CMat_det example_arr example_cmat = Except.ok d ∧
      (∃ res, CMat_dot b1 (CMat_from_arr 32 4 4) example_cmat (CMat_from_arr 16 4 4)
          = Except.ok res ∧
        ∀ r c, r < 4 → c < 4 →
          CMat_at res (CMat_from_arr 32 4 4) r c = if r = c then d else 0) ∧
      (∃ res, CMat_dot b1 (CMat_from_arr 32 4 4) (CMat_from_arr 16 4 4) example_cmat
          = Except.ok res ∧
        ∀ r c, r < 4 → c < 4 →
          CMat_at res (CMat_from_arr 32 4 4) r c = if r = c then d else 0) :=
  CMat_adjugate_law 4 example_arr example_cmat (CMat_from_arr 16 4 4) (CMat_from_arr 32 4 4)
    rfl rfl rfl rfl rfl rfl (by decide) (by decide)
    (fun r c r' c' hr hc hr' hc' => by
      simp only [CMat_pat, example_cmat, CMat_from_arr]
      omega)
    (fun r c r' c' hr hc hr' hc' => by
      simp only [CMat_pat, example_cmat, CMat_from_arr]
      omega)

/-- Witness of C23: the view of rows `1` and `2` and columns `0` to `2` of the 4 × 4
matrix of `example_det` has stride `4`, and its element `(1, 2)` is the element `(2, 2)`
of the matrix, which is `4`. -/
theorem CMat_from_submat_col_zero_witness :
    (CMat_from_submat example_cmat 1 0 2 3).stride = example_cmat.stride ∧
    CMat_at example_arr (CMat_from_submat example_cmat 1 0 2 3) 1 2
      = CMat_at example_arr example_cmat (1 + 1) 2 ∧
    CMat_at example_arr example_cmat (1 + 1) 2 = 4 :=
  ⟨(CMat_from_submat_col_zero example_cmat 1 2 3).2.2.1,
    ((CMat_from_submat_col_zero example_cmat 1 2 3).2.2.2 1 2 (by decide) (by decide)).2
      ℤ example_arr,
    by decide⟩

/-- Witness of C24: the 3 × 3 view with stride `5` at offset `2` of `example_strided` and
its contiguous copy `example_contiguous`. -/
theorem CMat_inverse_strided_witness :
    (∀ r c, r < 3 → c < 3 →
      CMat_at example_contiguous (CMat_from_arr 0 3 3) r c
        = CMat_at example_strided example_view r c) ∧
    (∃ flag res res',
      CMat_inverse example_strided example_view
        = Except.ok (flag, res) ∧
      CMat_inverse example_contiguous (CMat_from_arr 0 3 3) = Except.ok (flag, res') ∧
      (∀ r c, r < 3 → c < 3 →
        CMat_at res example_view r c
          = CMat_at res' (CMat_from_arr 0 3 3) r c) ∧
      (∀ a, (∀ r c, r < 3 → c < 3 →
          a ≠ example_view.data
            + r * example_view.stride + c) →
        res a = example_strided a)) ∧
    inverse_result true
        (CMat_inverse example_strided example_view)
      = [7, 7, 12/25, 1/25, -3/25, 7, 7, -4/25, 8/25, 1/25, 7, 7, 1/25, -2/25, 6/25, 7] ∧
    inverse_result true (CMat_inverse example_contiguous (CMat_from_arr 0 3 3))
      = [12/25, 1/25, -3/25, -4/25, 8/25, 1/25, 1/25, -2/25, 6/25, 0, 0, 0, 0, 0, 0, 0] := by
  have hcopy : ∀ r, r < 3 → ∀ c, c < 3 →
      CMat_at example_contiguous (CMat_from_arr 0 3 3) r c
        = CMat_at example_strided example_view r c := by
    decide!
  exact ⟨fun r c hr hc => hcopy r hr c hc,
    CMat_inverse_strided 3 example_strided example_contiguous
      example_view (CMat_from_arr 0 3 3)
      rfl rfl (by decide) rfl rfl (by decide) (fun r c hr hc => hcopy r hr c hc),
    by decide!, by decide!⟩

/-- Witness of C25 on the 4 × 4 matrix of `example_det`, for the minor without row `0` and
column `1`: nine assignments, at the indices `0` to `8`. -/
theorem CMat_cofactor_fill_in_bounds_witness :
    (CMat_cofactor_fill_log example_arr example_cmat 0 1 ((fun _ => 0), 0)).1
      = CMat_cofactor_fill example_arr example_cmat 0 1 ((fun _ => 0), 0) ∧
    (CMat_cofactor_fill_log example_arr example_cmat 0 1 ((fun _ => 0), 0)).2.map
        (fun e => e.1) = List.range (3 * 3) ∧
    (CMat_cofactor_fill_log example_arr example_cmat 0 1 ((fun _ => 0), 0)).2.length
      = 3 * 3 ∧
    (∀ e, e ∈ (CMat_cofactor_fill_log example_arr example_cmat 0 1 ((fun _ => 0), 0)).2 →
      e.1 < 3 * 3 ∧ e.2.1 < 3 + 1 ∧ e.2.2 < 3 + 1) ∧
    (CMat_cofactor_fill example_arr example_cmat 0 1 ((fun _ => 0), 0)).2 = 3 * 3 ∧
    (∀ a, 3 * 3 ≤ a →
      (CMat_cofactor_fill example_arr example_cmat 0 1 ((fun _ => 0), 0)).1 a
        = (fun _ => 0) a) ∧
    (size_pred example_cmat.nrow) * (size_pred example_cmat.ncol) = 3 * 3 :=
  CMat_cofactor_fill_in_bounds 3 example_arr example_cmat rfl rfl 0 1 (by decide) (by decide)
    (fun _ => 0)

/-- Witness of C26 on the 4 × 4 matrix of `example_det`: the determinant is returned with
the bound `5`, and not with the bound `4`. -/
theorem CMat_det_terminates_witness :
    (∃ d, CMat_det example_arr example_cmat = Except.ok d) ∧
    CMat_det_fuel 5 example_arr example_cmat = CMat_det example_arr example_cmat ∧
    CMat_det_fuel 4 example_arr example_cmat = Except.error Fault.outOfFuel ∧
    CMat_det example_arr example_cmat = Except.ok (-35) :=
  ⟨(CMat_det_terminates 4 example_arr example_cmat rfl rfl).1,
    (CMat_det_terminates 4 example_arr example_cmat rfl rfl).2.1 5 (by decide),
    (CMat_det_terminates 4 example_arr example_cmat rfl rfl).2.2.1 4 (by decide),
    by decide⟩

/-! ## `CMat_inverse` in `double` arithmetic -/

/-- C2 (counterexample): in `double` arithmetic `CMat_inverse` returns `true` on singular
matrices.  On `[[49, 1], [49, 1]]`, of determinant `0`, the first pivot leaves
`[[1, fl(1/49)], [0, 2^(-53)]]`, because `fl(1/49) * 49` rounds to `1 - 2^(-53)`; the
second pivot is then not zero, and the matrix returned is
`[[5882252574524729/32, -5882252574524729/32], [-(2^53 - 1), 2^53]]`; with exact
arithmetic the same input gives `false`.  On `[[2^(-600), 2^600], [0, 0]]`, whose second
row is zero, the first pivot leaves `[[1, inf], [0, NaN]]`, since `2^600 / 2^(-600)`
overflows and `inf * 0` is NaN; NaN is not equal to zero, and `true` is returned with
every element NaN. -/
theorem CMat_inverse_singular_counterexample :
    ((CMat.toMatrix 2 example_rounding_rat (CMat_from_arr 0 2 2)).det = 0 ∧
      (∃ res, CMat_inverse example_rounding (CMat_from_arr 0 2 2) = Except.ok (true, res)) ∧
      (¬ ∃ res, CMat_inverse example_rounding (CMat_from_arr 0 2 2)
        = Except.ok (false, res)) ∧
      (CMat_inverse_steps example_rounding (CMat_from_arr 0 2 2) 1).toOption.map
          (fun p => (List.range 4).map p.2.1)
        = some [.finite 1, .finite (5882252574524729 / 288230376151711744), .finite 0,
            .finite (1 / 9007199254740992)] ∧
      (CMat_inverse example_rounding (CMat_from_arr 0 2 2)).toOption.map
          (fun p => (p.1, (List.range 4).map p.2))
        = some (true, [.finite (5882252574524729 / 32), .finite (-5882252574524729 / 32),
            .finite (-9007199254740991), .finite 9007199254740992]) ∧
      (CMat_inverse example_rounding_rat (CMat_from_arr 0 2 2)).toOption.map Prod.fst
        = some false) ∧
    ((∀ c, c < 2 → CMat_at example_overflow (CMat_from_arr 0 2 2) 1 c = 0) ∧
      (∃ res, CMat_inverse example_overflow (CMat_from_arr 0 2 2) = Except.ok (true, res)) ∧
      (¬ ∃ res, CMat_inverse example_overflow (CMat_from_arr 0 2 2)
        = Except.ok (false, res)) ∧
      (CMat_inverse_steps example_overflow (CMat_from_arr 0 2 2) 1).toOption.map
          (fun p => (List.range 4).map p.2.1)
        = some [.finite 1, .inf false, .finite 0, .nan] ∧
      (CMat_inverse example_overflow (CMat_from_arr 0 2 2)).toOption.map
          (fun p => (p.1, (List.range 4).map p.2))
        = some (true, [.nan, .nan, .nan, .nan])) := by
  have hdet : (CMat.toMatrix 2 example_rounding_rat (CMat_from_arr 0 2 2)).det = 0 := by
    have h := CMat_det_eq 2 example_rounding_rat (CMat_from_arr 0 2 2) rfl rfl
    have h0 : CMat_det example_rounding_rat (CMat_from_arr 0 2 2) = Except.ok 0 := by decide!
    rw [h0] at h
    exact (Except.ok.inj h).symm
  obtain ⟨r1, h1⟩ := exists_state_of_flag
    (CMat_inverse example_rounding (CMat_from_arr 0 2 2)) (by decide!)
  obtain ⟨r2, h2⟩ := exists_state_of_flag
    (CMat_inverse example_overflow (CMat_from_arr 0 2 2)) (by decide!)
  refine ⟨⟨hdet, ⟨r1, h1⟩, ?_, by decide!, by decide!, by decide!⟩,
    ⟨by decide!, ⟨r2, h2⟩, ?_, by decide!, by decide!⟩⟩
  · rintro ⟨res, h⟩
    rw [h1] at h
    cases h
  · rintro ⟨res, h⟩
    rw [h2] at h
    cases h
